import Mathlib

/-!
Shallow embedding of the rlob limit-order matching engine
(`src/lib/src/orderbook/{types.rs, arena.rs, engine.rs}`) and proofs of the
spec claims about it.

Modelling conventions:
* `u32`/`u64`/`usize` values are `Nat`; the only arithmetic the engine performs
  on them is bounded subtraction (`min`-guarded, so it never underflows) and the
  two increments `next_order_id += 1` (u64) and `price + 1` (u32), which are
  guarded by explicit overflow checks reproducing the debug-mode panic.
* Rust panics (`Vec` indexing out of bounds, `Option::unwrap`, `expect` on a
  full arena, integer overflow) are modelled as `Except.error ()`: a call whose
  model errs is a call that does not return in the source program.
* The two `vec![PricePoint::default(); max_price]` arrays are modelled as total
  functions `Nat → PricePoint` together with the explicit length `maxPrice`;
  every Rust indexing site is preceded by the same bounds check the Rust
  runtime performs.
* The unbounded `while` loops of `limit_order` and `match_at_price` are
  modelled with explicit fuel; fuel exhaustion is an error.  The chosen fuel
  (one more than the arena size, resp. the price range) dominates every
  terminating execution whose chains are acyclic, which holds in all reachable
  states; runs on which the Rust loop diverges are likewise errors.
-/

set_option maxHeartbeats 1000000

namespace RLob

/-- Trader identifier: eight opaque bytes, compared by value; modelled as the
number they encode. -/
structure TraderId where
  bytes : Nat
deriving DecidableEq

/-- Order side (`Side` in `types.rs`). -/
inductive Side where
  | Buy : Side
  | Sell : Side
deriving DecidableEq


/-- A matched fill (`Trade` in `types.rs`). -/
structure Trade where
  buyer : TraderId
  seller : TraderId
  price : Nat
  quantity : Nat
deriving DecidableEq

/-- `Trade::new`. -/
def Trade.new (buyer seller : TraderId) (price : Nat) (quantity : Nat) : Trade :=
  ⟨buyer, seller, price, quantity⟩

/-- Arena slot payload (`OrderEntry` in `types.rs`). -/
structure OrderEntry where
  order_id : Nat
  trader : TraderId
  quantity : Nat
  next_idx : Option Nat
deriving DecidableEq

/-- `OrderEntry::new`. -/
def OrderEntry.new (order_id : Nat) (trader : TraderId) (quantity : Nat) : OrderEntry :=
  ⟨order_id, trader, quantity, none⟩

/-- `OrderEntry::is_active`: quantity strictly positive. -/
def OrderEntry.is_active (e : OrderEntry) : Bool :=
  decide (0 < e.quantity)

/-- `OrderEntry::cancel`: zero the quantity in place. -/
def OrderEntry.cancel (e : OrderEntry) : OrderEntry :=
  { e with quantity := 0 }

/-- Head/tail of the intrusive FIFO list at one price (`PricePoint`). -/
structure PricePoint where
  first_order_idx : Option Nat
  last_order_idx : Option Nat
deriving DecidableEq

/-- `PricePoint::default`. -/
def PricePoint.default : PricePoint := ⟨none, none⟩

/-- `PricePoint::is_empty`. -/
def PricePoint.is_empty (pp : PricePoint) : Bool :=
  pp.first_order_idx.isNone

/-- `PricePoint::push_back`: the caller is responsible for linking the old
tail's `next_idx` first. -/
def PricePoint.push_back (pp : PricePoint) (idx : Nat) : PricePoint :=
  match pp.last_order_idx with
  | none => ⟨some idx, some idx⟩
  | some _ => { pp with last_order_idx := some idx }

/-- Bump allocator over a fixed-capacity vector (`OrderArena` in `arena.rs`).
`next_free` always equals `entries.len()` in the source, so only the list is
kept. -/
structure OrderArena where
  entries : List OrderEntry
  capacity : Nat

/-- `OrderArena::new`. -/
def OrderArena.new (capacity : Nat) : OrderArena := ⟨[], capacity⟩

/-- `OrderArena::allocate`: append at `next_free`, `none` when full. -/
def OrderArena.allocate (a : OrderArena) (e : OrderEntry) : Option (OrderArena × Nat) :=
  if a.capacity ≤ a.entries.length then none
  else some ({ a with entries := a.entries ++ [e] }, a.entries.length)

/-- `OrderArena::get`. -/
def OrderArena.get (a : OrderArena) (i : Nat) : Option OrderEntry :=
  a.entries[i]?

/-- The write-back half of a Rust `get_mut`: replace slot `i`. -/
def OrderArena.setEntry (a : OrderArena) (i : Nat) (e : OrderEntry) : OrderArena :=
  { a with entries := a.entries.set i e }

/-- One past the largest `u32` value. -/
def U32 : Nat := 4294967296

/-- One past the largest `u64` value. -/
def U64 : Nat := 18446744073709551616

/-- The order book (`OrderBook` in `engine.rs`). -/
structure OrderBook where
  bids : Nat → PricePoint
  asks : Nat → PricePoint
  maxPrice : Nat
  arena : OrderArena
  order_index : Nat → Option Nat
  bid_max : Option Nat
  ask_min : Option Nat
  next_order_id : Nat
  trades : List Trade

/-- `OrderBook::with_capacity`. -/
def OrderBook.with_capacity (max_price max_orders : Nat) : OrderBook :=
  { bids := fun _ => PricePoint.default
    asks := fun _ => PricePoint.default
    maxPrice := max_price
    arena := OrderArena.new max_orders
    order_index := fun _ => none
    bid_max := none
    ask_min := none
    next_order_id := 1
    trades := [] }

/-- `MAX_PRICE` in `engine.rs`. -/
def MAX_PRICE : Nat := 10000000

/-- `OrderBook::new`. -/
def OrderBook.new : OrderBook := OrderBook.with_capacity MAX_PRICE 1000000

/-- `OrderBook::best_bid`. -/
def OrderBook.best_bid (b : OrderBook) : Option Nat := b.bid_max

/-- `OrderBook::best_ask`. -/
def OrderBook.best_ask (b : OrderBook) : Option Nat := b.ask_min

/-- Upward linear scan of `find_next_ask`: try indices `i, i+1, …` for `n`
steps, returning the first index whose level is non-empty. -/
def scanUp (asks : Nat → PricePoint) : Nat → Nat → Option Nat
  | _, 0 => none
  | i, n+1 => if (asks i).is_empty then scanUp asks (i+1) n else some i

/-- Downward linear scan of `find_prev_bid`: try indices `i, i-1, …, 0`,
returning the first index whose level is non-empty. -/
def scanDown (bids : Nat → PricePoint) : Nat → Option Nat
  | 0 => if (bids 0).is_empty then none else some 0
  | i+1 => if (bids (i+1)).is_empty then scanDown bids i else some (i+1)

/-- `OrderBook::find_next_ask`: scan `start_price .. maxPrice`. -/
def OrderBook.find_next_ask (b : OrderBook) (start_price : Nat) : Option Nat :=
  scanUp b.asks start_price (b.maxPrice - start_price)

/-- `OrderBook::find_prev_bid`: scan `min start_price (len-1) … 0`. -/
def OrderBook.find_prev_bid (b : OrderBook) (start_price : Nat) : Option Nat :=
  scanDown b.bids (min start_price (b.maxPrice - 1))

/-- The trade record built inside `match_at_price`: the aggressor's trader is
put on its own side, the resting entry's trader on the other. -/
def mkTrade (side : Side) (trader resting : TraderId) (price : Nat) (q : Nat) : Trade :=
  match side with
  | Side.Buy => Trade.new trader resting price q
  | Side.Sell => Trade.new resting trader price q

/-- The mutable locals of the `while` loop of `match_at_price`. -/
structure LoopSt where
  arena : OrderArena
  oindex : Nat → Option Nat
  remaining : Nat
  trades : List Trade
  current_idx : Option Nat
  first_active : Option Nat

/-- The fill stage of one `while` iteration of `match_at_price`: if the entry
at `idx` is active, record the fill `min(remaining, entry.quantity)`,
decrement both quantities, unindex the entry when it reaches zero, and keep
`first_active_idx` up to date. -/
def processEntry (trader : TraderId) (side : Side) (price : Nat)
    (st : LoopSt) (idx : Nat) (e : OrderEntry) : LoopSt :=
  if e.is_active then
    let fa := if st.first_active.isNone then some idx else st.first_active
    let f := min st.remaining e.quantity
    let arena1 := st.arena.setEntry idx { e with quantity := e.quantity - f }
    if e.quantity - f = 0 then
      { st with arena := arena1,
                oindex := Function.update st.oindex e.order_id none,
                remaining := st.remaining - f,
                trades := st.trades ++ [mkTrade side trader e.trader price f],
                first_active := if fa = some idx then none else fa }
    else
      { st with arena := arena1,
                remaining := st.remaining - f,
                trades := st.trades ++ [mkTrade side trader e.trader price f],
                first_active := fa }
  else st

/-- One iteration of the `while` body of `match_at_price`, at chain position
`idx`: the fill stage, then advance along `next_idx` and run the look-ahead
that re-seats `first_active_idx` on an active successor. -/
def matchStep (trader : TraderId) (side : Side) (price : Nat)
    (st : LoopSt) (idx : Nat) : Except Unit LoopSt :=
  match st.arena.get idx with
  | none => Except.error ()
  | some e =>
    let st1 : LoopSt := processEntry trader side price st idx e
    match st1.arena.get idx with
    | none => Except.error ()
    | some e2 =>
      match e2.next_idx with
      | none => Except.ok { st1 with current_idx := none }
      | some nidx =>
        if st1.first_active.isNone then
          match st1.arena.get nidx with
          | none => Except.error ()
          | some ne =>
            Except.ok { st1 with current_idx := some nidx,
                                 first_active := if ne.is_active then some nidx else none }
        else Except.ok { st1 with current_idx := some nidx }

/-- The `while *remaining > 0 && current_idx.is_some()` loop of
`match_at_price`, with fuel: repeat `matchStep` while the guard holds. -/
def matchLoop (trader : TraderId) (side : Side) (price : Nat) :
    Nat → LoopSt → Except Unit LoopSt
  | 0, st =>
      if 0 < st.remaining ∧ st.current_idx.isSome then Except.error () else Except.ok st
  | fuel+1, st =>
      match st.current_idx with
      | none => Except.ok st
      | some idx =>
        if 0 < st.remaining then
          match matchStep trader side price st idx with
          | Except.error _ => Except.error ()
          | Except.ok st2 => matchLoop trader side price fuel st2
        else Except.ok st

/-- `OrderBook::match_at_price`: walk the FIFO chain of the opposite level at
`price`, then write back the lazily pruned head (or clear the level). -/
def OrderBook.match_at_price (b : OrderBook) (_order_id : Nat) (trader : TraderId)
    (side : Side) (price : Nat) (remaining : Nat) :
    Except Unit (OrderBook × List Trade × Nat) :=
  if price < b.maxPrice then
    let pp := match side with
      | Side.Buy => b.asks price
      | Side.Sell => b.bids price
    match matchLoop trader side price (b.arena.entries.length + 1)
        ⟨b.arena, b.order_index, remaining, [], pp.first_order_idx, none⟩ with
    | Except.error _ => Except.error ()
    | Except.ok st =>
      let pp' : PricePoint :=
        if st.first_active.isNone ∧ st.current_idx.isNone then ⟨none, none⟩
        else if st.first_active.isSome then { pp with first_order_idx := st.first_active }
        else pp
      let b' : OrderBook :=
        match side with
        | Side.Buy =>
            { b with asks := Function.update b.asks price pp',
                     arena := st.arena, order_index := st.oindex }
        | Side.Sell =>
            { b with bids := Function.update b.bids price pp',
                     arena := st.arena, order_index := st.oindex }
      Except.ok (b', st.trades, st.remaining)
  else Except.error ()

/-- `OrderBook::add_order`: allocate the entry, index it, link it behind the
current tail of its level, `push_back` it. -/
def OrderBook.add_order (b : OrderBook) (order_id : Nat) (trader : TraderId)
    (side : Side) (price : Nat) (quantity : Nat) : Except Unit OrderBook :=
  match b.arena.allocate (OrderEntry.new order_id trader quantity) with
  | none => Except.error ()
  | some (arena1, idx) =>
    let oindex1 := Function.update b.order_index order_id (some idx)
    if price < b.maxPrice then
      let pp := match side with
        | Side.Buy => b.bids price
        | Side.Sell => b.asks price
      match pp.last_order_idx with
      | some last_idx =>
        match arena1.get last_idx with
        | none => Except.error ()
        | some le =>
          let arena2 := arena1.setEntry last_idx { le with next_idx := some idx }
          let pp' := pp.push_back idx
          Except.ok (match side with
            | Side.Buy => { b with bids := Function.update b.bids price pp',
                                   arena := arena2, order_index := oindex1 }
            | Side.Sell => { b with asks := Function.update b.asks price pp',
                                    arena := arena2, order_index := oindex1 })
      | none =>
        let pp' := pp.push_back idx
        Except.ok (match side with
          | Side.Buy => { b with bids := Function.update b.bids price pp',
                                 arena := arena1, order_index := oindex1 }
          | Side.Sell => { b with asks := Function.update b.asks price pp',
                                  arena := arena1, order_index := oindex1 })
    else Except.error ()

/-- The `while remaining > 0 && ask_price <= price` loop of the `Side::Buy`
branch of `limit_order`, with fuel.  `price + 1` is evaluated eagerly by
`unwrap_or` each iteration, hence the u32 overflow guard. -/
def OrderBook.buyLoop (trader : TraderId) (order_id : Nat) (price : Nat) :
    Nat → OrderBook → Nat → Nat → List Trade →
    Except Unit (OrderBook × Nat × List Trade)
  | 0, b, ask_price, remaining, trades =>
      if 0 < remaining ∧ ask_price ≤ price then Except.error ()
      else Except.ok (b, remaining, trades)
  | fuel+1, b, ask_price, remaining, trades =>
      if 0 < remaining ∧ ask_price ≤ price then
        match b.match_at_price order_id trader Side.Buy ask_price remaining with
        | Except.error _ => Except.error ()
        | Except.ok (b1, fills, remaining1) =>
          if price + 1 < U32 then
            OrderBook.buyLoop trader order_id price fuel b1
              ((b1.find_next_ask ask_price).getD (price + 1)) remaining1 (trades ++ fills)
          else Except.error ()
      else Except.ok (b, remaining, trades)

/-- The `while remaining > 0 && bid_price >= price` loop of the `Side::Sell`
branch of `limit_order`, with fuel. -/
def OrderBook.sellLoop (trader : TraderId) (order_id : Nat) (price : Nat) :
    Nat → OrderBook → Nat → Nat → List Trade →
    Except Unit (OrderBook × Nat × List Trade)
  | 0, b, bid_price, remaining, trades =>
      if 0 < remaining ∧ price ≤ bid_price then Except.error ()
      else Except.ok (b, remaining, trades)
  | fuel+1, b, bid_price, remaining, trades =>
      if 0 < remaining ∧ price ≤ bid_price then
        match b.match_at_price order_id trader Side.Sell bid_price remaining with
        | Except.error _ => Except.error ()
        | Except.ok (b1, fills, remaining1) =>
          OrderBook.sellLoop trader order_id price fuel b1
            ((b1.find_prev_bid bid_price).getD 0) remaining1 (trades ++ fills)
      else Except.ok (b, remaining, trades)

/-- The matching phase of the `Side::Buy` branch of `limit_order`: the
`if let Some(ask_price)` block, including the final `ask_min` refresh. -/
def OrderBook.buyPhase (b0 : OrderBook) (trader : TraderId)
    (order_id price quantity : Nat) : Except Unit (OrderBook × Nat × List Trade) :=
  match b0.ask_min with
  | some a0 =>
    match OrderBook.buyLoop trader order_id price (b0.maxPrice + 2) b0 a0 quantity [] with
    | Except.error _ => Except.error ()
    | Except.ok (b1, remaining, trades) =>
      Except.ok (({ b1 with ask_min := b1.find_next_ask 0 } : OrderBook), remaining, trades)
  | none => Except.ok (b0, quantity, [])

/-- The matching phase of the `Side::Sell` branch of `limit_order`: the
`if let Some(bid_price)` block, including the final `bid_max` refresh. -/
def OrderBook.sellPhase (b0 : OrderBook) (trader : TraderId)
    (order_id price quantity : Nat) : Except Unit (OrderBook × Nat × List Trade) :=
  match b0.bid_max with
  | some p0 =>
    match OrderBook.sellLoop trader order_id price (b0.maxPrice + 2) b0 p0 quantity [] with
    | Except.error _ => Except.error ()
    | Except.ok (b1, remaining, trades) =>
      Except.ok (({ b1 with bid_max := b1.find_prev_bid (U32 - 1) } : OrderBook),
        remaining, trades)
  | none => Except.ok (b0, quantity, [])

/-- The tail of the `Side::Buy` branch of `limit_order`: rest the remainder
(if any), bump `bid_max`, append the fills to the trade log. -/
def OrderBook.finishBuy (b1 : OrderBook) (trader : TraderId)
    (order_id price remaining : Nat) (trades : List Trade) :
    Except Unit (OrderBook × Nat × List Trade) :=
  if 0 < remaining then
    match b1.add_order order_id trader Side.Buy price remaining with
    | Except.error _ => Except.error ()
    | Except.ok b2 =>
      let b3 := if (match b2.bid_max with | none => true | some m => decide (m < price))
                then { b2 with bid_max := some price } else b2
      Except.ok ({ b3 with trades := b3.trades ++ trades }, order_id, trades)
  else
    Except.ok ({ b1 with trades := b1.trades ++ trades }, order_id, trades)

/-- The tail of the `Side::Sell` branch of `limit_order`: rest the remainder
(if any), lower `ask_min`, append the fills to the trade log. -/
def OrderBook.finishSell (b1 : OrderBook) (trader : TraderId)
    (order_id price remaining : Nat) (trades : List Trade) :
    Except Unit (OrderBook × Nat × List Trade) :=
  if 0 < remaining then
    match b1.add_order order_id trader Side.Sell price remaining with
    | Except.error _ => Except.error ()
    | Except.ok b2 =>
      let b3 := if (match b2.ask_min with | none => true | some m => decide (price < m))
                then { b2 with ask_min := some price } else b2
      Except.ok ({ b3 with trades := b3.trades ++ trades }, order_id, trades)
  else
    Except.ok ({ b1 with trades := b1.trades ++ trades }, order_id, trades)

/-- `OrderBook::limit_order`.  Returns the fresh order id and the fills; the
model errs exactly where the source panics or diverges. -/
def OrderBook.limit_order (b : OrderBook) (trader : TraderId) (side : Side)
    (price : Nat) (quantity : Nat) :
    Except Unit (OrderBook × Nat × List Trade) :=
  if b.next_order_id + 1 ≤ U64 - 1 then
    let order_id := b.next_order_id
    let b0 : OrderBook := { b with next_order_id := b.next_order_id + 1 }
    match side with
    | Side.Buy =>
      match b0.buyPhase trader order_id price quantity with
      | Except.error _ => Except.error ()
      | Except.ok (b1, remaining, trades) =>
        b1.finishBuy trader order_id price remaining trades
    | Side.Sell =>
      match b0.sellPhase trader order_id price quantity with
      | Except.error _ => Except.error ()
      | Except.ok (b1, remaining, trades) =>
        b1.finishSell trader order_id price remaining trades
  else Except.error ()

/-- `OrderBook::cancel_order`: single in-place write, remove from the index,
`true` on success and `false` for unknown or terminal ids. -/
def OrderBook.cancel_order (b : OrderBook) (order_id : Nat) : OrderBook × Bool :=
  match b.order_index order_id with
  | some idx =>
    match b.arena.get idx with
    | some e =>
      ({ b with arena := b.arena.setEntry idx e.cancel,
                order_index := Function.update b.order_index order_id none }, true)
    | none => (b, false)
  | none => (b, false)

/-- Books reachable from a freshly constructed book (of any positive,
u32-representable price range) by completed `limit_order` and `cancel_order`
calls. -/
inductive Reachable : OrderBook → Prop where
  | init (mp mo : Nat) (h1 : 0 < mp) (h2 : mp ≤ U32) :
      Reachable (OrderBook.with_capacity mp mo)
  | limit {b b' : OrderBook} {t : TraderId} {s : Side} {p : Nat} {q : Nat}
      {oid : Nat} {tr : List Trade}
      (hr : Reachable b) (h : b.limit_order t s p q = Except.ok (b', oid, tr)) :
      Reachable b'
  | cancel {b : OrderBook} (oid : Nat) (hr : Reachable b) :
      Reachable (b.cancel_order oid).1

/-- A call into the engine's mutator surface. -/
inductive Op where
  | limit (t : TraderId) (s : Side) (p : Nat) (q : Nat) : Op
  | cancel (oid : Nat) : Op

/-- Apply one call, keeping only the resulting book. -/
def applyOp (b : OrderBook) : Op → Except Unit OrderBook
  | Op.limit t s p q =>
      match b.limit_order t s p q with
      | Except.ok (b', _, _) => Except.ok b'
      | Except.error _ => Except.error ()
  | Op.cancel oid => Except.ok (b.cancel_order oid).1

/-- Apply a sequence of calls left to right. -/
def applyOps (b : OrderBook) : List Op → Except Unit OrderBook
  | [] => Except.ok b
  | op :: ops =>
      match applyOp b op with
      | Except.ok b' => applyOps b' ops
      | Except.error _ => Except.error ()

/-- Total quantity of a list of trades. -/
def sumQty (l : List Trade) : Nat :=
  (l.map Trade.quantity).sum

/-- Nat resting in the book under order id `oid`: the quantity of the
arena slot the index maps `oid` to, zero when unmapped. -/
def restingQty (b : OrderBook) (oid : Nat) : Nat :=
  match b.order_index oid with
  | some i =>
    match b.arena.get i with
    | some e => e.quantity
    | none => 0
  | none => 0

/-- Forward index invariant: every mapping of the order index points at an
arena slot holding a live order with that id. -/
def Fwd (oi : Nat → Option Nat) (ar : OrderArena) : Prop :=
  ∀ X i, oi X = some i →
    ∃ e, ar.get i = some e ∧ e.order_id = X ∧ 0 < e.quantity

/-- Backward index invariant: every live arena slot is indexed under its id. -/
def Bwd (oi : Nat → Option Nat) (ar : OrderArena) : Prop :=
  ∀ i e, ar.get i = some e → 0 < e.quantity → oi e.order_id = some i

/-- All arena entries carry ids strictly below `n`. -/
def OidBound (n : Nat) (ar : OrderArena) : Prop :=
  ∀ i e, ar.get i = some e → e.order_id < n

/-- Invariant of `first_active_idx` while quantity remains: it is clear, or it
sits exactly on the current, still-active chain position. -/
def FAInv (st : LoopSt) : Prop :=
  st.first_active = none ∨
  ∃ i e, st.current_idx = some i ∧ st.first_active = some i ∧
    st.arena.get i = some e ∧ e.is_active = true

/-- No crossed levels: every (lazily) non-empty bid level sits strictly below
every (lazily) non-empty ask level. -/
def NoCross (b : OrderBook) : Prop :=
  ∀ p q, p < b.maxPrice → q < b.maxPrice →
    (b.bids p).is_empty = false → (b.asks q).is_empty = false → p < q

/-- The cached best prices agree with a full scan of the level arrays. -/
def CacheInv (b : OrderBook) : Prop :=
  b.bid_max = scanDown b.bids (b.maxPrice - 1) ∧
  b.ask_min = scanUp b.asks 0 b.maxPrice

/-- All ask levels strictly below `a` (inside the array) are empty. -/
def EmptyBelowAsk (b : OrderBook) (a : Nat) : Prop :=
  ∀ q, q < a → q < b.maxPrice → (b.asks q).is_empty = true

/-- All bid levels strictly above `a` (inside the array) are empty. -/
def EmptyAboveBid (b : OrderBook) (a : Nat) : Prop :=
  ∀ q, a < q → q < b.maxPrice → (b.bids q).is_empty = true

/-- Two arenas agreeing on the id and quantity stored in every slot (they may
differ in chain links and traders). -/
def SameOidQty (a1 a2 : OrderArena) : Prop :=
  ∀ i, Option.map (fun e => (e.order_id, e.quantity)) (a1.get i) =
       Option.map (fun e => (e.order_id, e.quantity)) (a2.get i)

/-- Levels that look empty (head cleared) also have a cleared tail, so a
`push_back` onto a level with a live tail reaches a live head. -/
def LevelsWF (b : OrderBook) : Prop :=
  (∀ q, (b.bids q).is_empty = true → (b.bids q).last_order_idx = none) ∧
  (∀ q, (b.asks q).is_empty = true → (b.asks q).last_order_idx = none)

/-- The well-formedness invariant maintained by every mutator. -/
def WF (b : OrderBook) : Prop :=
  Fwd b.order_index b.arena ∧ Bwd b.order_index b.arena ∧
  OidBound b.next_order_id b.arena ∧ CacheInv b ∧ NoCross b ∧ LevelsWF b ∧
  0 < b.maxPrice ∧ b.maxPrice ≤ U32

/-- Extract the book from a successful mutator call (default on error). -/
def okBook (r : Except Unit (OrderBook × Nat × List Trade)) (d : OrderBook) : OrderBook :=
  match r with
  | Except.ok (bk, _, _) => bk
  | Except.error _ => d

/-- A small concrete book used by witnesses. -/
def Wb0 : OrderBook := OrderBook.with_capacity 8 4

/-- `Wb0` after one resting buy of 5 at price 2 (order id 1). -/
def Wb1 : OrderBook := okBook (Wb0.limit_order ⟨1⟩ Side.Buy 2 5) Wb0

/-- `Wb1` after one resting sell of 5 at price 5 (order id 2). -/
def Wb2 : OrderBook := okBook (Wb1.limit_order ⟨2⟩ Side.Sell 5 5) Wb1

/-- The trades of a successful mutator call (empty on error). -/
def okTrades (r : Except Unit (OrderBook × Nat × List Trade)) : List Trade :=
  match r with
  | Except.ok (_, _, tr) => tr
  | Except.error _ => []

/-- A small book holding one resting sell of `q1` at price 3 under order
id 1: the state produced by one `limit_order` sell on a fresh book. -/
def C4book (t1 : TraderId) (q1 : Nat) : OrderBook :=
  { bids := fun _ => PricePoint.default
    asks := Function.update (fun _ => PricePoint.default) 3 (PricePoint.default.push_back 0)
    maxPrice := 8
    arena := { entries := [OrderEntry.new 1 t1 q1], capacity := 4 }
    order_index := Function.update (fun _ => none) 1 (some 0)
    bid_max := none
    ask_min := some 3
    next_order_id := 2
    trades := [] }

/-- A small book holding one resting sell of `qA` at price 3 (order id 1). -/
def C3bookA (tA : TraderId) (qA : Nat) : OrderBook :=
  { bids := fun _ => PricePoint.default
    asks := Function.update (fun _ => PricePoint.default) 3 (PricePoint.default.push_back 0)
    maxPrice := 8
    arena := { entries := [OrderEntry.new 1 tA qA], capacity := 4 }
    order_index := Function.update (fun _ => none) 1 (some 0)
    bid_max := none
    ask_min := some 3
    next_order_id := 2
    trades := [] }

/-- A small book whose price-3 ask level holds the FIFO chain A (id 1,
`qA`) then B (id 2, `qB`), in that arrival order. -/
def C3bookAB (tA tB : TraderId) (qA qB : Nat) : OrderBook :=
  { bids := fun _ => PricePoint.default
    asks := Function.update (fun _ => PricePoint.default) 3
      { first_order_idx := some 0, last_order_idx := some 1 }
    maxPrice := 8
    arena := { entries := [⟨1, tA, qA, some 1⟩, ⟨2, tB, qB, none⟩], capacity := 4 }
    order_index := Function.update (Function.update (fun _ => none) 1 (some 0)) 2 (some 1)
    bid_max := none
    ask_min := some 3
    next_order_id := 3
    trades := [] }


/-- Nat stored in slot `x` of the arena (0 for a missing slot). -/
def entryQty (ar : OrderArena) (x : Nat) : Nat :=
  match ar.get x with
  | some e => e.quantity
  | none => 0

/-- The `next_idx` link of slot `x`, `none` when the slot is missing: the
part of a slot the chain structure depends on. -/
def entryNext (ar : OrderArena) (x : Nat) : Option (Option Nat) :=
  (ar.get x).map OrderEntry.next_idx

/-- `isChain ar h c` holds when `c` is exactly the list of slots reached
from head `h` by following `next_idx` until `none`: the FIFO chain of a
price level. -/
def isChain (ar : OrderArena) : Option Nat → List Nat → Bool
  | none, [] => true
  | none, _ :: _ => false
  | some _, [] => false
  | some i, j :: c =>
      decide (i = j) &&
        match ar.get i with
        | none => false
        | some e => isChain ar e.next_idx c

/-- The level array an aggressor on side `s` matches against. -/
def oppLevel (b : OrderBook) (s : Side) (P : Nat) : PricePoint :=
  match s with
  | Side.Buy => b.asks P
  | Side.Sell => b.bids P

/-- Chain well-formedness of a book: every in-range level of both arrays
carries a finite, duplicate-free chain, chains of distinct levels share no
slot, and each level's tail pointer is its chain's last slot. -/
structure ChainsWF (b : OrderBook) : Prop where
  chains : ∀ s P, P < b.maxPrice →
    ∃ c, isChain b.arena (oppLevel b s P).first_order_idx c = true ∧ c.Nodup
  disj : ∀ s P s' P' c c', P < b.maxPrice → P' < b.maxPrice → ¬ (s = s' ∧ P = P') →
    isChain b.arena (oppLevel b s P).first_order_idx c = true →
    isChain b.arena (oppLevel b s' P').first_order_idx c' = true →
    ∀ x, x ∈ c → x ∉ c'
  tails : ∀ s P c, P < b.maxPrice →
    isChain b.arena (oppLevel b s P).first_order_idx c = true →
    (oppLevel b s P).last_order_idx = c.getLast?

/-- `bk` is `b` part-way through matching: same price range, every slot keeps
its trader with no more quantity than before, and every level's FIFO chain is
a suffix of what it was in `b`. -/
def Evolved (b bk : OrderBook) : Prop :=
  bk.maxPrice = b.maxPrice ∧
  (∀ x e', bk.arena.get x = some e' → ∃ e, b.arena.get x = some e ∧
    e'.trader = e.trader ∧ e'.quantity ≤ e.quantity) ∧
  (∀ s q c, q < b.maxPrice →
    isChain b.arena (oppLevel b s q).first_order_idx c = true →
    ∃ c2, c2.IsSuffix c ∧ isChain bk.arena (oppLevel bk s q).first_order_idx c2 = true)

section Lemmas

/-! ### Arena access lemmas -/

theorem OrderArena.lt_length_of_get {a : OrderArena} {i : Nat} {e : OrderEntry}
    (h : a.get i = some e) : i < a.entries.length := by
  by_contra hn
  rw [OrderArena.get, List.getElem?_eq_none (by omega)] at h
  exact Option.noConfusion h

theorem OrderArena.get_setEntry (a : OrderArena) (i : Nat) (e : OrderEntry) (j : Nat) :
    (a.setEntry i e).get j =
      if i = j then (if i < a.entries.length then some e else none) else a.get j := by
  simp [OrderArena.get, OrderArena.setEntry, List.getElem?_set]

theorem OrderArena.get_setEntry_self {a : OrderArena} {i : Nat} {e e0 : OrderEntry}
    (h : a.get i = some e0) : (a.setEntry i e).get i = some e := by
  rw [OrderArena.get_setEntry, if_pos rfl, if_pos (OrderArena.lt_length_of_get h)]

theorem OrderArena.get_setEntry_ne {a : OrderArena} {i j : Nat} {e : OrderEntry}
    (h : i ≠ j) : (a.setEntry i e).get j = a.get j := by
  rw [OrderArena.get_setEntry, if_neg h]

/-! ### Linear scan characterisations -/

theorem scanUp_none {asks : Nat → PricePoint} :
    ∀ n i, (∀ q, i ≤ q → q < i + n → (asks q).is_empty = true) →
      scanUp asks i n = none := by
  intro n
  induction n with
  | zero => intro i _; rfl
  | succ n ih =>
    intro i h
    rw [scanUp, if_pos (h i le_rfl (by omega))]
    exact ih (i+1) (fun q h1 h2 => h q (by omega) (by omega))

theorem scanUp_some {asks : Nat → PricePoint} {p : Nat} :
    ∀ n i, i ≤ p → p < i + n → (asks p).is_empty = false →
      (∀ q, i ≤ q → q < p → (asks q).is_empty = true) →
      scanUp asks i n = some p := by
  intro n
  induction n with
  | zero => intro i h1 h2 _ _; omega
  | succ n ih =>
    intro i hip hpn hne hbelow
    by_cases hi : i = p
    · subst hi; rw [scanUp, if_neg (by simp [hne])]
    · rw [scanUp, if_pos (hbelow i le_rfl (by omega))]
      exact ih (i+1) (by omega) (by omega) hne (fun q h1 h2 => hbelow q (by omega) h2)

theorem scanUp_some_spec {asks : Nat → PricePoint} {p : Nat} :
    ∀ n i, scanUp asks i n = some p →
      i ≤ p ∧ p < i + n ∧ (asks p).is_empty = false ∧
      ∀ q, i ≤ q → q < p → (asks q).is_empty = true := by
  intro n
  induction n with
  | zero => intro i h; exact Option.noConfusion h
  | succ n ih =>
    intro i h
    rw [scanUp] at h
    by_cases he : (asks i).is_empty = true
    · rw [if_pos he] at h
      obtain ⟨h1, h2, h3, h4⟩ := ih (i+1) h
      exact ⟨by omega, by omega, h3, fun q hq1 hq2 => by
        rcases Nat.eq_or_lt_of_le hq1 with rfl | hlt
        · exact he
        · exact h4 q (by omega) hq2⟩
    · rw [if_neg he] at h
      obtain rfl : i = p := Option.some.inj h
      exact ⟨le_rfl, by omega, by simpa using he, fun q h1 h2 => by omega⟩

theorem scanUp_none_spec {asks : Nat → PricePoint} :
    ∀ n i, scanUp asks i n = none →
      ∀ q, i ≤ q → q < i + n → (asks q).is_empty = true := by
  intro n
  induction n with
  | zero => intro i _ q h1 h2; omega
  | succ n ih =>
    intro i h q hq1 hq2
    rw [scanUp] at h
    by_cases he : (asks i).is_empty = true
    · rw [if_pos he] at h
      rcases Nat.eq_or_lt_of_le hq1 with rfl | hlt
      · exact he
      · exact ih (i+1) h q (by omega) (by omega)
    · rw [if_neg he] at h
      exact Option.noConfusion h

theorem scanUp_congr {f g : Nat → PricePoint} :
    ∀ n i, (∀ q, i ≤ q → q < i + n → f q = g q) → scanUp f i n = scanUp g i n := by
  intro n
  induction n with
  | zero => intro i _; rfl
  | succ n ih =>
    intro i h
    rw [scanUp, scanUp, h i le_rfl (by omega), ih (i+1) (fun q h1 h2 => h q (by omega) (by omega))]

theorem scanDown_none {bids : Nat → PricePoint} :
    ∀ i, (∀ q, q ≤ i → (bids q).is_empty = true) → scanDown bids i = none := by
  intro i
  induction i with
  | zero => intro h; rw [scanDown, if_pos (h 0 le_rfl)]
  | succ i ih =>
    intro h
    rw [scanDown, if_pos (h (i+1) le_rfl)]
    exact ih (fun q hq => h q (by omega))

theorem scanDown_some {bids : Nat → PricePoint} {p : Nat} :
    ∀ i, p ≤ i → (bids p).is_empty = false →
      (∀ q, p < q → q ≤ i → (bids q).is_empty = true) →
      scanDown bids i = some p := by
  intro i
  induction i with
  | zero =>
    intro h1 h2 _
    obtain rfl : p = 0 := by omega
    rw [scanDown, if_neg (by simp [h2])]
  | succ i ih =>
    intro hpi hne habove
    by_cases hp : p = i + 1
    · subst hp; rw [scanDown, if_neg (by simp [hne])]
    · rw [scanDown, if_pos (habove (i+1) (by omega) le_rfl)]
      exact ih (by omega) hne (fun q h1 h2 => habove q h1 (by omega))

theorem scanDown_some_spec {bids : Nat → PricePoint} {p : Nat} :
    ∀ i, scanDown bids i = some p →
      p ≤ i ∧ (bids p).is_empty = false ∧
      ∀ q, p < q → q ≤ i → (bids q).is_empty = true := by
  intro i
  induction i with
  | zero =>
    intro h
    rw [scanDown] at h
    by_cases he : (bids 0).is_empty = true
    · rw [if_pos he] at h; exact Option.noConfusion h
    · rw [if_neg he] at h
      obtain rfl : (0 : Nat) = p := Option.some.inj h
      exact ⟨le_rfl, by simpa using he, fun q h1 h2 => by omega⟩
  | succ i ih =>
    intro h
    rw [scanDown] at h
    by_cases he : (bids (i+1)).is_empty = true
    · rw [if_pos he] at h
      obtain ⟨h1, h2, h3⟩ := ih h
      refine ⟨by omega, h2, fun q hq1 hq2 => ?_⟩
      rcases Nat.eq_or_lt_of_le hq2 with rfl | hlt
      · exact he
      · exact h3 q hq1 (by omega)
    · rw [if_neg he] at h
      obtain rfl : i + 1 = p := Option.some.inj h
      exact ⟨le_rfl, by simpa using he, fun q h1 h2 => by omega⟩

theorem scanDown_none_spec {bids : Nat → PricePoint} :
    ∀ i, scanDown bids i = none → ∀ q, q ≤ i → (bids q).is_empty = true := by
  intro i
  induction i with
  | zero =>
    intro h q hq
    obtain rfl : q = 0 := by omega
    rw [scanDown] at h
    by_cases he : (bids 0).is_empty = true
    · exact he
    · rw [if_neg he] at h; exact Option.noConfusion h
  | succ i ih =>
    intro h q hq
    rw [scanDown] at h
    by_cases he : (bids (i+1)).is_empty = true
    · rw [if_pos he] at h
      rcases Nat.eq_or_lt_of_le hq with rfl | hlt
      · exact he
      · exact ih h q (by omega)
    · rw [if_neg he] at h; exact Option.noConfusion h

theorem scanDown_congr {f g : Nat → PricePoint} :
    ∀ i, (∀ q, q ≤ i → f q = g q) → scanDown f i = scanDown g i := by
  intro i
  induction i with
  | zero => intro h; rw [scanDown, scanDown, h 0 le_rfl]
  | succ i ih =>
    intro h
    rw [scanDown, scanDown, h (i+1) le_rfl, ih (fun q hq => h q (by omega))]

/-! ### Fill-stage lemmas -/

theorem sumQty_append (l : List Trade) (t : Trade) :
    sumQty (l ++ [t]) = sumQty l + t.quantity := by
  simp [sumQty]

theorem mkTrade_quantity (side : Side) (a r : TraderId) (p : Nat) (q : Nat) :
    (mkTrade side a r p q).quantity = q := by
  cases side <;> rfl

theorem update_none_of_none {oi : Nat → Option Nat} {k X : Nat}
    (h : oi X = none) : Function.update oi k none X = none := by
  by_cases hX : X = k
  · subst hX; simp
  · rw [Function.update_noteq hX]; exact h

theorem OidBound_setEntry {n : Nat} {ar : OrderArena} {i : Nat} {e e' : OrderEntry}
    (hg : ar.get i = some e) (hid : e'.order_id = e.order_id) (hb : OidBound n ar) :
    OidBound n (ar.setEntry i e') := by
  intro j ej hj
  rw [OrderArena.get_setEntry] at hj
  by_cases hij : i = j
  · rw [if_pos hij, if_pos (OrderArena.lt_length_of_get hg)] at hj
    obtain rfl := Option.some.inj hj
    rw [hid]; exact hb i e hg
  · rw [if_neg hij] at hj
    exact hb j ej hj

theorem FwdBwd_dec {oi : Nat → Option Nat} {ar : OrderArena} {i : Nat}
    {e e' : OrderEntry} (hg : ar.get i = some e)
    (hid : e'.order_id = e.order_id) (hpos : 0 < e'.quantity)
    (hle : e'.quantity ≤ e.quantity)
    (hfb : Fwd oi ar ∧ Bwd oi ar) : Fwd oi (ar.setEntry i e') ∧ Bwd oi (ar.setEntry i e') := by
  obtain ⟨hf, hb⟩ := hfb
  constructor
  · intro X j hXj
    obtain ⟨e0, he0, hide, hq0⟩ := hf X j hXj
    by_cases hij : i = j
    · subst hij
      rw [hg] at he0
      obtain rfl := Option.some.inj he0
      exact ⟨e', OrderArena.get_setEntry_self hg, by rw [hid, hide], hpos⟩
    · exact ⟨e0, by rw [OrderArena.get_setEntry_ne hij]; exact he0, hide, hq0⟩
  · intro j ej hj hq
    by_cases hij : i = j
    · subst hij
      rw [OrderArena.get_setEntry_self hg] at hj
      obtain rfl := Option.some.inj hj
      rw [hid]
      exact hb i e hg (by omega)
    · rw [OrderArena.get_setEntry_ne hij] at hj
      exact hb j ej hj hq

theorem FwdBwd_zero {oi : Nat → Option Nat} {ar : OrderArena} {i : Nat}
    {e e' : OrderEntry} (hg : ar.get i = some e)
    (hid : e'.order_id = e.order_id) (hq0 : e'.quantity = 0) (hepos : 0 < e.quantity)
    (hfb : Fwd oi ar ∧ Bwd oi ar) :
    Fwd (Function.update oi e.order_id none) (ar.setEntry i e') ∧
    Bwd (Function.update oi e.order_id none) (ar.setEntry i e') := by
  obtain ⟨hf, hb⟩ := hfb
  constructor
  · intro X j hXj
    by_cases hX : X = e.order_id
    · subst hX; simp at hXj
    · rw [Function.update_noteq hX] at hXj
      obtain ⟨e0, he0, hide, hqe0⟩ := hf X j hXj
      by_cases hij : i = j
      · subst hij
        rw [hg] at he0
        obtain rfl := Option.some.inj he0
        exact absurd hide.symm hX
      · exact ⟨e0, by rw [OrderArena.get_setEntry_ne hij]; exact he0, hide, hqe0⟩
  · intro j ej hj hq
    by_cases hij : i = j
    · subst hij
      rw [OrderArena.get_setEntry_self hg] at hj
      obtain rfl := Option.some.inj hj
      omega
    · rw [OrderArena.get_setEntry_ne hij] at hj
      have hji := hb j ej hj hq
      by_cases hide : ej.order_id = e.order_id
      · exfalso
        have hii := hb i e hg hepos
        rw [hide] at hji
        rw [hji] at hii
        exact hij (Option.some.inj hii).symm
      · rw [Function.update_noteq hide]
        exact hji

/-- All facts of the fill stage needed downstream, in one bundle. -/
theorem processEntry_ok {trader : TraderId} {side : Side} {price : Nat}
    {st : LoopSt} {idx : Nat} {e : OrderEntry} (hg : st.arena.get idx = some e) :
    (processEntry trader side price st idx e).remaining +
        sumQty (processEntry trader side price st idx e).trades =
      st.remaining + sumQty st.trades ∧
    (∀ n, OidBound n st.arena → OidBound n (processEntry trader side price st idx e).arena) ∧
    (∀ X, st.oindex X = none → (processEntry trader side price st idx e).oindex X = none) ∧
    (Fwd st.oindex st.arena ∧ Bwd st.oindex st.arena →
      Fwd (processEntry trader side price st idx e).oindex
          (processEntry trader side price st idx e).arena ∧
      Bwd (processEntry trader side price st idx e).oindex
          (processEntry trader side price st idx e).arena) ∧
    (st.current_idx = some idx → (0 < st.remaining → FAInv st) →
      0 < (processEntry trader side price st idx e).remaining →
      (processEntry trader side price st idx e).first_active = none) ∧
    (processEntry trader side price st idx e).current_idx = st.current_idx ∧
    (processEntry trader side price st idx e).remaining ≤ st.remaining := by
  unfold processEntry
  by_cases hact : e.is_active = true
  · rw [if_pos hact]
    have hepos : 0 < e.quantity := by
      have := hact
      unfold OrderEntry.is_active at this
      exact of_decide_eq_true this
    by_cases hz : e.quantity - min st.remaining e.quantity = 0
    · rw [if_pos hz]
      refine ⟨?_, ?_, ?_, ?_, ?_, rfl, ?_⟩
      · dsimp only
        rw [sumQty_append, mkTrade_quantity]
        omega
      · intro n hb
        exact OidBound_setEntry hg rfl hb
      · intro X hX
        exact update_none_of_none hX
      · intro hfb
        exact FwdBwd_zero hg rfl hz hepos hfb
      · intro hcur hFA hrem
        dsimp only at hrem ⊢
        have hst : 0 < st.remaining := by omega
        have hfa : (if st.first_active.isNone then some idx else st.first_active) = some idx := by
          rcases hFA hst with hnone | ⟨i, e', hci, hfi, _, _⟩
          · rw [hnone]; rfl
          · rw [hcur] at hci
            obtain rfl := Option.some.inj hci
            rw [hfi]; rfl
        rw [hfa, if_pos rfl]
      · dsimp only; omega
    · rw [if_neg hz]
      refine ⟨?_, ?_, ?_, ?_, ?_, rfl, ?_⟩
      · dsimp only
        rw [sumQty_append, mkTrade_quantity]
        omega
      · intro n hb
        exact OidBound_setEntry hg rfl hb
      · intro X hX
        exact hX
      · intro hfb
        exact FwdBwd_dec hg rfl (by dsimp only; omega) (by dsimp only; omega) hfb
      · intro _ _ hrem
        dsimp only at hrem
        omega
      · dsimp only; omega
  · rw [if_neg hact]
    refine ⟨rfl, fun n hb => hb, fun X hX => hX, fun hfb => hfb, ?_, rfl, le_rfl⟩
    intro hcur hFA hrem
    rcases hFA hrem with hnone | ⟨i, e', hci, hfi, hgi, hai⟩
    · exact hnone
    · rw [hcur] at hci
      obtain rfl := Option.some.inj hci
      rw [hg] at hgi
      obtain rfl := Option.some.inj hgi
      exact absurd hai hact

/-- All facts of one full loop iteration needed downstream. -/
theorem matchStep_ok {trader : TraderId} {side : Side} {price : Nat}
    {st st2 : LoopSt} {idx : Nat}
    (h : matchStep trader side price st idx = Except.ok st2) :
    st2.remaining + sumQty st2.trades = st.remaining + sumQty st.trades ∧
    (∀ n, OidBound n st.arena → OidBound n st2.arena) ∧
    (∀ X, st.oindex X = none → st2.oindex X = none) ∧
    (Fwd st.oindex st.arena ∧ Bwd st.oindex st.arena →
      Fwd st2.oindex st2.arena ∧ Bwd st2.oindex st2.arena) ∧
    (st.current_idx = some idx → (0 < st.remaining → FAInv st) →
      0 < st2.remaining → FAInv st2) ∧
    st2.remaining ≤ st.remaining := by
  simp only [matchStep] at h
  cases hg : st.arena.get idx with
  | none => rw [hg] at h; exact Except.noConfusion h
  | some e =>
    simp only [hg] at h
    obtain ⟨hsum, hoidb, hoixn, hfwd, hfa0, hcur1, hrle⟩ :=
      @processEntry_ok trader side price st idx e hg
    cases hg2 : (processEntry trader side price st idx e).arena.get idx with
    | none => simp only [hg2] at h; exact Except.noConfusion h
    | some e2 =>
      simp only [hg2] at h
      cases hnext : e2.next_idx with
      | none =>
        simp only [hnext] at h
        obtain rfl := Except.ok.inj h
        refine ⟨hsum, hoidb, hoixn, hfwd, ?_, hrle⟩
        intro hcur hFA hrem
        exact Or.inl (hfa0 hcur hFA hrem)
      | some nidx =>
        simp only [hnext] at h
        by_cases hfaN : (processEntry trader side price st idx e).first_active.isNone = true
        · rw [if_pos hfaN] at h
          cases hg3 : (processEntry trader side price st idx e).arena.get nidx with
          | none => simp only [hg3] at h; exact Except.noConfusion h
          | some ne =>
            simp only [hg3] at h
            obtain rfl := Except.ok.inj h
            refine ⟨hsum, hoidb, hoixn, hfwd, ?_, hrle⟩
            intro hcur hFA hrem
            by_cases hne : ne.is_active = true
            · rw [if_pos hne]
              exact Or.inr ⟨nidx, ne, rfl, rfl, hg3, hne⟩
            · rw [if_neg hne]
              exact Or.inl rfl
        · rw [if_neg hfaN] at h
          obtain rfl := Except.ok.inj h
          refine ⟨hsum, hoidb, hoixn, hfwd, ?_, hrle⟩
          intro hcur hFA hrem
          exact absurd (by rw [hfa0 hcur hFA hrem]; rfl) hfaN

/-- All facts of the whole `while` loop of `match_at_price`. -/
theorem matchLoop_ok {trader : TraderId} {side : Side} {price : Nat} :
    ∀ fuel (st st' : LoopSt), matchLoop trader side price fuel st = Except.ok st' →
    st'.remaining + sumQty st'.trades = st.remaining + sumQty st.trades ∧
    (∀ n, OidBound n st.arena → OidBound n st'.arena) ∧
    (∀ X, st.oindex X = none → st'.oindex X = none) ∧
    (Fwd st.oindex st.arena ∧ Bwd st.oindex st.arena →
      Fwd st'.oindex st'.arena ∧ Bwd st'.oindex st'.arena) ∧
    ((0 < st.remaining → FAInv st) →
      0 < st'.remaining → st'.current_idx = none ∧ st'.first_active = none) ∧
    st'.remaining ≤ st.remaining := by
  intro fuel
  induction fuel with
  | zero =>
    intro st st' h
    rw [matchLoop] at h
    by_cases hc : 0 < st.remaining ∧ st.current_idx.isSome = true
    · rw [if_pos hc] at h; exact Except.noConfusion h
    · rw [if_neg hc] at h
      obtain rfl := Except.ok.inj h
      refine ⟨rfl, fun n hb => hb, fun X hX => hX, id, ?_, le_rfl⟩
      intro hFA hrem
      have hcnone : st.current_idx = none := by
        rcases hcc : st.current_idx with _ | i
        · rfl
        · exact absurd ⟨hrem, by rw [hcc]; rfl⟩ hc
      refine ⟨hcnone, ?_⟩
      rcases hFA hrem with hnone | ⟨i, e, hci, _, _, _⟩
      · exact hnone
      · rw [hcnone] at hci; exact Option.noConfusion hci
  | succ fuel ih =>
    intro st st' h
    rw [matchLoop] at h
    cases hcc : st.current_idx with
    | none =>
      simp only [hcc] at h
      obtain rfl := Except.ok.inj h
      refine ⟨rfl, fun n hb => hb, fun X hX => hX, id, ?_, le_rfl⟩
      intro hFA hrem
      refine ⟨hcc, ?_⟩
      rcases hFA hrem with hnone | ⟨i, e, hci, _, _, _⟩
      · exact hnone
      · rw [hcc] at hci; exact Option.noConfusion hci
    | some idx =>
      simp only [hcc] at h
      by_cases hr : 0 < st.remaining
      · rw [if_pos hr] at h
        cases hms : matchStep trader side price st idx with
        | error err => simp only [hms] at h; exact Except.noConfusion h
        | ok st2 =>
          simp only [hms] at h
          obtain ⟨s1, s2, s3, s4, s5, s6⟩ := matchStep_ok hms
          obtain ⟨t1, t2, t3, t4, t5, t6⟩ := ih st2 st' h
          refine ⟨by omega, fun n hb => t2 n (s2 n hb), fun X hX => t3 X (s3 X hX),
                 fun hfb => t4 (s4 hfb), ?_, by omega⟩
          intro hFA hrem'
          exact t5 (fun h2 => s5 hcc hFA h2) hrem'
      · rw [if_neg hr] at h
        obtain rfl := Except.ok.inj h
        refine ⟨rfl, fun n hb => hb, fun X hX => hX, id, ?_, le_rfl⟩
        intro _ hrem
        exact absurd hrem hr

/-- Facts about one `match_at_price` call on the ask side (a buy aggressor):
quantity conservation, index invariant preservation, the frame on all other
levels and fields, and the lazy-clearing guarantees for the visited level. -/
theorem match_at_price_buy {b : OrderBook} {oid : Nat} {trader : TraderId}
    {price rem : Nat} {b' : OrderBook} {tr : List Trade} {rem' : Nat}
    (h : b.match_at_price oid trader Side.Buy price rem = Except.ok (b', tr, rem')) :
    rem' + sumQty tr = rem ∧
    (∀ n, OidBound n b.arena → OidBound n b'.arena) ∧
    (∀ X, b.order_index X = none → b'.order_index X = none) ∧
    (Fwd b.order_index b.arena ∧ Bwd b.order_index b.arena →
      Fwd b'.order_index b'.arena ∧ Bwd b'.order_index b'.arena) ∧
    b'.bids = b.bids ∧
    (∀ q, q ≠ price → b'.asks q = b.asks q) ∧
    (0 < rem' → (b'.asks price).is_empty = true) ∧
    ((b.asks price).is_empty = true → (b'.asks price).is_empty = true) ∧
    (((b.asks price).is_empty = true → (b.asks price).last_order_idx = none) →
      ((b'.asks price).is_empty = true → (b'.asks price).last_order_idx = none)) ∧
    b'.maxPrice = b.maxPrice ∧ b'.bid_max = b.bid_max ∧ b'.ask_min = b.ask_min ∧
    b'.next_order_id = b.next_order_id ∧ b'.trades = b.trades ∧
    rem' ≤ rem ∧ price < b.maxPrice := by
  simp only [OrderBook.match_at_price] at h
  by_cases hp : price < b.maxPrice
  · rw [if_pos hp] at h
    cases hml : matchLoop trader Side.Buy price (b.arena.entries.length + 1)
        ⟨b.arena, b.order_index, rem, [], (b.asks price).first_order_idx, none⟩ with
    | error err => simp only [hml] at h; exact Except.noConfusion h
    | ok st =>
      simp only [hml] at h
      obtain ⟨hb', htr, hrem⟩ : _ ∧ _ ∧ _ := by
        have := Except.ok.inj h
        exact ⟨congrArg Prod.fst this, congrArg (fun x => x.2.1) this,
               congrArg (fun x => x.2.2) this⟩
      obtain ⟨m1, m2, m3, m4, m5, m6⟩ := matchLoop_ok _ _ _ hml
      subst hb' htr hrem
      have hFA0 : (0 < rem → FAInv ⟨b.arena, b.order_index, rem, [],
          (b.asks price).first_order_idx, none⟩) := fun _ => Or.inl rfl
      refine ⟨by simpa [sumQty] using m1, m2, m3, m4, rfl,
              fun q hq => Function.update_noteq hq _ _, ?_, ?_, ?_, rfl, rfl, rfl, rfl, rfl, m6, hp⟩
      · intro hpos
        obtain ⟨hcur, hfa⟩ := m5 hFA0 hpos
        simp only [Function.update_same]
        rw [if_pos ⟨by rw [hfa]; rfl, by rw [hcur]; rfl⟩]
        rfl
      · intro hemp
        have hfn : (b.asks price).first_order_idx = none := by
          unfold PricePoint.is_empty at hemp
          exact Option.isNone_iff_eq_none.mp hemp
        have hstep : matchLoop trader Side.Buy price (b.arena.entries.length + 1)
            ⟨b.arena, b.order_index, rem, [], (b.asks price).first_order_idx, none⟩ =
            Except.ok ⟨b.arena, b.order_index, rem, [], (b.asks price).first_order_idx, none⟩ := by
          rw [matchLoop]
          simp only [hfn]
        rw [hstep] at hml
        obtain rfl := (Except.ok.inj hml).symm
        simp only [Function.update_same]
        rw [if_pos ⟨rfl, by rw [hfn]; rfl⟩]
        rfl
      · intro hold
        simp only [Function.update_same]
        by_cases hc1 : st.first_active.isNone = true ∧ st.current_idx.isNone = true
        · rw [if_pos hc1]
          intro _; rfl
        · rw [if_neg hc1]
          by_cases hc2 : st.first_active.isSome = true
          · rw [if_pos hc2]
            intro hemp
            exfalso
            unfold PricePoint.is_empty at hemp
            simp only at hemp
            rw [Option.isNone_iff_eq_none.mp hemp] at hc2
            exact Bool.noConfusion hc2
          · rw [if_neg hc2]
            exact hold
  · rw [if_neg hp] at h
    exact Except.noConfusion h

/-- Facts about one `match_at_price` call on the bid side (a sell aggressor);
mirror image of `match_at_price_buy`. -/
theorem match_at_price_sell {b : OrderBook} {oid : Nat} {trader : TraderId}
    {price rem : Nat} {b' : OrderBook} {tr : List Trade} {rem' : Nat}
    (h : b.match_at_price oid trader Side.Sell price rem = Except.ok (b', tr, rem')) :
    rem' + sumQty tr = rem ∧
    (∀ n, OidBound n b.arena → OidBound n b'.arena) ∧
    (∀ X, b.order_index X = none → b'.order_index X = none) ∧
    (Fwd b.order_index b.arena ∧ Bwd b.order_index b.arena →
      Fwd b'.order_index b'.arena ∧ Bwd b'.order_index b'.arena) ∧
    b'.asks = b.asks ∧
    (∀ q, q ≠ price → b'.bids q = b.bids q) ∧
    (0 < rem' → (b'.bids price).is_empty = true) ∧
    ((b.bids price).is_empty = true → (b'.bids price).is_empty = true) ∧
    (((b.bids price).is_empty = true → (b.bids price).last_order_idx = none) →
      ((b'.bids price).is_empty = true → (b'.bids price).last_order_idx = none)) ∧
    b'.maxPrice = b.maxPrice ∧ b'.bid_max = b.bid_max ∧ b'.ask_min = b.ask_min ∧
    b'.next_order_id = b.next_order_id ∧ b'.trades = b.trades ∧
    rem' ≤ rem ∧ price < b.maxPrice := by
  simp only [OrderBook.match_at_price] at h
  by_cases hp : price < b.maxPrice
  · rw [if_pos hp] at h
    cases hml : matchLoop trader Side.Sell price (b.arena.entries.length + 1)
        ⟨b.arena, b.order_index, rem, [], (b.bids price).first_order_idx, none⟩ with
    | error err => simp only [hml] at h; exact Except.noConfusion h
    | ok st =>
      simp only [hml] at h
      obtain ⟨hb', htr, hrem⟩ : _ ∧ _ ∧ _ := by
        have := Except.ok.inj h
        exact ⟨congrArg Prod.fst this, congrArg (fun x => x.2.1) this,
               congrArg (fun x => x.2.2) this⟩
      obtain ⟨m1, m2, m3, m4, m5, m6⟩ := matchLoop_ok _ _ _ hml
      subst hb' htr hrem
      have hFA0 : (0 < rem → FAInv ⟨b.arena, b.order_index, rem, [],
          (b.bids price).first_order_idx, none⟩) := fun _ => Or.inl rfl
      refine ⟨by simpa [sumQty] using m1, m2, m3, m4, rfl,
              fun q hq => Function.update_noteq hq _ _, ?_, ?_, ?_, rfl, rfl, rfl, rfl, rfl, m6, hp⟩
      · intro hpos
        obtain ⟨hcur, hfa⟩ := m5 hFA0 hpos
        simp only [Function.update_same]
        rw [if_pos ⟨by rw [hfa]; rfl, by rw [hcur]; rfl⟩]
        rfl
      · intro hemp
        have hfn : (b.bids price).first_order_idx = none := by
          unfold PricePoint.is_empty at hemp
          exact Option.isNone_iff_eq_none.mp hemp
        have hstep : matchLoop trader Side.Sell price (b.arena.entries.length + 1)
            ⟨b.arena, b.order_index, rem, [], (b.bids price).first_order_idx, none⟩ =
            Except.ok ⟨b.arena, b.order_index, rem, [], (b.bids price).first_order_idx, none⟩ := by
          rw [matchLoop]
          simp only [hfn]
        rw [hstep] at hml
        obtain rfl := (Except.ok.inj hml).symm
        simp only [Function.update_same]
        rw [if_pos ⟨rfl, by rw [hfn]; rfl⟩]
        rfl
      · intro hold
        simp only [Function.update_same]
        by_cases hc1 : st.first_active.isNone = true ∧ st.current_idx.isNone = true
        · rw [if_pos hc1]
          intro _; rfl
        · rw [if_neg hc1]
          by_cases hc2 : st.first_active.isSome = true
          · rw [if_pos hc2]
            intro hemp
            exfalso
            unfold PricePoint.is_empty at hemp
            simp only at hemp
            rw [Option.isNone_iff_eq_none.mp hemp] at hc2
            exact Bool.noConfusion hc2
          · rw [if_neg hc2]
            exact hold
  · rw [if_neg hp] at h
    exact Except.noConfusion h

/-- Facts about the whole buy-side matching sweep: conservation, invariant
preservation, the bid-side frame, ask levels only ever emptying, and — when
quantity remains — every surviving ask level lying strictly above the limit. -/
theorem buyLoop_ok {trader : TraderId} {oid price : Nat} :
    ∀ fuel (b : OrderBook) (a rem : Nat) (tr : List Trade) {b' : OrderBook}
      {rem' : Nat} {tr' : List Trade},
    OrderBook.buyLoop trader oid price fuel b a rem tr = Except.ok (b', rem', tr') →
    rem' + sumQty tr' = rem + sumQty tr ∧
    (∀ n, OidBound n b.arena → OidBound n b'.arena) ∧
    (∀ X, b.order_index X = none → b'.order_index X = none) ∧
    (Fwd b.order_index b.arena ∧ Bwd b.order_index b.arena →
      Fwd b'.order_index b'.arena ∧ Bwd b'.order_index b'.arena) ∧
    b'.bids = b.bids ∧
    (∀ q, (b'.asks q).is_empty = false → (b.asks q).is_empty = false) ∧
    (∀ q, ((b.asks q).is_empty = true → (b.asks q).last_order_idx = none) →
      ((b'.asks q).is_empty = true → (b'.asks q).last_order_idx = none)) ∧
    (EmptyBelowAsk b a → 0 < rem' →
      ∀ q, q < b'.maxPrice → (b'.asks q).is_empty = false → price < q) ∧
    b'.maxPrice = b.maxPrice ∧ b'.bid_max = b.bid_max ∧ b'.ask_min = b.ask_min ∧
    b'.next_order_id = b.next_order_id ∧ b'.trades = b.trades ∧ rem' ≤ rem := by
  intro fuel
  induction fuel with
  | zero =>
    intro b a rem tr b' rem' tr' h
    rw [OrderBook.buyLoop] at h
    by_cases hc : 0 < rem ∧ a ≤ price
    · rw [if_pos hc] at h; exact Except.noConfusion h
    · rw [if_neg hc] at h
      obtain ⟨hb, hr, ht⟩ : _ ∧ _ ∧ _ := by
        have := Except.ok.inj h
        exact ⟨congrArg Prod.fst this, congrArg (fun x => x.2.1) this,
               congrArg (fun x => x.2.2) this⟩
      subst hb hr ht
      refine ⟨rfl, fun n hb => hb, fun X hX => hX, id, rfl, fun q hq => hq,
              fun q hq => hq, ?_, rfl, rfl, rfl, rfl, rfl, le_rfl⟩
      intro hEB hpos q hq hne
      have hap : price < a := by
        rcases Nat.lt_or_ge price a with h1 | h1
        · exact h1
        · exact absurd ⟨hpos, by omega⟩ hc
      by_contra hqp
      exact absurd (hEB q (by omega) hq) (by rw [hne]; simp)
  | succ fuel ih =>
    intro b a rem tr b' rem' tr' h
    rw [OrderBook.buyLoop] at h
    by_cases hc : 0 < rem ∧ a ≤ price
    · rw [if_pos hc] at h
      cases hmp : b.match_at_price oid trader Side.Buy a rem with
      | error err => simp only [hmp] at h; exact Except.noConfusion h
      | ok res =>
        obtain ⟨b1, fills, rem1⟩ := res
        simp only [hmp] at h
        by_cases h32 : price + 1 < U32
        · rw [if_pos h32] at h
          obtain ⟨p1, p2, p3, p4, p5, p6, p7, p8, p9, p10, p11, p12, p13, p14, p15, p16⟩ :=
            match_at_price_buy hmp
          obtain ⟨q1, q2, q3, q4, q5, q6, q7, q8, q9, q10, q11, q12, q13, q14⟩ :=
            ih b1 _ rem1 (tr ++ fills) h
          have hshrink : ∀ q, (b'.asks q).is_empty = false → (b.asks q).is_empty = false := by
            intro q hq
            have h1 := q6 q hq
            by_cases hqa : q = a
            · subst hqa
              by_contra hcon
              have : (b.asks q).is_empty = true := by
                cases hcc : (b.asks q).is_empty
                · exact absurd hcc hcon
                · rfl
              rw [p8 this] at h1
              exact Bool.noConfusion h1
            · rw [p6 q hqa] at h1
              exact h1
          have hlastc : ∀ q, ((b.asks q).is_empty = true → (b.asks q).last_order_idx = none) →
              ((b'.asks q).is_empty = true → (b'.asks q).last_order_idx = none) := by
            intro q hq
            refine q7 q ?_
            by_cases hqa : q = a
            · subst hqa; exact p9 hq
            · rw [p6 q hqa]; exact hq
          have hsum : rem' + sumQty tr' = rem + sumQty tr := by
            have hs : sumQty (tr ++ fills) = sumQty tr + sumQty fills := by
              simp [sumQty]
            omega
          refine ⟨hsum, fun n hb => q2 n (p2 n hb), fun X hX => q3 X (p3 X hX),
                  fun hfb => q4 (p4 hfb), by rw [q5, p5], hshrink, hlastc, ?_,
                  by rw [q9, p10], by rw [q10, p11], by rw [q11, p12],
                  by rw [q12, p13], by rw [q13, p14], by omega⟩
          intro hEB hpos q hq hne
          by_cases hr1 : 0 < rem1
          · refine q8 ?_ hpos q hq hne
            intro w hw1 hw2
            rcases hnext : b1.find_next_ask a with _ | a2
            · rw [hnext] at hw1
              simp only [Option.getD_none] at hw1
              have hall := scanUp_none_spec (b1.maxPrice - a) a hnext
              by_cases hwa : a ≤ w
              · exact hall w hwa (by omega)
              · rw [p6 w (by omega)]
                exact hEB w (by omega) (by omega)
            · rw [hnext] at hw1
              simp only [Option.getD_some] at hw1
              obtain ⟨hs1, hs2, hs3, hs4⟩ := scanUp_some_spec (b1.maxPrice - a) a hnext
              by_cases hwa : a ≤ w
              · exact hs4 w hwa hw1
              · rw [p6 w (by omega)]
                exact hEB w (by omega) (by omega)
          · exact absurd hpos (by omega)
        · rw [if_neg h32] at h
          exact Except.noConfusion h
    · rw [if_neg hc] at h
      obtain ⟨hb, hr, ht⟩ : _ ∧ _ ∧ _ := by
        have := Except.ok.inj h
        exact ⟨congrArg Prod.fst this, congrArg (fun x => x.2.1) this,
               congrArg (fun x => x.2.2) this⟩
      subst hb hr ht
      refine ⟨rfl, fun n hb => hb, fun X hX => hX, id, rfl, fun q hq => hq,
              fun q hq => hq, ?_, rfl, rfl, rfl, rfl, rfl, le_rfl⟩
      intro hEB hpos q hq hne
      have hap : price < a := by
        rcases Nat.lt_or_ge price a with h1 | h1
        · exact h1
        · exact absurd ⟨hpos, by omega⟩ hc
      by_contra hqp
      exact absurd (hEB q (by omega) hq) (by rw [hne]; simp)

/-- Facts about the whole sell-side matching sweep; mirror image of
`buyLoop_ok`. -/
theorem sellLoop_ok {trader : TraderId} {oid price : Nat} :
    ∀ fuel (b : OrderBook) (a rem : Nat) (tr : List Trade) {b' : OrderBook}
      {rem' : Nat} {tr' : List Trade},
    OrderBook.sellLoop trader oid price fuel b a rem tr = Except.ok (b', rem', tr') →
    rem' + sumQty tr' = rem + sumQty tr ∧
    (∀ n, OidBound n b.arena → OidBound n b'.arena) ∧
    (∀ X, b.order_index X = none → b'.order_index X = none) ∧
    (Fwd b.order_index b.arena ∧ Bwd b.order_index b.arena →
      Fwd b'.order_index b'.arena ∧ Bwd b'.order_index b'.arena) ∧
    b'.asks = b.asks ∧
    (∀ q, (b'.bids q).is_empty = false → (b.bids q).is_empty = false) ∧
    (∀ q, ((b.bids q).is_empty = true → (b.bids q).last_order_idx = none) →
      ((b'.bids q).is_empty = true → (b'.bids q).last_order_idx = none)) ∧
    (EmptyAboveBid b a → 0 < rem' →
      ∀ q, q < b'.maxPrice → (b'.bids q).is_empty = false → q < price) ∧
    b'.maxPrice = b.maxPrice ∧ b'.bid_max = b.bid_max ∧ b'.ask_min = b.ask_min ∧
    b'.next_order_id = b.next_order_id ∧ b'.trades = b.trades ∧ rem' ≤ rem := by
  intro fuel
  induction fuel with
  | zero =>
    intro b a rem tr b' rem' tr' h
    rw [OrderBook.sellLoop] at h
    by_cases hc : 0 < rem ∧ price ≤ a
    · rw [if_pos hc] at h; exact Except.noConfusion h
    · rw [if_neg hc] at h
      obtain ⟨hb, hr, ht⟩ : _ ∧ _ ∧ _ := by
        have := Except.ok.inj h
        exact ⟨congrArg Prod.fst this, congrArg (fun x => x.2.1) this,
               congrArg (fun x => x.2.2) this⟩
      subst hb hr ht
      refine ⟨rfl, fun n hb => hb, fun X hX => hX, id, rfl, fun q hq => hq,
              fun q hq => hq, ?_, rfl, rfl, rfl, rfl, rfl, le_rfl⟩
      intro hEB hpos q hq hne
      have hap : a < price := by
        rcases Nat.lt_or_ge a price with h1 | h1
        · exact h1
        · exact absurd ⟨hpos, by omega⟩ hc
      by_contra hqp
      exact absurd (hEB q (by omega) hq) (by rw [hne]; simp)
  | succ fuel ih =>
    intro b a rem tr b' rem' tr' h
    rw [OrderBook.sellLoop] at h
    by_cases hc : 0 < rem ∧ price ≤ a
    · rw [if_pos hc] at h
      cases hmp : b.match_at_price oid trader Side.Sell a rem with
      | error err => simp only [hmp] at h; exact Except.noConfusion h
      | ok res =>
        obtain ⟨b1, fills, rem1⟩ := res
        simp only [hmp] at h
        obtain ⟨p1, p2, p3, p4, p5, p6, p7, p8, p9, p10, p11, p12, p13, p14, p15, p16⟩ :=
          match_at_price_sell hmp
        obtain ⟨q1, q2, q3, q4, q5, q6, q7, q8, q9, q10, q11, q12, q13, q14⟩ :=
          ih b1 _ rem1 (tr ++ fills) h
        have hshrink : ∀ q, (b'.bids q).is_empty = false → (b.bids q).is_empty = false := by
          intro q hq
          have h1 := q6 q hq
          by_cases hqa : q = a
          · subst hqa
            by_contra hcon
            have : (b.bids q).is_empty = true := by
              cases hcc : (b.bids q).is_empty
              · exact absurd hcc hcon
              · rfl
            rw [p8 this] at h1
            exact Bool.noConfusion h1
          · rw [p6 q hqa] at h1
            exact h1
        have hlastc : ∀ q, ((b.bids q).is_empty = true → (b.bids q).last_order_idx = none) →
            ((b'.bids q).is_empty = true → (b'.bids q).last_order_idx = none) := by
          intro q hq
          refine q7 q ?_
          by_cases hqa : q = a
          · subst hqa; exact p9 hq
          · rw [p6 q hqa]; exact hq
        have hsum : rem' + sumQty tr' = rem + sumQty tr := by
          have hs : sumQty (tr ++ fills) = sumQty tr + sumQty fills := by
            simp [sumQty]
          omega
        refine ⟨hsum, fun n hb => q2 n (p2 n hb), fun X hX => q3 X (p3 X hX),
                fun hfb => q4 (p4 hfb), by rw [q5, p5], hshrink, hlastc, ?_,
                by rw [q9, p10], by rw [q10, p11], by rw [q11, p12],
                by rw [q12, p13], by rw [q13, p14], by omega⟩
        intro hEB hpos q hq hne
        by_cases hr1 : 0 < rem1
        · refine q8 ?_ hpos q hq hne
          intro w hw1 hw2
          rcases hnext : b1.find_prev_bid a with _ | a2
          · rw [hnext] at hw1
            simp only [Option.getD_none] at hw1
            have hall := scanDown_none_spec (min a (b1.maxPrice - 1)) hnext
            by_cases hwm : w ≤ min a (b1.maxPrice - 1)
            · exact hall w hwm
            · have hwa : a < w := by omega
              rw [p6 w (by omega)]
              exact hEB w hwa (by omega)
          · rw [hnext] at hw1
            simp only [Option.getD_some] at hw1
            obtain ⟨hs1, hs2, hs3⟩ := scanDown_some_spec (min a (b1.maxPrice - 1)) hnext
            by_cases hwm : w ≤ min a (b1.maxPrice - 1)
            · exact hs3 w hw1 hwm
            · have hwa : a < w := by omega
              rw [p6 w (by omega)]
              exact hEB w hwa (by omega)
        · exact absurd hpos (by omega)
    · rw [if_neg hc] at h
      obtain ⟨hb, hr, ht⟩ : _ ∧ _ ∧ _ := by
        have := Except.ok.inj h
        exact ⟨congrArg Prod.fst this, congrArg (fun x => x.2.1) this,
               congrArg (fun x => x.2.2) this⟩
      subst hb hr ht
      refine ⟨rfl, fun n hb => hb, fun X hX => hX, id, rfl, fun q hq => hq,
              fun q hq => hq, ?_, rfl, rfl, rfl, rfl, rfl, le_rfl⟩
      intro hEB hpos q hq hne
      have hap : a < price := by
        rcases Nat.lt_or_ge a price with h1 | h1
        · exact h1
        · exact absurd ⟨hpos, by omega⟩ hc
      by_contra hqp
      exact absurd (hEB q (by omega) hq) (by rw [hne]; simp)

/-! ### add_order helpers -/

theorem SameOidQty_refl (a : OrderArena) : SameOidQty a a := fun _ => rfl

theorem SameOidQty_setEntry_next {a : OrderArena} {i : Nat} {le : OrderEntry} {nx : Option Nat}
    (hg : a.get i = some le) : SameOidQty (a.setEntry i { le with next_idx := nx }) a := by
  intro j
  by_cases hij : i = j
  · subst hij
    rw [OrderArena.get_setEntry_self hg, hg]
    rfl
  · rw [OrderArena.get_setEntry_ne hij]

theorem Fwd_congr {oi : Nat → Option Nat} {a1 a2 : OrderArena}
    (hs : SameOidQty a1 a2) (h : Fwd oi a2) : Fwd oi a1 := by
  intro X i hXi
  obtain ⟨e, he, hid, hq⟩ := h X i hXi
  have := hs i
  rw [he] at this
  cases hg : a1.get i with
  | none => rw [hg] at this; exact Option.noConfusion this
  | some e1 =>
    rw [hg] at this
    obtain hpair := Option.some.inj this
    have h1 : e1.order_id = e.order_id := congrArg Prod.fst hpair
    have h2 : e1.quantity = e.quantity := congrArg Prod.snd hpair
    exact ⟨e1, rfl, by rw [h1, hid], by omega⟩

theorem Bwd_congr {oi : Nat → Option Nat} {a1 a2 : OrderArena}
    (hs : SameOidQty a1 a2) (h : Bwd oi a2) : Bwd oi a1 := by
  intro i e1 hg hq
  have := hs i
  rw [hg] at this
  cases hg2 : a2.get i with
  | none => rw [hg2] at this; exact Option.noConfusion this
  | some e2 =>
    rw [hg2] at this
    obtain hpair := Option.some.inj this
    have h1 : e1.order_id = e2.order_id := congrArg Prod.fst hpair
    have h2 : e1.quantity = e2.quantity := congrArg Prod.snd hpair
    rw [h1]
    exact h i e2 hg2 (by omega)

theorem OidBound_congr {n : Nat} {a1 a2 : OrderArena}
    (hs : SameOidQty a1 a2) (h : OidBound n a2) : OidBound n a1 := by
  intro i e1 hg
  have := hs i
  rw [hg] at this
  cases hg2 : a2.get i with
  | none => rw [hg2] at this; exact Option.noConfusion this
  | some e2 =>
    rw [hg2] at this
    obtain hpair := Option.some.inj this
    have h1 : e1.order_id = e2.order_id := congrArg Prod.fst hpair
    rw [h1]
    exact h i e2 hg2

theorem get_append_lt {ar : OrderArena} {a2 : OrderArena} {e : OrderEntry} {i : Nat}
    (h2 : a2.entries = ar.entries ++ [e]) (hi : i < ar.entries.length) :
    a2.get i = ar.get i := by
  rw [OrderArena.get, OrderArena.get, h2, List.getElem?_append, if_pos hi]

theorem get_append_len {ar : OrderArena} {a2 : OrderArena} {e : OrderEntry}
    (h2 : a2.entries = ar.entries ++ [e]) :
    a2.get ar.entries.length = some e := by
  rw [OrderArena.get, h2]
  exact List.getElem?_concat_length ar.entries e

theorem get_append_gt {ar : OrderArena} {a2 : OrderArena} {e : OrderEntry} {i : Nat}
    (h2 : a2.entries = ar.entries ++ [e]) (hi : ar.entries.length < i) :
    a2.get i = none := by
  rw [OrderArena.get, h2, List.getElem?_eq_none]
  simp
  omega

theorem FwdBwd_append {oi : Nat → Option Nat} {ar a2 : OrderArena} {e : OrderEntry}
    (h2 : a2.entries = ar.entries ++ [e])
    (hbound : ∀ i e0, ar.get i = some e0 → e0.order_id ≠ e.order_id)
    (hpos : 0 < e.quantity)
    (hfb : Fwd oi ar ∧ Bwd oi ar) :
    Fwd (Function.update oi e.order_id (some ar.entries.length)) a2 ∧
    Bwd (Function.update oi e.order_id (some ar.entries.length)) a2 := by
  obtain ⟨hf, hb⟩ := hfb
  constructor
  · intro X i hXi
    by_cases hX : X = e.order_id
    · subst hX
      rw [Function.update_same] at hXi
      obtain rfl := Option.some.inj hXi
      exact ⟨e, get_append_len h2, rfl, hpos⟩
    · rw [Function.update_noteq hX] at hXi
      obtain ⟨e0, he0, hid, hq⟩ := hf X i hXi
      have hlt : i < ar.entries.length := OrderArena.lt_length_of_get he0
      exact ⟨e0, by rw [get_append_lt h2 hlt]; exact he0, hid, hq⟩
  · intro i ei hg hq
    rcases Nat.lt_trichotomy i ar.entries.length with hlt | heq | hgt
    · rw [get_append_lt h2 hlt] at hg
      have := hb i ei hg hq
      rw [Function.update_noteq (hbound i ei hg)]
      exact this
    · subst heq
      rw [get_append_len h2] at hg
      obtain rfl := Option.some.inj hg
      rw [Function.update_same]
    · rw [get_append_gt h2 hgt] at hg
      exact Option.noConfusion hg

theorem OidBound_append {n : Nat} {ar a2 : OrderArena} {e : OrderEntry}
    (h2 : a2.entries = ar.entries ++ [e]) (he : e.order_id < n)
    (h : OidBound n ar) : OidBound n a2 := by
  intro i ei hg
  rcases Nat.lt_trichotomy i ar.entries.length with hlt | heq | hgt
  · rw [get_append_lt h2 hlt] at hg
    exact h i ei hg
  · subst heq
    rw [get_append_len h2] at hg
    obtain rfl := Option.some.inj hg
    exact he
  · rw [get_append_gt h2 hgt] at hg
    exact Option.noConfusion hg

theorem OidBound_mono {n m : Nat} {ar : OrderArena} (hnm : n ≤ m)
    (h : OidBound n ar) : OidBound m ar :=
  fun i e hg => lt_of_lt_of_le (h i e hg) hnm

/-! ### Best-price cache update lemmas -/

theorem scanDown_update' {bids bids' : Nat → PricePoint} {mp p : Nat}
    (hp : p ≤ mp - 1) (hne : (bids' p).is_empty = false)
    (hframe : ∀ w, w ≠ p → bids' w = bids w) :
    scanDown bids' (mp - 1) =
      match scanDown bids (mp - 1) with
      | none => some p
      | some m => if m < p then some p else some m := by
  cases hold : scanDown bids (mp - 1) with
  | none =>
    have hall := scanDown_none_spec (mp - 1) hold
    exact scanDown_some (mp - 1) hp hne (fun w hw1 hw2 => by
      rw [hframe w (by omega)]
      exact hall w hw2)
  | some m =>
    obtain ⟨h1, h2, h3⟩ := scanDown_some_spec (mp - 1) hold
    show scanDown bids' (mp - 1) = if m < p then some p else some m
    by_cases hmp2 : m < p
    · rw [if_pos hmp2]
      exact scanDown_some (mp - 1) hp hne (fun w hw1 hw2 => by
        rw [hframe w (by omega)]
        exact h3 w (by omega) hw2)
    · rw [if_neg hmp2]
      refine scanDown_some (mp - 1) h1 ?_ (fun w hw1 hw2 => by
        rw [hframe w (by omega)]
        exact h3 w hw1 hw2)
      by_cases hpm : p = m
      · subst hpm; exact hne
      · rw [hframe m (by omega)]; exact h2

theorem scanUp_update' {asks asks' : Nat → PricePoint} {mp p : Nat}
    (hp : p < mp) (hne : (asks' p).is_empty = false)
    (hframe : ∀ w, w ≠ p → asks' w = asks w) :
    scanUp asks' 0 mp =
      match scanUp asks 0 mp with
      | none => some p
      | some m => if p < m then some p else some m := by
  cases hold : scanUp asks 0 mp with
  | none =>
    have hall := scanUp_none_spec mp 0 hold
    exact scanUp_some mp 0 (by omega) (by omega) hne (fun w hw1 hw2 => by
      rw [hframe w (by omega)]
      exact hall w (by omega) (by omega))
  | some m =>
    obtain ⟨h1, h2, h3, h4⟩ := scanUp_some_spec mp 0 hold
    show scanUp asks' 0 mp = if p < m then some p else some m
    by_cases hpm2 : p < m
    · rw [if_pos hpm2]
      exact scanUp_some mp 0 (by omega) (by omega) hne (fun w hw1 hw2 => by
        rw [hframe w (by omega)]
        exact h4 w (by omega) (by omega))
    · rw [if_neg hpm2]
      refine scanUp_some mp 0 (by omega) (by omega) ?_ (fun w hw1 hw2 => by
        rw [hframe w (by omega)]
        exact h4 w (by omega) hw2)
      by_cases hpm : m = p
      · subst hpm; exact hne
      · rw [hframe m (by omega)]; exact h3

theorem exists_get_of_sameOidQty {a1 a2 : OrderArena} {i : Nat} {e : OrderEntry}
    (hs : SameOidQty a1 a2) (hg : a2.get i = some e) :
    ∃ e1, a1.get i = some e1 ∧ e1.order_id = e.order_id ∧ e1.quantity = e.quantity := by
  have hmap := hs i
  rw [hg] at hmap
  cases hg1 : a1.get i with
  | none => rw [hg1] at hmap; exact Option.noConfusion hmap
  | some e1 =>
    rw [hg1] at hmap
    obtain hpair := Option.some.inj hmap
    exact ⟨e1, rfl, congrArg Prod.fst hpair, congrArg Prod.snd hpair⟩

/-- Catalog of facts about a successful `add_order` on the bid side. -/
theorem add_order_buy {b : OrderBook} {oid : Nat} {t : TraderId} {p qty : Nat}
    {b2 : OrderBook}
    (h : b.add_order oid t Side.Buy p qty = Except.ok b2) :
    p < b.maxPrice ∧
    b2.asks = b.asks ∧
    (∀ w, w ≠ p → b2.bids w = b.bids w) ∧
    (((b.bids p).is_empty = true → (b.bids p).last_order_idx = none) →
      (b2.bids p).is_empty = false) ∧
    b2.maxPrice = b.maxPrice ∧ b2.bid_max = b.bid_max ∧ b2.ask_min = b.ask_min ∧
    b2.next_order_id = b.next_order_id ∧ b2.trades = b.trades ∧
    b2.order_index oid = some b.arena.entries.length ∧
    (∀ X, X ≠ oid → b2.order_index X = b.order_index X) ∧
    (∃ e, b2.arena.get b.arena.entries.length = some e ∧ e.order_id = oid ∧
      e.quantity = qty) ∧
    (0 < qty → OidBound oid b.arena →
      Fwd b.order_index b.arena ∧ Bwd b.order_index b.arena →
      Fwd b2.order_index b2.arena ∧ Bwd b2.order_index b2.arena) ∧
    (∀ n, oid < n → OidBound n b.arena → OidBound n b2.arena) := by
  simp only [OrderBook.add_order, OrderArena.allocate] at h
  by_cases hcap : b.arena.capacity ≤ b.arena.entries.length
  · rw [if_pos hcap] at h
    exact Except.noConfusion h
  · simp only [if_neg hcap] at h
    by_cases hp : p < b.maxPrice
    · rw [if_pos hp] at h
      have harena1 : ({ b.arena with entries :=
          b.arena.entries ++ [OrderEntry.new oid t qty] } : OrderArena).entries =
          b.arena.entries ++ [OrderEntry.new oid t qty] := rfl
      cases hlast : (b.bids p).last_order_idx with
      | none =>
        simp only [hlast] at h
        obtain rfl := (Except.ok.inj h)
        dsimp only
        refine ⟨hp, rfl, fun w hw => Function.update_noteq hw _ _, ?_, rfl, rfl, rfl,
                rfl, rfl, by rw [Function.update_same], fun X hX => Function.update_noteq hX _ _,
                ⟨OrderEntry.new oid t qty, get_append_len harena1, rfl, rfl⟩, ?_, ?_⟩
        · intro _
          rw [Function.update_same]
          unfold PricePoint.push_back
          rw [hlast]
          rfl
        · intro hq0 hbound hfb
          exact FwdBwd_append harena1
            (fun i e0 hg heq => by
              have h5 := hbound i e0 hg
              rw [heq] at h5
              exact absurd h5 (lt_irrefl oid)) hq0 hfb
        · intro n hn hb
          exact OidBound_append harena1 hn hb
      | some last_idx =>
        simp only [hlast] at h
        cases hgl : ({ b.arena with entries :=
            b.arena.entries ++ [OrderEntry.new oid t qty] } : OrderArena).get last_idx with
        | none => simp only [hgl] at h; exact Except.noConfusion h
        | some le =>
          simp only [hgl] at h
          obtain rfl := (Except.ok.inj h)
          dsimp only
          have hsq : SameOidQty
              (({ b.arena with entries := b.arena.entries ++ [OrderEntry.new oid t qty] } :
                OrderArena).setEntry last_idx
                { le with next_idx := some b.arena.entries.length })
              ({ b.arena with entries := b.arena.entries ++ [OrderEntry.new oid t qty] } :
                OrderArena) := SameOidQty_setEntry_next hgl
          refine ⟨hp, rfl, fun w hw => Function.update_noteq hw _ _, ?_, rfl, rfl, rfl,
                rfl, rfl, by rw [Function.update_same], fun X hX => Function.update_noteq hX _ _,
                ?_, ?_, ?_⟩
          · intro hlw
            have hnonemp : (b.bids p).is_empty = false := by
              cases hcc : (b.bids p).is_empty
              · rfl
              · exact Option.noConfusion (hlw hcc)
            rw [Function.update_same]
            unfold PricePoint.push_back
            rw [hlast]
            unfold PricePoint.is_empty at hnonemp ⊢
            exact hnonemp
          · obtain ⟨e1, hge1, hid1, hq1⟩ :=
              exists_get_of_sameOidQty hsq (get_append_len harena1)
            exact ⟨e1, hge1, hid1, hq1⟩
          · intro hq0 hbound hfb
            have hnew := FwdBwd_append harena1
              (fun i e0 hg heq => by
              have h5 := hbound i e0 hg
              rw [heq] at h5
              exact absurd h5 (lt_irrefl oid)) hq0 hfb
            exact ⟨Fwd_congr hsq hnew.1, Bwd_congr hsq hnew.2⟩
          · intro n hn hb
            exact OidBound_congr hsq (OidBound_append harena1 hn hb)
    · rw [if_neg hp] at h
      exact Except.noConfusion h

/-- Catalog of facts about a successful `add_order` on the ask side. -/
theorem add_order_sell {b : OrderBook} {oid : Nat} {t : TraderId} {p qty : Nat}
    {b2 : OrderBook}
    (h : b.add_order oid t Side.Sell p qty = Except.ok b2) :
    p < b.maxPrice ∧
    b2.bids = b.bids ∧
    (∀ w, w ≠ p → b2.asks w = b.asks w) ∧
    (((b.asks p).is_empty = true → (b.asks p).last_order_idx = none) →
      (b2.asks p).is_empty = false) ∧
    b2.maxPrice = b.maxPrice ∧ b2.bid_max = b.bid_max ∧ b2.ask_min = b.ask_min ∧
    b2.next_order_id = b.next_order_id ∧ b2.trades = b.trades ∧
    b2.order_index oid = some b.arena.entries.length ∧
    (∀ X, X ≠ oid → b2.order_index X = b.order_index X) ∧
    (∃ e, b2.arena.get b.arena.entries.length = some e ∧ e.order_id = oid ∧
      e.quantity = qty) ∧
    (0 < qty → OidBound oid b.arena →
      Fwd b.order_index b.arena ∧ Bwd b.order_index b.arena →
      Fwd b2.order_index b2.arena ∧ Bwd b2.order_index b2.arena) ∧
    (∀ n, oid < n → OidBound n b.arena → OidBound n b2.arena) := by
  simp only [OrderBook.add_order, OrderArena.allocate] at h
  by_cases hcap : b.arena.capacity ≤ b.arena.entries.length
  · rw [if_pos hcap] at h
    exact Except.noConfusion h
  · simp only [if_neg hcap] at h
    by_cases hp : p < b.maxPrice
    · rw [if_pos hp] at h
      have harena1 : ({ b.arena with entries :=
          b.arena.entries ++ [OrderEntry.new oid t qty] } : OrderArena).entries =
          b.arena.entries ++ [OrderEntry.new oid t qty] := rfl
      cases hlast : (b.asks p).last_order_idx with
      | none =>
        simp only [hlast] at h
        obtain rfl := (Except.ok.inj h)
        dsimp only
        refine ⟨hp, rfl, fun w hw => Function.update_noteq hw _ _, ?_, rfl, rfl, rfl,
                rfl, rfl, by rw [Function.update_same], fun X hX => Function.update_noteq hX _ _,
                ⟨OrderEntry.new oid t qty, get_append_len harena1, rfl, rfl⟩, ?_, ?_⟩
        · intro _
          rw [Function.update_same]
          unfold PricePoint.push_back
          rw [hlast]
          rfl
        · intro hq0 hbound hfb
          exact FwdBwd_append harena1
            (fun i e0 hg heq => by
              have h5 := hbound i e0 hg
              rw [heq] at h5
              exact absurd h5 (lt_irrefl oid)) hq0 hfb
        · intro n hn hb
          exact OidBound_append harena1 hn hb
      | some last_idx =>
        simp only [hlast] at h
        cases hgl : ({ b.arena with entries :=
            b.arena.entries ++ [OrderEntry.new oid t qty] } : OrderArena).get last_idx with
        | none => simp only [hgl] at h; exact Except.noConfusion h
        | some le =>
          simp only [hgl] at h
          obtain rfl := (Except.ok.inj h)
          dsimp only
          have hsq : SameOidQty
              (({ b.arena with entries := b.arena.entries ++ [OrderEntry.new oid t qty] } :
                OrderArena).setEntry last_idx
                { le with next_idx := some b.arena.entries.length })
              ({ b.arena with entries := b.arena.entries ++ [OrderEntry.new oid t qty] } :
                OrderArena) := SameOidQty_setEntry_next hgl
          refine ⟨hp, rfl, fun w hw => Function.update_noteq hw _ _, ?_, rfl, rfl, rfl,
                rfl, rfl, by rw [Function.update_same], fun X hX => Function.update_noteq hX _ _,
                ?_, ?_, ?_⟩
          · intro hlw
            have hnonemp : (b.asks p).is_empty = false := by
              cases hcc : (b.asks p).is_empty
              · rfl
              · exact Option.noConfusion (hlw hcc)
            rw [Function.update_same]
            unfold PricePoint.push_back
            rw [hlast]
            unfold PricePoint.is_empty at hnonemp ⊢
            exact hnonemp
          · obtain ⟨e1, hge1, hid1, hq1⟩ :=
              exists_get_of_sameOidQty hsq (get_append_len harena1)
            exact ⟨e1, hge1, hid1, hq1⟩
          · intro hq0 hbound hfb
            have hnew := FwdBwd_append harena1
              (fun i e0 hg heq => by
              have h5 := hbound i e0 hg
              rw [heq] at h5
              exact absurd h5 (lt_irrefl oid)) hq0 hfb
            exact ⟨Fwd_congr hsq hnew.1, Bwd_congr hsq hnew.2⟩
          · intro n hn hb
            exact OidBound_congr hsq (OidBound_append harena1 hn hb)
    · rw [if_neg hp] at h
      exact Except.noConfusion h

/-- Facts about the buy matching phase (`if let Some(ask_price)` block). -/
theorem buyPhase_ok {b0 : OrderBook} {trader : TraderId} {oid price qty : Nat}
    {b1 : OrderBook} {rem : Nat} {trs : List Trade}
    (h : b0.buyPhase trader oid price qty = Except.ok (b1, rem, trs)) :
    rem + sumQty trs = qty ∧
    (∀ n, OidBound n b0.arena → OidBound n b1.arena) ∧
    (∀ X, b0.order_index X = none → b1.order_index X = none) ∧
    (Fwd b0.order_index b0.arena ∧ Bwd b0.order_index b0.arena →
      Fwd b1.order_index b1.arena ∧ Bwd b1.order_index b1.arena) ∧
    b1.bids = b0.bids ∧
    (∀ q, (b1.asks q).is_empty = false → (b0.asks q).is_empty = false) ∧
    (∀ q, ((b0.asks q).is_empty = true → (b0.asks q).last_order_idx = none) →
      ((b1.asks q).is_empty = true → (b1.asks q).last_order_idx = none)) ∧
    b1.maxPrice = b0.maxPrice ∧ b1.bid_max = b0.bid_max ∧
    b1.next_order_id = b0.next_order_id ∧ b1.trades = b0.trades ∧
    (b0.ask_min = scanUp b0.asks 0 b0.maxPrice →
      b1.ask_min = scanUp b1.asks 0 b1.maxPrice) ∧
    (b0.ask_min = scanUp b0.asks 0 b0.maxPrice → 0 < rem →
      ∀ q, q < b1.maxPrice → (b1.asks q).is_empty = false → price < q) ∧
    rem ≤ qty := by
  unfold OrderBook.buyPhase at h
  cases ham : b0.ask_min with
  | none =>
    simp only [ham] at h
    have hinj := Except.ok.inj h
    injection hinj with hb hrest
    injection hrest with hr ht
    subst hb hr ht
    refine ⟨by simp [sumQty], fun n hb => hb, fun X hX => hX, id, rfl, fun q hq => hq,
            fun q hq => hq, rfl, rfl, rfl, rfl, fun hci => by rw [ham]; exact hci,
            ?_, le_rfl⟩
    intro hci _ q hq hne
    have := scanUp_none_spec b0.maxPrice 0 hci.symm q (by omega) (by omega)
    rw [hne] at this
    exact Bool.noConfusion this
  | some a0 =>
    simp only [ham] at h
    cases hbl : OrderBook.buyLoop trader oid price (b0.maxPrice + 2) b0 a0 qty [] with
    | error err => simp only [hbl] at h; exact Except.noConfusion h
    | ok res =>
      obtain ⟨b1', rem', trs'⟩ := res
      simp only [hbl] at h
      have hinj := Except.ok.inj h
      injection hinj with hb hrest
      injection hrest with hr ht
      subst hb hr ht
      obtain ⟨L1, L2, L3, L4, L5, L6, L7, L8, L9, L10, L11, L12, L13, L14⟩ :=
        buyLoop_ok _ b0 a0 qty [] hbl
      refine ⟨by simpa [sumQty] using L1, L2, L3, L4, L5, L6, L7, L9, L10, L12, L13,
              ?_, ?_, L14⟩
      · intro _
        show b1'.find_next_ask 0 = scanUp b1'.asks 0 b1'.maxPrice
        rw [OrderBook.find_next_ask, Nat.sub_zero]
      · intro hci hpos q hq hne
        refine L8 ?_ hpos q hq hne
        intro w hw1 hw2
        obtain ⟨_, _, _, hbelow⟩ := scanUp_some_spec b0.maxPrice 0 hci.symm
        exact hbelow w (by omega) (by omega)

/-- Facts about the sell matching phase (`if let Some(bid_price)` block). -/
theorem sellPhase_ok {b0 : OrderBook} {trader : TraderId} {oid price qty : Nat}
    {b1 : OrderBook} {rem : Nat} {trs : List Trade}
    (h : b0.sellPhase trader oid price qty = Except.ok (b1, rem, trs)) :
    rem + sumQty trs = qty ∧
    (∀ n, OidBound n b0.arena → OidBound n b1.arena) ∧
    (∀ X, b0.order_index X = none → b1.order_index X = none) ∧
    (Fwd b0.order_index b0.arena ∧ Bwd b0.order_index b0.arena →
      Fwd b1.order_index b1.arena ∧ Bwd b1.order_index b1.arena) ∧
    b1.asks = b0.asks ∧
    (∀ q, (b1.bids q).is_empty = false → (b0.bids q).is_empty = false) ∧
    (∀ q, ((b0.bids q).is_empty = true → (b0.bids q).last_order_idx = none) →
      ((b1.bids q).is_empty = true → (b1.bids q).last_order_idx = none)) ∧
    b1.maxPrice = b0.maxPrice ∧ b1.ask_min = b0.ask_min ∧
    b1.next_order_id = b0.next_order_id ∧ b1.trades = b0.trades ∧
    (b0.maxPrice ≤ U32 → b0.bid_max = scanDown b0.bids (b0.maxPrice - 1) →
      b1.bid_max = scanDown b1.bids (b1.maxPrice - 1)) ∧
    (b0.bid_max = scanDown b0.bids (b0.maxPrice - 1) → 0 < rem →
      ∀ q, q < b1.maxPrice → (b1.bids q).is_empty = false → q < price) ∧
    rem ≤ qty := by
  unfold OrderBook.sellPhase at h
  cases ham : b0.bid_max with
  | none =>
    simp only [ham] at h
    have hinj := Except.ok.inj h
    injection hinj with hb hrest
    injection hrest with hr ht
    subst hb hr ht
    refine ⟨by simp [sumQty], fun n hb => hb, fun X hX => hX, id, rfl, fun q hq => hq,
            fun q hq => hq, rfl, rfl, rfl, rfl, fun _ hci => by rw [ham]; exact hci,
            ?_, le_rfl⟩
    intro hci _ q hq hne
    have := scanDown_none_spec (b0.maxPrice - 1) hci.symm q (by omega)
    rw [hne] at this
    exact Bool.noConfusion this
  | some p0 =>
    simp only [ham] at h
    cases hbl : OrderBook.sellLoop trader oid price (b0.maxPrice + 2) b0 p0 qty [] with
    | error err => simp only [hbl] at h; exact Except.noConfusion h
    | ok res =>
      obtain ⟨b1', rem', trs'⟩ := res
      simp only [hbl] at h
      have hinj := Except.ok.inj h
      injection hinj with hb hrest
      injection hrest with hr ht
      subst hb hr ht
      obtain ⟨L1, L2, L3, L4, L5, L6, L7, L8, L9, L10, L11, L12, L13, L14⟩ :=
        sellLoop_ok _ b0 p0 qty [] hbl
      refine ⟨by simpa [sumQty] using L1, L2, L3, L4, L5, L6, L7, L9, L11, L12, L13,
              ?_, ?_, L14⟩
      · intro hmp32 _
        show b1'.find_prev_bid (U32 - 1) = scanDown b1'.bids (b1'.maxPrice - 1)
        rw [OrderBook.find_prev_bid]
        have hU : U32 = 4294967296 := rfl
        have h9 := L9
        have hmin : min (U32 - 1) (b1'.maxPrice - 1) = b1'.maxPrice - 1 := by omega
        rw [hmin]
      · intro hci hpos q hq hne
        refine L8 ?_ hpos q hq hne
        intro w hw1 hw2
        obtain ⟨_, _, habove⟩ := scanDown_some_spec (b0.maxPrice - 1) hci.symm
        exact habove w (by omega) (by omega)

/-- Facts about the tail of the buy branch: resting and cache bump. -/
theorem finishBuy_ok {b1 : OrderBook} {trader : TraderId} {oid price rem : Nat}
    {trs : List Trade} {b' : OrderBook} {oid' : Nat} {tr' : List Trade}
    (h : b1.finishBuy trader oid price rem trs = Except.ok (b', oid', tr')) :
    oid' = oid ∧ tr' = trs ∧
    b'.asks = b1.asks ∧ b'.ask_min = b1.ask_min ∧
    b'.maxPrice = b1.maxPrice ∧ b'.next_order_id = b1.next_order_id ∧
    b'.trades = b1.trades ++ trs ∧
    (∀ X, X ≠ oid → b'.order_index X = b1.order_index X) ∧
    (rem = 0 → b'.order_index = b1.order_index ∧ b'.arena = b1.arena ∧
      b'.bids = b1.bids ∧ b'.bid_max = b1.bid_max) ∧
    (0 < rem →
      price < b1.maxPrice ∧
      b'.order_index oid = some b1.arena.entries.length ∧
      (∃ e, b'.arena.get b1.arena.entries.length = some e ∧ e.order_id = oid ∧
        e.quantity = rem) ∧
      (∀ w, w ≠ price → b'.bids w = b1.bids w) ∧
      (((b1.bids price).is_empty = true → (b1.bids price).last_order_idx = none) →
        (b'.bids price).is_empty = false) ∧
      (b'.bid_max = if (match b1.bid_max with
          | none => true
          | some m => decide (m < price)) = true then some price else b1.bid_max) ∧
      (OidBound oid b1.arena →
        Fwd b1.order_index b1.arena ∧ Bwd b1.order_index b1.arena →
        Fwd b'.order_index b'.arena ∧ Bwd b'.order_index b'.arena) ∧
      (∀ n, oid < n → OidBound n b1.arena → OidBound n b'.arena)) := by
  unfold OrderBook.finishBuy at h
  by_cases hr : 0 < rem
  · rw [if_pos hr] at h
    cases hao : b1.add_order oid trader Side.Buy price rem with
    | error err => simp only [hao] at h; exact Except.noConfusion h
    | ok b2 =>
      simp only [hao] at h
      obtain ⟨A1, A2, A3, A4, A5, A6, A7, A8, A9, A10, A11, A12, A13, A14⟩ :=
        add_order_buy hao
      by_cases hcond : (match b2.bid_max with
          | none => true
          | some m => decide (m < price)) = true
      · rw [if_pos hcond] at h
        have hinj := Except.ok.inj h
        injection hinj with hb hrest
        injection hrest with ho ht
        subst hb ho ht
        dsimp only
        refine ⟨rfl, rfl, A2, A7, A5, A8, by rw [A9], fun X hX => A11 X hX,
                fun h0 => absurd hr (by omega), ?_⟩
        intro _
        refine ⟨A1, A10, A12, A3, A4, ?_, A13 hr, A14⟩
        rw [A6] at hcond
        rw [if_pos hcond]
      · rw [if_neg hcond] at h
        have hinj := Except.ok.inj h
        injection hinj with hb hrest
        injection hrest with ho ht
        subst hb ho ht
        dsimp only
        refine ⟨rfl, rfl, A2, A7, A5, A8, by rw [A9], fun X hX => A11 X hX,
                fun h0 => absurd hr (by omega), ?_⟩
        intro _
        refine ⟨A1, A10, A12, A3, A4, ?_, A13 hr, A14⟩
        rw [A6] at hcond
        rw [if_neg hcond, A6]
  · rw [if_neg hr] at h
    have hinj := Except.ok.inj h
    injection hinj with hb hrest
    injection hrest with ho ht
    subst hb ho ht
    exact ⟨rfl, rfl, rfl, rfl, rfl, rfl, rfl, fun X _ => rfl,
           fun _ => ⟨rfl, rfl, rfl, rfl⟩, fun hpos => absurd hpos hr⟩

/-- Facts about the tail of the sell branch: resting and cache bump. -/
theorem finishSell_ok {b1 : OrderBook} {trader : TraderId} {oid price rem : Nat}
    {trs : List Trade} {b' : OrderBook} {oid' : Nat} {tr' : List Trade}
    (h : b1.finishSell trader oid price rem trs = Except.ok (b', oid', tr')) :
    oid' = oid ∧ tr' = trs ∧
    b'.bids = b1.bids ∧ b'.bid_max = b1.bid_max ∧
    b'.maxPrice = b1.maxPrice ∧ b'.next_order_id = b1.next_order_id ∧
    b'.trades = b1.trades ++ trs ∧
    (∀ X, X ≠ oid → b'.order_index X = b1.order_index X) ∧
    (rem = 0 → b'.order_index = b1.order_index ∧ b'.arena = b1.arena ∧
      b'.asks = b1.asks ∧ b'.ask_min = b1.ask_min) ∧
    (0 < rem →
      price < b1.maxPrice ∧
      b'.order_index oid = some b1.arena.entries.length ∧
      (∃ e, b'.arena.get b1.arena.entries.length = some e ∧ e.order_id = oid ∧
        e.quantity = rem) ∧
      (∀ w, w ≠ price → b'.asks w = b1.asks w) ∧
      (((b1.asks price).is_empty = true → (b1.asks price).last_order_idx = none) →
        (b'.asks price).is_empty = false) ∧
      (b'.ask_min = if (match b1.ask_min with
          | none => true
          | some m => decide (price < m)) = true then some price else b1.ask_min) ∧
      (OidBound oid b1.arena →
        Fwd b1.order_index b1.arena ∧ Bwd b1.order_index b1.arena →
        Fwd b'.order_index b'.arena ∧ Bwd b'.order_index b'.arena) ∧
      (∀ n, oid < n → OidBound n b1.arena → OidBound n b'.arena)) := by
  unfold OrderBook.finishSell at h
  by_cases hr : 0 < rem
  · rw [if_pos hr] at h
    cases hao : b1.add_order oid trader Side.Sell price rem with
    | error err => simp only [hao] at h; exact Except.noConfusion h
    | ok b2 =>
      simp only [hao] at h
      obtain ⟨A1, A2, A3, A4, A5, A6, A7, A8, A9, A10, A11, A12, A13, A14⟩ :=
        add_order_sell hao
      by_cases hcond : (match b2.ask_min with
          | none => true
          | some m => decide (price < m)) = true
      · rw [if_pos hcond] at h
        have hinj := Except.ok.inj h
        injection hinj with hb hrest
        injection hrest with ho ht
        subst hb ho ht
        dsimp only
        refine ⟨rfl, rfl, A2, A6, A5, A8, by rw [A9], fun X hX => A11 X hX,
                fun h0 => absurd hr (by omega), ?_⟩
        intro _
        refine ⟨A1, A10, A12, A3, A4, ?_, A13 hr, A14⟩
        rw [A7] at hcond
        rw [if_pos hcond]
      · rw [if_neg hcond] at h
        have hinj := Except.ok.inj h
        injection hinj with hb hrest
        injection hrest with ho ht
        subst hb ho ht
        dsimp only
        refine ⟨rfl, rfl, A2, A6, A5, A8, by rw [A9], fun X hX => A11 X hX,
                fun h0 => absurd hr (by omega), ?_⟩
        intro _
        refine ⟨A1, A10, A12, A3, A4, ?_, A13 hr, A14⟩
        rw [A7] at hcond
        rw [if_neg hcond, A7]
  · rw [if_neg hr] at h
    have hinj := Except.ok.inj h
    injection hinj with hb hrest
    injection hrest with ho ht
    subst hb ho ht
    exact ⟨rfl, rfl, rfl, rfl, rfl, rfl, rfl, fun X _ => rfl,
           fun _ => ⟨rfl, rfl, rfl, rfl⟩, fun hpos => absurd hpos hr⟩

/-! ### cancel_order catalog -/

theorem cancel_order_found {b : OrderBook} {X idx : Nat} {e : OrderEntry}
    (hidx : b.order_index X = some idx) (hg : b.arena.get idx = some e) :
    b.cancel_order X =
      ({ b with arena := b.arena.setEntry idx e.cancel,
                order_index := Function.update b.order_index X none }, true) := by
  simp only [OrderBook.cancel_order, hidx, hg]

theorem cancel_order_unknown {b : OrderBook} {X : Nat}
    (hidx : b.order_index X = none) : b.cancel_order X = (b, false) := by
  simp only [OrderBook.cancel_order, hidx]

theorem cancel_order_badslot {b : OrderBook} {X idx : Nat}
    (hidx : b.order_index X = some idx) (hg : b.arena.get idx = none) :
    b.cancel_order X = (b, false) := by
  simp only [OrderBook.cancel_order, hidx, hg]

/-- Everything `limit_order` guarantees on the buy side: id assignment,
frame facts, quantity conservation, and preservation of well-formedness. -/
theorem limit_order_buy_ok {b : OrderBook} {t : TraderId} {p q : Nat}
    {b' : OrderBook} {oid : Nat} {tr : List Trade}
    (h : b.limit_order t Side.Buy p q = Except.ok (b', oid, tr)) :
    oid = b.next_order_id ∧
    b'.next_order_id = b.next_order_id + 1 ∧
    b'.maxPrice = b.maxPrice ∧
    (∀ X, X ≠ b.next_order_id → b.order_index X = none → b'.order_index X = none) ∧
    (b.order_index b.next_order_id = none → sumQty tr + restingQty b' oid = q) ∧
    (WF b → WF b') := by
  by_cases hU : b.next_order_id + 1 ≤ U64 - 1
  · simp only [OrderBook.limit_order, if_pos hU] at h
    split at h
    · exact Except.noConfusion h
    · rename_i res b1 rem trs heq
      obtain ⟨P1, P2, P3, P4, P5, P6, P7, P8, P9, P10, P11, P12, P13, P14⟩ :=
        buyPhase_ok heq
      have P2' : ∀ n, OidBound n b.arena → OidBound n b1.arena := P2
      have P3' : ∀ X, b.order_index X = none → b1.order_index X = none := P3
      have P4' : Fwd b.order_index b.arena ∧ Bwd b.order_index b.arena →
          Fwd b1.order_index b1.arena ∧ Bwd b1.order_index b1.arena := P4
      have P5' : b1.bids = b.bids := P5
      have P6' : ∀ w, (b1.asks w).is_empty = false → (b.asks w).is_empty = false := P6
      have P7' : ∀ w, ((b.asks w).is_empty = true → (b.asks w).last_order_idx = none) →
          ((b1.asks w).is_empty = true → (b1.asks w).last_order_idx = none) := P7
      have P8' : b1.maxPrice = b.maxPrice := P8
      have P9' : b1.bid_max = b.bid_max := P9
      have P10' : b1.next_order_id = b.next_order_id + 1 := P10
      have P12' : b.ask_min = scanUp b.asks 0 b.maxPrice →
          b1.ask_min = scanUp b1.asks 0 b1.maxPrice := P12
      have P13' : b.ask_min = scanUp b.asks 0 b.maxPrice → 0 < rem →
          ∀ w, w < b1.maxPrice → (b1.asks w).is_empty = false → p < w := P13
      obtain ⟨F1, F2, F3, F4, F5, F6, F7, F8, F9, F10⟩ := finishBuy_ok h
      subst F1 F2
      have hnext : b'.next_order_id = b.next_order_id + 1 := by rw [F6, P10']
      have hmp : b'.maxPrice = b.maxPrice := by rw [F5, P8']
      refine ⟨rfl, hnext, hmp, ?_, ?_, ?_⟩
      · intro X hX hnone
        rw [F8 X hX]
        exact P3' X hnone
      · intro hidx
        by_cases h0 : 0 < rem
        · obtain ⟨Fp1, Fp2, Fp3, Fp4, Fp5, Fp6, Fp7, Fp8⟩ := F10 h0
          obtain ⟨e, hge, hoid, hqty⟩ := Fp3
          have hrest : restingQty b' b.next_order_id = rem := by
            unfold restingQty
            simp only [Fp2, hge, hqty]
          rw [hrest]
          omega
        · obtain ⟨Fz1, Fz2, Fz3, Fz4⟩ := F9 (by omega)
          have hrest : restingQty b' b.next_order_id = 0 := by
            unfold restingQty
            simp only [Fz1, P3' _ hidx]
          rw [hrest]
          omega
      · intro hwf
        obtain ⟨W1, W2, W3, W4, W5, W6, W7, W8⟩ := hwf
        obtain ⟨W4b, W4a⟩ := W4
        obtain ⟨W6b, W6a⟩ := W6
        have hcacheA : b'.ask_min = scanUp b'.asks 0 b'.maxPrice := by
          rw [F4, F3, hmp, ← P8']
          exact P12' W4a
        have hLWa : ∀ w, (b'.asks w).is_empty = true → (b'.asks w).last_order_idx = none := by
          intro w
          rw [F3]
          exact P7' w (W6a w)
        by_cases h0 : 0 < rem
        · obtain ⟨Fp1, Fp2, Fp3, Fp4, Fp5, Fp6, Fp7, Fp8⟩ := F10 h0
          have hpmp : p < b.maxPrice := by rw [← P8']; exact Fp1
          have hlwp : (b1.bids p).is_empty = true → (b1.bids p).last_order_idx = none := by
            rw [P5']
            exact W6b p
          have hne' : (b'.bids p).is_empty = false := Fp5 hlwp
          have hFB : Fwd b'.order_index b'.arena ∧ Bwd b'.order_index b'.arena :=
            Fp7 (P2' _ W3) (P4' ⟨W1, W2⟩)
          have hOB : OidBound b'.next_order_id b'.arena := by
            rw [hnext]
            exact Fp8 _ (by omega) (P2' _ (OidBound_mono (by omega) W3))
          have hframe : ∀ w, w ≠ p → b'.bids w = b.bids w := by
            intro w hw
            rw [Fp4 w hw, P5']
          have hsd : scanDown b'.bids (b.maxPrice - 1) =
              match scanDown b.bids (b.maxPrice - 1) with
              | none => some p
              | some m => if m < p then some p else some m :=
            scanDown_update' (by omega) hne' hframe
          have hbm : b'.bid_max = scanDown b'.bids (b'.maxPrice - 1) := by
            rw [hmp, hsd, Fp6, P9', W4b]
            cases hbmax : scanDown b.bids (b.maxPrice - 1) with
            | none => rfl
            | some m =>
              by_cases hmlt : m < p
              · rw [if_pos (by simpa using hmlt)]
                show some p = if m < p then some p else some m
                rw [if_pos hmlt]
              · rw [if_neg (by simpa using hmlt)]
                show some m = if m < p then some p else some m
                rw [if_neg hmlt]
          have hnc : NoCross b' := by
            intro w v hw hv hbw hav
            have hav1 : (b1.asks v).is_empty = false := by rw [← F3]; exact hav
            have hvmp : v < b1.maxPrice := by rw [P8']; rw [hmp] at hv; exact hv
            have hvp : p < v := P13' W4a h0 v hvmp hav1
            by_cases hwp : w = p
            · omega
            · have hbw1 : (b.bids w).is_empty = false := by
                rw [← P5', ← Fp4 w hwp]
                exact hbw
              have hav0 : (b.asks v).is_empty = false := P6' v hav1
              have := W5 w v (by rw [← hmp]; exact hw) (by rw [← hmp]; exact hv) hbw1 hav0
              omega
          have hLWb : ∀ w, (b'.bids w).is_empty = true → (b'.bids w).last_order_idx = none := by
            intro w hemp
            by_cases hwp : w = p
            · subst hwp
              rw [hemp] at hne'
              exact Bool.noConfusion hne'
            · rw [hframe w hwp] at hemp ⊢
              exact W6b w hemp
          exact ⟨hFB.1, hFB.2, hOB, ⟨hbm, hcacheA⟩, hnc, ⟨hLWb, hLWa⟩,
                 by rw [hmp]; exact W7, by rw [hmp]; exact W8⟩
        · obtain ⟨Fz1, Fz2, Fz3, Fz4⟩ := F9 (by omega)
          have hFB : Fwd b'.order_index b'.arena ∧ Bwd b'.order_index b'.arena := by
            rw [Fz1, Fz2]
            exact P4' ⟨W1, W2⟩
          have hOB : OidBound b'.next_order_id b'.arena := by
            rw [hnext, Fz2]
            exact P2' _ (OidBound_mono (by omega) W3)
          have hbm : b'.bid_max = scanDown b'.bids (b'.maxPrice - 1) := by
            rw [Fz4, Fz3, hmp, P9', P5']
            exact W4b
          have hnc : NoCross b' := by
            intro w v hw hv hbw hav
            have hav1 : (b1.asks v).is_empty = false := by rw [← F3]; exact hav
            have hbw1 : (b.bids w).is_empty = false := by
              rw [← P5', ← Fz3]
              exact hbw
            have hav0 : (b.asks v).is_empty = false := P6' v hav1
            exact W5 w v (by rw [← hmp]; exact hw) (by rw [← hmp]; exact hv) hbw1 hav0
          have hLWb : ∀ w, (b'.bids w).is_empty = true → (b'.bids w).last_order_idx = none := by
            intro w
            rw [Fz3, P5']
            exact W6b w
          exact ⟨hFB.1, hFB.2, hOB, ⟨hbm, hcacheA⟩, hnc, ⟨hLWb, hLWa⟩,
                 by rw [hmp]; exact W7, by rw [hmp]; exact W8⟩
  · simp only [OrderBook.limit_order, if_neg hU] at h
    exact Except.noConfusion h

/-- Everything `limit_order` guarantees on the sell side; mirror image of
`limit_order_buy_ok`. -/
theorem limit_order_sell_ok {b : OrderBook} {t : TraderId} {p q : Nat}
    {b' : OrderBook} {oid : Nat} {tr : List Trade}
    (h : b.limit_order t Side.Sell p q = Except.ok (b', oid, tr)) :
    oid = b.next_order_id ∧
    b'.next_order_id = b.next_order_id + 1 ∧
    b'.maxPrice = b.maxPrice ∧
    (∀ X, X ≠ b.next_order_id → b.order_index X = none → b'.order_index X = none) ∧
    (b.order_index b.next_order_id = none → sumQty tr + restingQty b' oid = q) ∧
    (WF b → WF b') := by
  by_cases hU : b.next_order_id + 1 ≤ U64 - 1
  · simp only [OrderBook.limit_order, if_pos hU] at h
    split at h
    · exact Except.noConfusion h
    · rename_i res b1 rem trs heq
      obtain ⟨P1, P2, P3, P4, P5, P6, P7, P8, P9, P10, P11, P12, P13, P14⟩ :=
        sellPhase_ok heq
      have P2' : ∀ n, OidBound n b.arena → OidBound n b1.arena := P2
      have P3' : ∀ X, b.order_index X = none → b1.order_index X = none := P3
      have P4' : Fwd b.order_index b.arena ∧ Bwd b.order_index b.arena →
          Fwd b1.order_index b1.arena ∧ Bwd b1.order_index b1.arena := P4
      have P5' : b1.asks = b.asks := P5
      have P6' : ∀ w, (b1.bids w).is_empty = false → (b.bids w).is_empty = false := P6
      have P7' : ∀ w, ((b.bids w).is_empty = true → (b.bids w).last_order_idx = none) →
          ((b1.bids w).is_empty = true → (b1.bids w).last_order_idx = none) := P7
      have P8' : b1.maxPrice = b.maxPrice := P8
      have P9' : b1.ask_min = b.ask_min := P9
      have P10' : b1.next_order_id = b.next_order_id + 1 := P10
      have P12' : b.maxPrice ≤ U32 → b.bid_max = scanDown b.bids (b.maxPrice - 1) →
          b1.bid_max = scanDown b1.bids (b1.maxPrice - 1) := P12
      have P13' : b.bid_max = scanDown b.bids (b.maxPrice - 1) → 0 < rem →
          ∀ w, w < b1.maxPrice → (b1.bids w).is_empty = false → w < p := P13
      obtain ⟨F1, F2, F3, F4, F5, F6, F7, F8, F9, F10⟩ := finishSell_ok h
      subst F1 F2
      have hnext : b'.next_order_id = b.next_order_id + 1 := by rw [F6, P10']
      have hmp : b'.maxPrice = b.maxPrice := by rw [F5, P8']
      refine ⟨rfl, hnext, hmp, ?_, ?_, ?_⟩
      · intro X hX hnone
        rw [F8 X hX]
        exact P3' X hnone
      · intro hidx
        by_cases h0 : 0 < rem
        · obtain ⟨Fp1, Fp2, Fp3, Fp4, Fp5, Fp6, Fp7, Fp8⟩ := F10 h0
          obtain ⟨e, hge, hoid, hqty⟩ := Fp3
          have hrest : restingQty b' b.next_order_id = rem := by
            unfold restingQty
            simp only [Fp2, hge, hqty]
          rw [hrest]
          omega
        · obtain ⟨Fz1, Fz2, Fz3, Fz4⟩ := F9 (by omega)
          have hrest : restingQty b' b.next_order_id = 0 := by
            unfold restingQty
            simp only [Fz1, P3' _ hidx]
          rw [hrest]
          omega
      · intro hwf
        obtain ⟨W1, W2, W3, W4, W5, W6, W7, W8⟩ := hwf
        obtain ⟨W4b, W4a⟩ := W4
        obtain ⟨W6b, W6a⟩ := W6
        have hcacheB : b'.bid_max = scanDown b'.bids (b'.maxPrice - 1) := by
          rw [F4, F3, hmp, ← P8']
          exact P12' W8 W4b
        have hLWb : ∀ w, (b'.bids w).is_empty = true → (b'.bids w).last_order_idx = none := by
          intro w
          rw [F3]
          exact P7' w (W6b w)
        by_cases h0 : 0 < rem
        · obtain ⟨Fp1, Fp2, Fp3, Fp4, Fp5, Fp6, Fp7, Fp8⟩ := F10 h0
          have hpmp : p < b.maxPrice := by rw [← P8']; exact Fp1
          have hlwp : (b1.asks p).is_empty = true → (b1.asks p).last_order_idx = none := by
            rw [P5']
            exact W6a p
          have hne' : (b'.asks p).is_empty = false := Fp5 hlwp
          have hFB : Fwd b'.order_index b'.arena ∧ Bwd b'.order_index b'.arena :=
            Fp7 (P2' _ W3) (P4' ⟨W1, W2⟩)
          have hOB : OidBound b'.next_order_id b'.arena := by
            rw [hnext]
            exact Fp8 _ (by omega) (P2' _ (OidBound_mono (by omega) W3))
          have hframe : ∀ w, w ≠ p → b'.asks w = b.asks w := by
            intro w hw
            rw [Fp4 w hw, P5']
          have hsu : scanUp b'.asks 0 b.maxPrice =
              match scanUp b.asks 0 b.maxPrice with
              | none => some p
              | some m => if p < m then some p else some m :=
            scanUp_update' hpmp hne' hframe
          have ham : b'.ask_min = scanUp b'.asks 0 b'.maxPrice := by
            rw [hmp, hsu, Fp6, P9', W4a]
            cases hamax : scanUp b.asks 0 b.maxPrice with
            | none => rfl
            | some m =>
              by_cases hmlt : p < m
              · rw [if_pos (by simpa using hmlt)]
                show some p = if p < m then some p else some m
                rw [if_pos hmlt]
              · rw [if_neg (by simpa using hmlt)]
                show some m = if p < m then some p else some m
                rw [if_neg hmlt]
          have hnc : NoCross b' := by
            intro w v hw hv hbw hav
            have hbw1 : (b1.bids w).is_empty = false := by rw [← F3]; exact hbw
            have hwmp : w < b1.maxPrice := by rw [P8']; rw [hmp] at hw; exact hw
            have hwp : w < p := P13' W4b h0 w hwmp hbw1
            by_cases hvp : v = p
            · omega
            · have hav1 : (b.asks v).is_empty = false := by
                rw [← P5', ← Fp4 v hvp]
                exact hav
              have hbw0 : (b.bids w).is_empty = false := P6' w hbw1
              have := W5 w v (by rw [← hmp]; exact hw) (by rw [← hmp]; exact hv) hbw0 hav1
              omega
          have hLWa : ∀ w, (b'.asks w).is_empty = true → (b'.asks w).last_order_idx = none := by
            intro w hemp
            by_cases hwp : w = p
            · subst hwp
              rw [hemp] at hne'
              exact Bool.noConfusion hne'
            · rw [hframe w hwp] at hemp ⊢
              exact W6a w hemp
          exact ⟨hFB.1, hFB.2, hOB, ⟨hcacheB, ham⟩, hnc, ⟨hLWb, hLWa⟩,
                 by rw [hmp]; exact W7, by rw [hmp]; exact W8⟩
        · obtain ⟨Fz1, Fz2, Fz3, Fz4⟩ := F9 (by omega)
          have hFB : Fwd b'.order_index b'.arena ∧ Bwd b'.order_index b'.arena := by
            rw [Fz1, Fz2]
            exact P4' ⟨W1, W2⟩
          have hOB : OidBound b'.next_order_id b'.arena := by
            rw [hnext, Fz2]
            exact P2' _ (OidBound_mono (by omega) W3)
          have ham : b'.ask_min = scanUp b'.asks 0 b'.maxPrice := by
            rw [Fz4, Fz3, hmp, P9', P5']
            exact W4a
          have hnc : NoCross b' := by
            intro w v hw hv hbw hav
            have hbw1 : (b1.bids w).is_empty = false := by rw [← F3]; exact hbw
            have hav1 : (b.asks v).is_empty = false := by
              rw [← P5', ← Fz3]
              exact hav
            have hbw0 : (b.bids w).is_empty = false := P6' w hbw1
            exact W5 w v (by rw [← hmp]; exact hw) (by rw [← hmp]; exact hv) hbw0 hav1
          have hLWa : ∀ w, (b'.asks w).is_empty = true → (b'.asks w).last_order_idx = none := by
            intro w
            rw [Fz3, P5']
            exact W6a w
          exact ⟨hFB.1, hFB.2, hOB, ⟨hcacheB, ham⟩, hnc, ⟨hLWb, hLWa⟩,
                 by rw [hmp]; exact W7, by rw [hmp]; exact W8⟩
  · simp only [OrderBook.limit_order, if_neg hU] at h
    exact Except.noConfusion h

/-- Everything `limit_order` guarantees, both sides. -/
theorem limit_order_ok {b : OrderBook} {t : TraderId} {s : Side} {p q : Nat}
    {b' : OrderBook} {oid : Nat} {tr : List Trade}
    (h : b.limit_order t s p q = Except.ok (b', oid, tr)) :
    oid = b.next_order_id ∧
    b'.next_order_id = b.next_order_id + 1 ∧
    b'.maxPrice = b.maxPrice ∧
    (∀ X, X ≠ b.next_order_id → b.order_index X = none → b'.order_index X = none) ∧
    (b.order_index b.next_order_id = none → sumQty tr + restingQty b' oid = q) ∧
    (WF b → WF b') := by
  cases s
  · exact limit_order_buy_ok h
  · exact limit_order_sell_ok h

/-- `cancel_order` preserves well-formedness. -/
theorem cancel_order_wf (b : OrderBook) (X : Nat) (hwf : WF b) :
    WF (b.cancel_order X).1 := by
  obtain ⟨W1, W2, W3, W4, W5, W6, W7, W8⟩ := hwf
  cases hix : b.order_index X with
  | none =>
    rw [cancel_order_unknown hix]
    exact ⟨W1, W2, W3, W4, W5, W6, W7, W8⟩
  | some idx =>
    cases hg : b.arena.get idx with
    | none =>
      rw [cancel_order_badslot hix hg]
      exact ⟨W1, W2, W3, W4, W5, W6, W7, W8⟩
    | some e =>
      rw [cancel_order_found hix hg]
      obtain ⟨e0, hge0, hid0, hq0⟩ := W1 X idx hix
      rw [hg] at hge0
      obtain rfl := Option.some.inj hge0
      have hFwd : Fwd (Function.update b.order_index X none)
          (b.arena.setEntry idx e.cancel) := by
        intro Y j hYj
        by_cases hYX : Y = X
        · subst hYX
          rw [Function.update_same] at hYj
          exact Option.noConfusion hYj
        · rw [Function.update_noteq hYX] at hYj
          obtain ⟨e1, he1, hid1, hq1⟩ := W1 Y j hYj
          by_cases hji : idx = j
          · subst hji
            rw [hg] at he1
            obtain rfl := Option.some.inj he1
            exact absurd (hid1.symm.trans hid0) hYX
          · exact ⟨e1, by rw [OrderArena.get_setEntry_ne hji]; exact he1, hid1, hq1⟩
      have hBwd : Bwd (Function.update b.order_index X none)
          (b.arena.setEntry idx e.cancel) := by
        intro j ej hgj hqj
        by_cases hji : idx = j
        · subst hji
          rw [OrderArena.get_setEntry_self hg] at hgj
          obtain rfl := Option.some.inj hgj
          unfold OrderEntry.cancel at hqj
          dsimp only at hqj
          omega
        · rw [OrderArena.get_setEntry_ne hji] at hgj
          have hW2 := W2 j ej hgj hqj
          have hne : ej.order_id ≠ X := by
            intro hcon
            rw [hcon] at hW2
            rw [hW2] at hix
            exact hji (Option.some.inj hix).symm
          rw [Function.update_noteq hne]
          exact hW2
      exact ⟨hFwd, hBwd, OidBound_setEntry hg rfl W3, W4, W5, W6, W7, W8⟩

/-- The fresh book is well-formed. -/
theorem with_capacity_wf (mp mo : Nat) (h1 : 0 < mp) (h2 : mp ≤ U32) :
    WF (OrderBook.with_capacity mp mo) := by
  refine ⟨?_, ?_, ?_, ⟨?_, ?_⟩, ?_, ⟨?_, ?_⟩, h1, h2⟩
  · intro X i hXi
    exact Option.noConfusion hXi
  · intro i e hg _
    have hnone : (OrderBook.with_capacity mp mo).arena.get i = none := by
      rw [OrderArena.get]
      exact List.getElem?_nil
    rw [hnone] at hg
    exact Option.noConfusion hg
  · intro i e hg
    have hnone : (OrderBook.with_capacity mp mo).arena.get i = none := by
      rw [OrderArena.get]
      exact List.getElem?_nil
    rw [hnone] at hg
    exact Option.noConfusion hg
  · refine (scanDown_none _ ?_).symm
    intro w _
    rfl
  · refine (scanUp_none mp 0 ?_).symm
    intro w _ _
    rfl
  · intro w v _ _ hbw _
    exact Bool.noConfusion hbw
  · intro w _
    rfl
  · intro w _
    rfl

/-- Every reachable book is well-formed. -/
theorem reachable_WF {b : OrderBook} (h : Reachable b) : WF b := by
  induction h with
  | init mp mo h1 h2 => exact with_capacity_wf mp mo h1 h2
  | limit hr hstep ih => exact (limit_order_ok hstep).2.2.2.2.2 ih
  | cancel oid hr ih => exact cancel_order_wf _ oid ih


section ChainLemmas

/-- A chain with no head is empty. -/
theorem isChain_none {ar : OrderArena} {c : List Nat}
    (h : isChain ar none c = true) : c = [] := by
  cases c with
  | nil => rfl
  | cons x c => rw [isChain] at h; exact Bool.noConfusion h

/-- Destructor for a chain with a head. -/
theorem isChain_cons {ar : OrderArena} {i : Nat} {c : List Nat}
    (h : isChain ar (some i) c = true) :
    ∃ e c', c = i :: c' ∧ ar.get i = some e ∧ isChain ar e.next_idx c' = true := by
  cases c with
  | nil => rw [isChain] at h; exact Bool.noConfusion h
  | cons j c' =>
    rw [isChain, Bool.and_eq_true, decide_eq_true_eq] at h
    obtain ⟨rfl, h2⟩ := h
    cases hg : ar.get i with
    | none => rw [hg] at h2; exact Bool.noConfusion h2
    | some e =>
      rw [hg] at h2
      exact ⟨e, c', rfl, rfl, h2⟩

/-- Constructor for a chain with a head. -/
theorem isChain_cons_intro {ar : OrderArena} {i : Nat} {e : OrderEntry} {c' : List Nat}
    (hg : ar.get i = some e) (h : isChain ar e.next_idx c' = true) :
    isChain ar (some i) (i :: c') = true := by
  rw [isChain, Bool.and_eq_true, decide_eq_true_eq]
  exact ⟨rfl, by rw [hg]; exact h⟩

/-- A head has at most one chain. -/
theorem isChain_fun {ar : OrderArena} :
    ∀ {c c' : List Nat} {h0 : Option Nat}, isChain ar h0 c = true →
      isChain ar h0 c' = true → c = c' := by
  intro c
  induction c with
  | nil =>
    intro c' h0 h h'
    cases h0 with
    | none => exact (isChain_none h').symm
    | some i => rw [isChain] at h; exact Bool.noConfusion h
  | cons x c ih =>
    intro c' h0 h h'
    cases h0 with
    | none => rw [isChain] at h; exact Bool.noConfusion h
    | some i =>
      obtain ⟨e, d, heq, hg, hrest⟩ := isChain_cons h
      obtain ⟨e2, d2, heq2, hg2, hrest2⟩ := isChain_cons h'
      obtain rfl := Option.some.inj (hg.symm.trans hg2)
      injection heq with h1 h2
      subst h1 h2 heq2
      exact congrArg (x :: ·) (ih hrest hrest2)

/-- Every chain member is a live slot. -/
theorem isChain_mem_get {ar : OrderArena} :
    ∀ {c : List Nat} {h0 : Option Nat} {x : Nat}, isChain ar h0 c = true →
      x ∈ c → ∃ e, ar.get x = some e := by
  intro c
  induction c with
  | nil => intro h0 x _ hx; exact absurd hx (List.not_mem_nil x)
  | cons y c ih =>
    intro h0 x h hx
    cases h0 with
    | none => rw [isChain] at h; exact Bool.noConfusion h
    | some i =>
      obtain ⟨e, d, heq, hg, hrest⟩ := isChain_cons h
      injection heq with h1 h2
      subst h1 h2
      rcases List.mem_cons.mp hx with rfl | hx'
      · exact ⟨e, hg⟩
      · exact ih hrest hx'

/-- Chains only look at the `next_idx` layout of the arena. -/
theorem isChain_congr {ar ar' : OrderArena}
    (hn : ∀ y, entryNext ar' y = entryNext ar y) :
    ∀ {c : List Nat} {h0 : Option Nat}, isChain ar h0 c = true →
      isChain ar' h0 c = true := by
  intro c
  induction c with
  | nil =>
    intro h0 h
    cases h0 with
    | none => rw [isChain]
    | some i => rw [isChain] at h; exact Bool.noConfusion h
  | cons x c ih =>
    intro h0 h
    cases h0 with
    | none => rw [isChain] at h; exact Bool.noConfusion h
    | some i =>
      obtain ⟨e, d, heq, hg, hrest⟩ := isChain_cons h
      injection heq with h1 h2
      subst h1 h2
      have hx := hn x
      rw [entryNext, entryNext, hg] at hx
      cases hg' : ar'.get x with
      | none => rw [hg'] at hx; exact Option.noConfusion hx
      | some e' =>
        rw [hg'] at hx
        have hnext : e'.next_idx = e.next_idx := Option.some.inj hx
        refine isChain_cons_intro hg' ?_
        rw [hnext]
        exact ih hrest

/-- Chains survive any arena change that leaves their members' slots alone. -/
theorem isChain_frame {ar ar' : OrderArena} :
    ∀ {c : List Nat} {h0 : Option Nat}, (∀ x, x ∈ c → ar'.get x = ar.get x) →
      isChain ar h0 c = true → isChain ar' h0 c = true := by
  intro c
  induction c with
  | nil =>
    intro h0 _ h
    cases h0 with
    | none => rw [isChain]
    | some i => rw [isChain] at h; exact Bool.noConfusion h
  | cons x c ih =>
    intro h0 hfr h
    cases h0 with
    | none => rw [isChain] at h; exact Bool.noConfusion h
    | some i =>
      obtain ⟨e, d, heq, hg, hrest⟩ := isChain_cons h
      injection heq with h1 h2
      subst h1 h2
      refine isChain_cons_intro (by rw [hfr x (List.mem_cons_self x c)]; exact hg) ?_
      exact ih (fun y hy => hfr y (List.mem_cons_of_mem x hy)) hrest

end ChainLemmas

section MatchChain

/-- The fill stage seen slot-by-slot: the only write is to `idx`, keeping id,
trader and link; new trades carry the level price and the entry's trader;
quantity and state bookkeeping for the FIFO argument. -/
theorem processEntry_chain {trader : TraderId} {side : Side} {price : Nat}
    {st : LoopSt} {idx : Nat} {e : OrderEntry} (hg : st.arena.get idx = some e) :
    (∀ x, x ≠ idx → (processEntry trader side price st idx e).arena.get x = st.arena.get x) ∧
    (∃ e1, (processEntry trader side price st idx e).arena.get idx = some e1 ∧
      e1.order_id = e.order_id ∧ e1.trader = e.trader ∧
      e1.next_idx = e.next_idx ∧ e1.quantity ≤ e.quantity) ∧
    (∀ td, td ∈ (processEntry trader side price st idx e).trades → td ∈ st.trades ∨
      ∃ f, 0 < e.quantity ∧ td = mkTrade side trader e.trader price f) ∧
    (processEntry trader side price st idx e).remaining ≤ st.remaining ∧
    (0 < (processEntry trader side price st idx e).remaining →
      entryQty (processEntry trader side price st idx e).arena idx = 0) ∧
    (0 < e.quantity → entryQty (processEntry trader side price st idx e).arena idx = 0 ∨
      (processEntry trader side price st idx e).remaining = 0) ∧
    ((processEntry trader side price st idx e).first_active = none ∨
      (processEntry trader side price st idx e).first_active = some idx ∨
      (processEntry trader side price st idx e).first_active = st.first_active) ∧
    (processEntry trader side price st idx e).current_idx = st.current_idx := by
  unfold processEntry
  by_cases hact : e.is_active = true
  · rw [if_pos hact]
    have hepos : 0 < e.quantity := by
      have := hact
      unfold OrderEntry.is_active at this
      exact of_decide_eq_true this
    have hmin : min st.remaining e.quantity ≤ e.quantity := Nat.min_le_right _ _
    by_cases hz : e.quantity - min st.remaining e.quantity = 0
    · rw [if_pos hz]
      refine ⟨?_, ?_, ?_, ?_, ?_, ?_, ?_, rfl⟩
      · intro x hx
        exact OrderArena.get_setEntry_ne (fun hixn => hx hixn.symm)
      · exact ⟨_, OrderArena.get_setEntry_self hg, rfl, rfl, rfl, by dsimp only; omega⟩
      · intro td htd
        dsimp only at htd
        rcases List.mem_append.mp htd with h1 | h1
        · exact Or.inl h1
        · exact Or.inr ⟨_, hepos, List.mem_singleton.mp h1⟩
      · dsimp only; omega
      · intro _
        rw [entryQty, OrderArena.get_setEntry_self hg]
        exact hz
      · intro _
        left
        rw [entryQty, OrderArena.get_setEntry_self hg]
        exact hz
      · dsimp only
        by_cases hfa : (if st.first_active.isNone then some idx else st.first_active) = some idx
        · rw [if_pos hfa]; exact Or.inl rfl
        · rw [if_neg hfa]
          by_cases hno : st.first_active.isNone
          · rw [if_pos hno] at hfa
            exact absurd rfl hfa
          · rw [if_neg hno]
            exact Or.inr (Or.inr rfl)
    · rw [if_neg hz]
      have hfr : min st.remaining e.quantity = st.remaining := by omega
      refine ⟨?_, ?_, ?_, ?_, ?_, ?_, ?_, rfl⟩
      · intro x hx
        exact OrderArena.get_setEntry_ne (fun hixn => hx hixn.symm)
      · exact ⟨_, OrderArena.get_setEntry_self hg, rfl, rfl, rfl, by dsimp only; omega⟩
      · intro td htd
        dsimp only at htd
        rcases List.mem_append.mp htd with h1 | h1
        · exact Or.inl h1
        · exact Or.inr ⟨_, hepos, List.mem_singleton.mp h1⟩
      · dsimp only; omega
      · intro hrem
        dsimp only at hrem
        omega
      · intro _
        right
        dsimp only
        omega
      · dsimp only
        by_cases hno : st.first_active.isNone
        · rw [if_pos hno]
          exact Or.inr (Or.inl rfl)
        · rw [if_neg hno]
          exact Or.inr (Or.inr rfl)
  · rw [if_neg hact]
    have hq0 : e.quantity = 0 := by
      by_contra hq
      exact hact (by unfold OrderEntry.is_active; exact decide_eq_true (by omega))
    refine ⟨fun x _ => rfl, ⟨e, hg, rfl, rfl, rfl, le_rfl⟩, fun td htd => Or.inl htd,
            le_rfl, ?_, ?_, Or.inr (Or.inr rfl), rfl⟩
    · intro _
      rw [entryQty, hg]
      exact hq0
    · intro hq
      exact absurd hq0 (by omega)

/-- One loop iteration seen slot-by-slot: the only write is to `idx`; the
cursor advances along `next_idx`; new trades carry the level price. -/
theorem matchStep_chain {trader : TraderId} {side : Side} {price : Nat}
    {st : LoopSt} {idx : Nat} {st2 : LoopSt}
    (h : matchStep trader side price st idx = Except.ok st2) :
    ∃ e0, st.arena.get idx = some e0 ∧
      (∀ x, x ≠ idx → st2.arena.get x = st.arena.get x) ∧
      (∃ e1, st2.arena.get idx = some e1 ∧ e1.order_id = e0.order_id ∧
        e1.trader = e0.trader ∧ e1.next_idx = e0.next_idx ∧
        e1.quantity ≤ e0.quantity) ∧
      st2.current_idx = e0.next_idx ∧
      (∀ td, td ∈ st2.trades → td ∈ st.trades ∨
        ∃ f, 0 < e0.quantity ∧ td = mkTrade side trader e0.trader price f) ∧
      st2.remaining ≤ st.remaining ∧
      (0 < st2.remaining → entryQty st2.arena idx = 0) ∧
      (0 < e0.quantity → entryQty st2.arena idx = 0 ∨ st2.remaining = 0) ∧
      (st2.first_active = none ∨ st2.first_active = some idx ∨
        st2.first_active = st.first_active ∨ st2.first_active = e0.next_idx) := by
  rw [matchStep] at h
  cases hg : st.arena.get idx with
  | none => rw [hg] at h; exact Except.noConfusion h
  | some e0 =>
    rw [hg] at h
    obtain ⟨pA, pB, pC, pD, pE, pF, pG, pH⟩ :=
      @processEntry_chain trader side price st idx e0 hg
    obtain ⟨e1, hg1, hid1, htr1, hnx1, hq1⟩ := pB
    simp only [hg1] at h
    refine ⟨e0, rfl, ?_⟩
    cases hnext : e1.next_idx with
    | none =>
      rw [hnext] at h
      obtain rfl := Except.ok.inj h
      refine ⟨pA, ⟨e1, hg1, hid1, htr1, hnx1, hq1⟩,
              by rw [← hnx1]; exact hnext.symm, pC, pD, pE, pF, ?_⟩
      rcases pG with h1 | h1 | h1
      · exact Or.inl h1
      · exact Or.inr (Or.inl h1)
      · exact Or.inr (Or.inr (Or.inl h1))
    | some nidx =>
      rw [hnext] at h
      cases hfa : (processEntry trader side price st idx e0).first_active with
      | none =>
        simp only [hfa, Option.isNone_none, eq_self_iff_true, if_true] at h
        cases hgn : (processEntry trader side price st idx e0).arena.get nidx with
        | none => rw [hgn] at h; exact Except.noConfusion h
        | some ne =>
          rw [hgn] at h
          obtain rfl := Except.ok.inj h
          refine ⟨pA, ⟨e1, hg1, hid1, htr1, hnx1, hq1⟩,
                  by rw [← hnx1]; exact hnext.symm, pC, pD, pE, pF, ?_⟩
          dsimp only
          by_cases hb : ne.is_active = true
          · rw [if_pos hb]
            refine Or.inr (Or.inr (Or.inr ?_))
            rw [← hnx1]
            exact hnext.symm
          · rw [if_neg hb]
            exact Or.inl rfl
      | some w =>
        simp only [hfa, Option.isNone_some, Bool.false_eq_true, if_false] at h
        obtain rfl := Except.ok.inj h
        refine ⟨pA, ⟨e1, hg1, hid1, htr1, hnx1, hq1⟩,
                by rw [← hnx1]; exact hnext.symm, pC, pD, pE, pF, ?_⟩
        rcases pG with h1 | h1 | h1
        · rw [hfa] at h1; exact Option.noConfusion h1
        · rw [hfa] at h1
          exact Or.inr (Or.inl h1)
        · rw [hfa] at h1
          exact Or.inr (Or.inr (Or.inl h1))

end MatchChain

section LoopChain

/-- One loop iteration never changes the link layout of the arena. -/
theorem matchStep_nextEq {trader : TraderId} {side : Side} {price : Nat}
    {st : LoopSt} {idx : Nat} {st2 : LoopSt}
    (h : matchStep trader side price st idx = Except.ok st2) :
    ∀ y, entryNext st2.arena y = entryNext st.arena y := by
  obtain ⟨e0, hg, pA, ⟨e1, hg1, _, _, hnx1, _⟩, _⟩ := matchStep_chain h
  intro y
  by_cases hy : y = idx
  · subst hy
    rw [entryNext, entryNext, hg, hg1]
    exact congrArg some hnx1
  · rw [entryNext, entryNext, pA y hy]

/-- A loop started with nothing left to fill returns its state unchanged. -/
theorem matchLoop_idle {trader : TraderId} {side : Side} {price : Nat}
    {fuel : Nat} {st st' : LoopSt}
    (h : matchLoop trader side price fuel st = Except.ok st')
    (hrem : st.remaining = 0) : st' = st := by
  cases fuel with
  | zero =>
    rw [matchLoop] at h
    rw [if_neg (by omega)] at h
    exact (Except.ok.inj h).symm
  | succ fuel =>
    rw [matchLoop] at h
    cases hcc : st.current_idx with
    | none => rw [hcc] at h; exact (Except.ok.inj h).symm
    | some idx =>
      simp only [hcc] at h
      rw [if_neg (by omega)] at h
      exact (Except.ok.inj h).symm

/-- The unfilled remainder only shrinks across the loop. -/
theorem matchLoop_remMono {trader : TraderId} {side : Side} {price : Nat} :
    ∀ {fuel : Nat} {st st' : LoopSt},
      matchLoop trader side price fuel st = Except.ok st' →
      st'.remaining ≤ st.remaining := by
  intro fuel
  induction fuel with
  | zero =>
    intro st st' h
    rw [matchLoop] at h
    by_cases hc : 0 < st.remaining ∧ st.current_idx.isSome = true
    · rw [if_pos hc] at h; exact Except.noConfusion h
    · rw [if_neg hc] at h
      obtain rfl := Except.ok.inj h
      exact le_rfl
  | succ fuel ih =>
    intro st st' h
    rw [matchLoop] at h
    cases hcc : st.current_idx with
    | none =>
      simp only [hcc] at h
      obtain rfl := Except.ok.inj h
      exact le_rfl
    | some idx =>
      simp only [hcc] at h
      by_cases hr : 0 < st.remaining
      · rw [if_pos hr] at h
        cases hms : matchStep trader side price st idx with
        | error err => simp only [hms] at h; exact Except.noConfusion h
        | ok st1 =>
          simp only [hms] at h
          obtain ⟨e0, _, _, _, _, _, pD, _⟩ := matchStep_chain hms
          exact le_trans (ih h) pD
      · rw [if_neg hr] at h
        obtain rfl := Except.ok.inj h
        exact le_rfl

/-- Slot quantities only shrink across the loop. -/
theorem matchLoop_mono {trader : TraderId} {side : Side} {price : Nat} :
    ∀ {fuel : Nat} {st st' : LoopSt},
      matchLoop trader side price fuel st = Except.ok st' →
      ∀ x, entryQty st'.arena x ≤ entryQty st.arena x := by
  intro fuel
  induction fuel with
  | zero =>
    intro st st' h x
    rw [matchLoop] at h
    by_cases hc : 0 < st.remaining ∧ st.current_idx.isSome = true
    · rw [if_pos hc] at h; exact Except.noConfusion h
    · rw [if_neg hc] at h
      obtain rfl := Except.ok.inj h
      exact le_rfl
  | succ fuel ih =>
    intro st st' h x
    rw [matchLoop] at h
    cases hcc : st.current_idx with
    | none =>
      simp only [hcc] at h
      obtain rfl := Except.ok.inj h
      exact le_rfl
    | some idx =>
      simp only [hcc] at h
      by_cases hr : 0 < st.remaining
      · rw [if_pos hr] at h
        cases hms : matchStep trader side price st idx with
        | error err => simp only [hms] at h; exact Except.noConfusion h
        | ok st1 =>
          simp only [hms] at h
          obtain ⟨e0, hg, pA, ⟨e1, hg1, _, _, _, hq1⟩, _⟩ := matchStep_chain hms
          refine le_trans (ih h x) ?_
          by_cases hx : x = idx
          · subst hx
            rw [entryQty, entryQty, hg, hg1]
            exact hq1
          · rw [entryQty, entryQty, pA x hx]
      · rw [if_neg hr] at h
        obtain rfl := Except.ok.inj h
        exact le_rfl

/-- The link layout of the arena is untouched by the whole loop. -/
theorem matchLoop_nextEq {trader : TraderId} {side : Side} {price : Nat} :
    ∀ {fuel : Nat} {st st' : LoopSt},
      matchLoop trader side price fuel st = Except.ok st' →
      ∀ y, entryNext st'.arena y = entryNext st.arena y := by
  intro fuel
  induction fuel with
  | zero =>
    intro st st' h y
    rw [matchLoop] at h
    by_cases hc : 0 < st.remaining ∧ st.current_idx.isSome = true
    · rw [if_pos hc] at h; exact Except.noConfusion h
    · rw [if_neg hc] at h
      obtain rfl := Except.ok.inj h
      rfl
  | succ fuel ih =>
    intro st st' h y
    rw [matchLoop] at h
    cases hcc : st.current_idx with
    | none =>
      simp only [hcc] at h
      obtain rfl := Except.ok.inj h
      rfl
    | some idx =>
      simp only [hcc] at h
      by_cases hr : 0 < st.remaining
      · rw [if_pos hr] at h
        cases hms : matchStep trader side price st idx with
        | error err => simp only [hms] at h; exact Except.noConfusion h
        | ok st1 =>
          simp only [hms] at h
          exact (ih h y).trans (matchStep_nextEq hms y)
      · rw [if_neg hr] at h
        obtain rfl := Except.ok.inj h
        rfl

/-- The loop writes only to slots of the chain it was started on. -/
theorem matchLoop_confine {trader : TraderId} {side : Side} {price : Nat} :
    ∀ {fuel : Nat} {st st' : LoopSt} {c : List Nat},
      matchLoop trader side price fuel st = Except.ok st' →
      isChain st.arena st.current_idx c = true →
      ∀ x, x ∉ c → st'.arena.get x = st.arena.get x := by
  intro fuel
  induction fuel with
  | zero =>
    intro st st' c h hch x hx
    rw [matchLoop] at h
    by_cases hc : 0 < st.remaining ∧ st.current_idx.isSome = true
    · rw [if_pos hc] at h; exact Except.noConfusion h
    · rw [if_neg hc] at h
      obtain rfl := Except.ok.inj h
      rfl
  | succ fuel ih =>
    intro st st' c h hch x hx
    rw [matchLoop] at h
    cases hcc : st.current_idx with
    | none =>
      simp only [hcc] at h
      obtain rfl := Except.ok.inj h
      rfl
    | some idx =>
      simp only [hcc] at h
      by_cases hr : 0 < st.remaining
      · rw [if_pos hr] at h
        cases hms : matchStep trader side price st idx with
        | error err => simp only [hms] at h; exact Except.noConfusion h
        | ok st1 =>
          simp only [hms] at h
          rw [hcc] at hch
          obtain ⟨e, c', rfl, hg0, hrest⟩ := isChain_cons hch
          obtain ⟨e0, hg, pA, pB, pcur, _⟩ := matchStep_chain hms
          obtain rfl := Option.some.inj (hg0.symm.trans hg)
          have hch1 : isChain st1.arena st1.current_idx c' = true := by
            rw [pcur]
            exact isChain_congr (matchStep_nextEq hms) hrest
          have hx1 : x ∉ c' := fun hc' => hx (List.mem_cons_of_mem idx hc')
          have hxi : x ≠ idx := fun he => hx (he ▸ List.mem_cons_self idx c')
          rw [ih h hch1 x hx1]
          exact pA x hxi
      · rw [if_neg hr] at h
        obtain rfl := Except.ok.inj h
        rfl

/-- Slots survive the loop with id, trader and link intact and quantity at
most what it was. -/
theorem matchLoop_slots {trader : TraderId} {side : Side} {price : Nat} :
    ∀ {fuel : Nat} {st st' : LoopSt},
      matchLoop trader side price fuel st = Except.ok st' →
      ∀ x e', st'.arena.get x = some e' → ∃ e, st.arena.get x = some e ∧
        e'.order_id = e.order_id ∧ e'.trader = e.trader ∧
        e'.next_idx = e.next_idx ∧ e'.quantity ≤ e.quantity := by
  intro fuel
  induction fuel with
  | zero =>
    intro st st' h x e' hg'
    rw [matchLoop] at h
    by_cases hc : 0 < st.remaining ∧ st.current_idx.isSome = true
    · rw [if_pos hc] at h; exact Except.noConfusion h
    · rw [if_neg hc] at h
      obtain rfl := Except.ok.inj h
      exact ⟨e', hg', rfl, rfl, rfl, le_rfl⟩
  | succ fuel ih =>
    intro st st' h x e' hg'
    rw [matchLoop] at h
    cases hcc : st.current_idx with
    | none =>
      simp only [hcc] at h
      obtain rfl := Except.ok.inj h
      exact ⟨e', hg', rfl, rfl, rfl, le_rfl⟩
    | some idx =>
      simp only [hcc] at h
      by_cases hr : 0 < st.remaining
      · rw [if_pos hr] at h
        cases hms : matchStep trader side price st idx with
        | error err => simp only [hms] at h; exact Except.noConfusion h
        | ok st1 =>
          simp only [hms] at h
          obtain ⟨em, hgm, hidm, htrm, hnxm, hqm⟩ := ih h x e' hg'
          obtain ⟨e0, hg, pA, ⟨e1, hg1, hid1, htr1, hnx1, hq1⟩, _⟩ := matchStep_chain hms
          by_cases hx : x = idx
          · subst hx
            rw [hgm] at hg1
            obtain rfl := Option.some.inj hg1
            exact ⟨e0, hg, hidm.trans hid1, htrm.trans htr1, hnxm.trans hnx1,
                   le_trans hqm hq1⟩
          · rw [pA x hx] at hgm
            exact ⟨em, hgm, hidm, htrm, hnxm, hqm⟩
      · rw [if_neg hr] at h
        obtain rfl := Except.ok.inj h
        exact ⟨e', hg', rfl, rfl, rfl, le_rfl⟩

end LoopChain

section LoopChain2

/-- If quantity is left over when the loop ends, the entire chain was swept
clean: every slot of it is at quantity zero. -/
theorem matchLoop_zeroed {trader : TraderId} {side : Side} {price : Nat} :
    ∀ {fuel : Nat} {st st' : LoopSt} {c : List Nat},
      matchLoop trader side price fuel st = Except.ok st' →
      isChain st.arena st.current_idx c = true →
      0 < st'.remaining → ∀ x, x ∈ c → entryQty st'.arena x = 0 := by
  intro fuel
  induction fuel with
  | zero =>
    intro st st' c h hch hrem x hx
    rw [matchLoop] at h
    by_cases hc : 0 < st.remaining ∧ st.current_idx.isSome = true
    · rw [if_pos hc] at h; exact Except.noConfusion h
    · rw [if_neg hc] at h
      obtain rfl := Except.ok.inj h
      cases hcc : st.current_idx with
      | none =>
        rw [hcc] at hch
        rw [isChain_none hch] at hx
        exact absurd hx (List.not_mem_nil x)
      | some idx =>
        exact absurd ⟨hrem, by rw [hcc]; rfl⟩ hc
  | succ fuel ih =>
    intro st st' c h hch hrem x hx
    rw [matchLoop] at h
    cases hcc : st.current_idx with
    | none =>
      simp only [hcc] at h
      obtain rfl := Except.ok.inj h
      rw [hcc] at hch
      rw [isChain_none hch] at hx
      exact absurd hx (List.not_mem_nil x)
    | some idx =>
      simp only [hcc] at h
      by_cases hr : 0 < st.remaining
      · rw [if_pos hr] at h
        cases hms : matchStep trader side price st idx with
        | error err => simp only [hms] at h; exact Except.noConfusion h
        | ok st1 =>
          simp only [hms] at h
          rw [hcc] at hch
          obtain ⟨e, c', rfl, hg0, hrest⟩ := isChain_cons hch
          obtain ⟨e0, hg, pA, pB, pcur, pC, pD, pE, pF, pG⟩ := matchStep_chain hms
          obtain rfl := Option.some.inj (hg0.symm.trans hg)
          have hch1 : isChain st1.arena st1.current_idx c' = true := by
            rw [pcur]
            exact isChain_congr (matchStep_nextEq hms) hrest
          rcases List.mem_cons.mp hx with rfl | hx'
          · have hr1 : 0 < st1.remaining := lt_of_lt_of_le hrem (matchLoop_remMono h)
            have h0 : entryQty st1.arena x = 0 := pE hr1
            have := matchLoop_mono h x
            omega
          · exact ih h hch1 hrem x hx'
      · rw [if_neg hr] at h
        obtain rfl := Except.ok.inj h
        exact absurd hrem (by omega)

/-- Every trade the loop appends comes from a live entry of the chain, at
the level's price, with that entry's trader as the resting party. -/
theorem matchLoop_trades {trader : TraderId} {side : Side} {price : Nat} :
    ∀ {fuel : Nat} {st st' : LoopSt} {c : List Nat},
      matchLoop trader side price fuel st = Except.ok st' →
      isChain st.arena st.current_idx c = true →
      ∀ td, td ∈ st'.trades → td ∈ st.trades ∨
        ∃ i e f, i ∈ c ∧ st.arena.get i = some e ∧ 0 < e.quantity ∧
          td = mkTrade side trader e.trader price f := by
  intro fuel
  induction fuel with
  | zero =>
    intro st st' c h hch td htd
    rw [matchLoop] at h
    by_cases hc : 0 < st.remaining ∧ st.current_idx.isSome = true
    · rw [if_pos hc] at h; exact Except.noConfusion h
    · rw [if_neg hc] at h
      obtain rfl := Except.ok.inj h
      exact Or.inl htd
  | succ fuel ih =>
    intro st st' c h hch td htd
    rw [matchLoop] at h
    cases hcc : st.current_idx with
    | none =>
      simp only [hcc] at h
      obtain rfl := Except.ok.inj h
      exact Or.inl htd
    | some idx =>
      simp only [hcc] at h
      by_cases hr : 0 < st.remaining
      · rw [if_pos hr] at h
        cases hms : matchStep trader side price st idx with
        | error err => simp only [hms] at h; exact Except.noConfusion h
        | ok st1 =>
          simp only [hms] at h
          rw [hcc] at hch
          obtain ⟨e, c', rfl, hg0, hrest⟩ := isChain_cons hch
          obtain ⟨e0, hg, pA, pB, pcur, pC, pD, pE, pF, pG⟩ := matchStep_chain hms
          obtain rfl := Option.some.inj (hg0.symm.trans hg)
          have hch1 : isChain st1.arena st1.current_idx c' = true := by
            rw [pcur]
            exact isChain_congr (matchStep_nextEq hms) hrest
          rcases ih h hch1 td htd with h1 | ⟨i, e1, f, hic, hge1, hq1, hmk⟩
          · rcases pC td h1 with h2 | ⟨f, hq0, hmk⟩
            · exact Or.inl h2
            · exact Or.inr ⟨idx, e, f, List.mem_cons_self idx c', hg, hq0, hmk⟩
          · by_cases hii : i = idx
            · subst hii
              obtain ⟨e1', hg1', hid', htr', hnx', hq'⟩ := pB
              rw [hge1] at hg1'
              obtain rfl := Option.some.inj hg1'
              refine Or.inr ⟨i, e, f, List.mem_cons_self i c', hg, by omega, ?_⟩
              rw [hmk, htr']
            · rw [pA i hii] at hge1
              exact Or.inr ⟨i, e1, f, List.mem_cons_of_mem idx hic, hge1, hq1, hmk⟩
      · rw [if_neg hr] at h
        obtain rfl := Except.ok.inj h
        exact Or.inl htd

end LoopChain2

section LoopChain3

/-- Both the cursor and `first_active_idx` always sit at the head of a
suffix of the original chain (in the current arena). -/
theorem matchLoop_fainv {trader : TraderId} {side : Side} {price : Nat} :
    ∀ {fuel : Nat} {st st' : LoopSt} {c0 : List Nat},
      matchLoop trader side price fuel st = Except.ok st' →
      (∃ ccur, ccur.IsSuffix c0 ∧ isChain st.arena st.current_idx ccur = true) →
      (st.first_active = none ∨
        ∃ cfa, cfa.IsSuffix c0 ∧ isChain st.arena st.first_active cfa = true) →
      (∃ ccur, ccur.IsSuffix c0 ∧ isChain st'.arena st'.current_idx ccur = true) ∧
      (st'.first_active = none ∨
        ∃ cfa, cfa.IsSuffix c0 ∧ isChain st'.arena st'.first_active cfa = true) := by
  intro fuel
  induction fuel with
  | zero =>
    intro st st' c0 h hcur hfa
    rw [matchLoop] at h
    by_cases hc : 0 < st.remaining ∧ st.current_idx.isSome = true
    · rw [if_pos hc] at h; exact Except.noConfusion h
    · rw [if_neg hc] at h
      obtain rfl := Except.ok.inj h
      exact ⟨hcur, hfa⟩
  | succ fuel ih =>
    intro st st' c0 h hcur hfa
    rw [matchLoop] at h
    cases hcc : st.current_idx with
    | none =>
      simp only [hcc] at h
      obtain rfl := Except.ok.inj h
      exact ⟨hcur, hfa⟩
    | some idx =>
      simp only [hcc] at h
      by_cases hr : 0 < st.remaining
      · rw [if_pos hr] at h
        cases hms : matchStep trader side price st idx with
        | error err => simp only [hms] at h; exact Except.noConfusion h
        | ok st1 =>
          simp only [hms] at h
          obtain ⟨ccur, hsuf, hch⟩ := hcur
          rw [hcc] at hch
          obtain ⟨e, c', rfl, hg0, hrest⟩ := isChain_cons hch
          obtain ⟨e0, hg, pA, pB, pcur, pC, pD, pE, pF, pG⟩ := matchStep_chain hms
          obtain rfl := Option.some.inj (hg0.symm.trans hg)
          have hnx := matchStep_nextEq hms
          have hsuf' : c'.IsSuffix c0 := (List.suffix_cons idx c').trans hsuf
          have hcur1 : ∃ ccur, ccur.IsSuffix c0 ∧
              isChain st1.arena st1.current_idx ccur = true := by
            refine ⟨c', hsuf', ?_⟩
            rw [pcur]
            exact isChain_congr hnx hrest
          have hfa1 : st1.first_active = none ∨
              ∃ cfa, cfa.IsSuffix c0 ∧ isChain st1.arena st1.first_active cfa = true := by
            rcases pG with h1 | h1 | h1 | h1
            · exact Or.inl h1
            · refine Or.inr ⟨idx :: c', hsuf, ?_⟩
              rw [h1]
              exact isChain_congr hnx hch
            · rcases hfa with h2 | ⟨cfa, hs2, hc2⟩
              · exact Or.inl (h1.trans h2)
              · refine Or.inr ⟨cfa, hs2, ?_⟩
                rw [h1]
                exact isChain_congr hnx hc2
            · refine Or.inr ⟨c', hsuf', ?_⟩
              rw [h1]
              exact isChain_congr hnx hrest
          exact ih h hcur1 hfa1
      · rw [if_neg hr] at h
        obtain rfl := Except.ok.inj h
        exact ⟨hcur, hfa⟩

/-- Strict FIFO within the chain: if a later chain member lost any quantity
to the sweep, every earlier live member was completely filled. -/
theorem matchLoop_fifo {trader : TraderId} {side : Side} {price : Nat} :
    ∀ {fuel : Nat} {st st' : LoopSt} {c : List Nat},
      matchLoop trader side price fuel st = Except.ok st' →
      isChain st.arena st.current_idx c = true → c.Nodup →
      ∀ {k1 k2 : Nat} (hk : k1 < k2) (hk1 : k1 < c.length) (hk2 : k2 < c.length)
        {i j : Nat} {eA eB : OrderEntry},
        c.get ⟨k1, hk1⟩ = i → c.get ⟨k2, hk2⟩ = j →
        st.arena.get i = some eA → st.arena.get j = some eB →
        0 < eA.quantity → 0 < eB.quantity →
        entryQty st'.arena j < eB.quantity → entryQty st'.arena i = 0 := by
  intro fuel
  induction fuel with
  | zero =>
    intro st st' c h hch hnd k1 k2 hk hk1 hk2 i j eA eB hgi hgj hgA hgB hA hB hdec
    rw [matchLoop] at h
    by_cases hc : 0 < st.remaining ∧ st.current_idx.isSome = true
    · rw [if_pos hc] at h; exact Except.noConfusion h
    · rw [if_neg hc] at h
      obtain rfl := Except.ok.inj h
      simp only [entryQty, hgB] at hdec
      omega
  | succ fuel ih =>
    intro st st' c h hch hnd k1 k2 hk hk1 hk2 i j eA eB hgi hgj hgA hgB hA hB hdec
    rw [matchLoop] at h
    cases hcc : st.current_idx with
    | none =>
      simp only [hcc] at h
      obtain rfl := Except.ok.inj h
      simp only [entryQty, hgB] at hdec
      omega
    | some idx =>
      simp only [hcc] at h
      by_cases hr : 0 < st.remaining
      · rw [if_pos hr] at h
        cases hms : matchStep trader side price st idx with
        | error err => simp only [hms] at h; exact Except.noConfusion h
        | ok st1 =>
          simp only [hms] at h
          rw [hcc] at hch
          obtain ⟨e, c', rfl, hg0, hrest⟩ := isChain_cons hch
          obtain ⟨e0, hg, pA, pB, pcur, pC, pD, pE, pF, pG⟩ := matchStep_chain hms
          obtain rfl := Option.some.inj (hg0.symm.trans hg)
          obtain ⟨hnotmem, hnd'⟩ := List.nodup_cons.mp hnd
          have hch1 : isChain st1.arena st1.current_idx c' = true := by
            rw [pcur]
            exact isChain_congr (matchStep_nextEq hms) hrest
          obtain ⟨m2, rfl⟩ : ∃ m2, k2 = m2 + 1 := ⟨k2 - 1, by omega⟩
          have hk2' : m2 < c'.length := by
            have := hk2
            simp only [List.length_cons] at this
            omega
          have hgj' : c'.get ⟨m2, hk2'⟩ = j := hgj
          have hjmem : j ∈ c' := by
            rw [← hgj']
            exact List.get_mem c' m2 hk2'
          have hji : j ≠ idx := fun he => hnotmem (he ▸ hjmem)
          cases k1 with
          | zero =>
            have hi : i = idx := hgi.symm
            subst hi
            obtain rfl := Option.some.inj (hg.symm.trans hgA)
            rcases pF hA with h0 | hrem0
            · have := matchLoop_mono h i
              omega
            · have hst : st' = st1 := matchLoop_idle h hrem0
              subst hst
              simp only [entryQty, pA j hji, hgB] at hdec
              omega
          | succ m1 =>
            have hk1' : m1 < c'.length := by
              have := hk1
              simp only [List.length_cons] at this
              omega
            have hgi' : c'.get ⟨m1, hk1'⟩ = i := hgi
            have himem : i ∈ c' := by
              rw [← hgi']
              exact List.get_mem c' m1 hk1'
            have hii : i ≠ idx := fun he => hnotmem (he ▸ himem)
            refine ih h hch1 hnd' (by omega : m1 < m2) hk1' hk2' hgi' hgj' ?_ ?_ hA hB hdec
            · rw [pA i hii]; exact hgA
            · rw [pA j hji]; exact hgB
      · rw [if_neg hr] at h
        obtain rfl := Except.ok.inj h
        simp only [entryQty, hgB] at hdec
        omega

end LoopChain3

section MatchAtPriceChain

/-- A nonempty suffix ends where the whole list ends. -/
theorem suffix_getLast {c2 c : List Nat} (hs : c2.IsSuffix c) (hne : c2 ≠ []) :
    c.getLast? = c2.getLast? := by
  obtain ⟨t, rfl⟩ := hs
  induction t with
  | nil => rfl
  | cons a t iht =>
    rw [List.cons_append]
    cases htc : t ++ c2 with
    | nil =>
      obtain ⟨-, rfl⟩ := List.append_eq_nil.mp htc
      exact absurd rfl hne
    | cons x xs =>
      rw [htc] at iht
      rw [List.getLast?_cons_cons]
      exact iht

end MatchAtPriceChain

section MatchChainMain

/-- Everything one `match_at_price` call does, seen through the matched
level's chain `c`: writes confined to `c`, quantities only shrink, links
untouched, all other levels of both arrays untouched, the level's new chain
is a suffix of `c` (with the tail pointer still at the common last slot),
strict FIFO inside `c`, the whole chain zeroed when quantity remains, and
every trade sourced from a live member of `c` at the level price. -/
theorem match_chain {b : OrderBook} {oid : Nat} {trader : TraderId} {side : Side}
    {P rem : Nat} {b' : OrderBook} {tr : List Trade} {rem' : Nat}
    (h : b.match_at_price oid trader side P rem = Except.ok (b', tr, rem'))
    {c : List Nat} (hch : isChain b.arena (oppLevel b side P).first_order_idx c = true) :
    (∀ x, x ∉ c → b'.arena.get x = b.arena.get x) ∧
    (∀ x, entryQty b'.arena x ≤ entryQty b.arena x) ∧
    (∀ y, entryNext b'.arena y = entryNext b.arena y) ∧
    (∀ x e', b'.arena.get x = some e' → ∃ e, b.arena.get x = some e ∧
      e'.order_id = e.order_id ∧ e'.trader = e.trader ∧
      e'.next_idx = e.next_idx ∧ e'.quantity ≤ e.quantity) ∧
    (∀ s' q, ¬ (s' = side ∧ q = P) → oppLevel b' s' q = oppLevel b s' q) ∧
    b'.maxPrice = b.maxPrice ∧
    (∃ c2, c2.IsSuffix c ∧
      isChain b'.arena (oppLevel b' side P).first_order_idx c2 = true ∧
      ((oppLevel b side P).last_order_idx = c.getLast? →
        (oppLevel b' side P).last_order_idx = c2.getLast?)) ∧
    (c.Nodup → ∀ {k1 k2 : Nat}, k1 < k2 → ∀ (hk1 : k1 < c.length) (hk2 : k2 < c.length),
      ∀ {i j : Nat} {eA eB : OrderEntry},
      c.get ⟨k1, hk1⟩ = i → c.get ⟨k2, hk2⟩ = j →
      b.arena.get i = some eA → b.arena.get j = some eB →
      0 < eA.quantity → 0 < eB.quantity →
      entryQty b'.arena j < eB.quantity → entryQty b'.arena i = 0) ∧
    (0 < rem' → ∀ x, x ∈ c → entryQty b'.arena x = 0) ∧
    (∀ td, td ∈ tr → ∃ i e f, i ∈ c ∧ b.arena.get i = some e ∧ 0 < e.quantity ∧
      td = mkTrade side trader e.trader P f) ∧
    P < b.maxPrice ∧ rem' ≤ rem := by
  simp only [OrderBook.match_at_price] at h
  by_cases hp : P < b.maxPrice
  · rw [if_pos hp] at h
    cases side with
    | Buy =>
      cases hml : matchLoop trader Side.Buy P (b.arena.entries.length + 1)
          ⟨b.arena, b.order_index, rem, [], (b.asks P).first_order_idx, none⟩ with
      | error err => simp only [hml] at h; exact Except.noConfusion h
      | ok st =>
        simp only [hml] at h
        have hinj := Except.ok.inj h
        have hb' := congrArg Prod.fst hinj
        have htr' := congrArg (fun x => x.2.1) hinj
        have hrem' := congrArg (fun x => x.2.2) hinj
        dsimp only at hb' htr' hrem'
        subst hb' htr' hrem'
        have hch0 : isChain b.arena (b.asks P).first_order_idx c = true := hch
        refine ⟨?_, ?_, ?_, ?_, ?_, rfl, ?_, ?_, ?_, ?_, hp, ?_⟩
        · exact fun x hx => matchLoop_confine hml hch0 x hx
        · exact fun x => matchLoop_mono hml x
        · exact fun y => matchLoop_nextEq hml y
        · exact fun x e' hg' => matchLoop_slots hml x e' hg' 
        · intro s' q hq
          cases s' with
          | Buy =>
            have hqP : q ≠ P := fun he => hq ⟨rfl, he⟩
            show Function.update b.asks P _ q = b.asks q
            exact Function.update_noteq hqP _ _
          | Sell => rfl
        · -- the level's new chain
          obtain ⟨hcur, hfa⟩ := matchLoop_fainv hml ⟨c, List.suffix_rfl, hch0⟩ (Or.inl rfl)
          have hupd : ∀ pp2 : PricePoint, Function.update b.asks P pp2 P = pp2 :=
            fun pp2 => Function.update_same P pp2 b.asks
          show ∃ c2, c2.IsSuffix c ∧
            isChain st.arena (Function.update b.asks P _ P).first_order_idx c2 = true ∧
            ((b.asks P).last_order_idx = c.getLast? →
              (Function.update b.asks P _ P).last_order_idx = c2.getLast?)
          rw [hupd]
          by_cases h1 : st.first_active.isNone ∧ st.current_idx.isNone
          · rw [if_pos h1]
            exact ⟨[], List.nil_suffix, rfl, fun _ => rfl⟩
          · rw [if_neg h1]
            by_cases h2 : st.first_active.isSome = true
            · rw [if_pos h2]
              cases hfav : st.first_active with
              | none => rw [hfav] at h2; exact Bool.noConfusion h2
              | some w =>
                rcases hfa with h3 | ⟨cfa, hsufa, hchfa⟩
                · rw [hfav] at h3; exact Option.noConfusion h3
                · rw [hfav] at hchfa
                  obtain ⟨e, c2', rfl, _, _⟩ := isChain_cons hchfa
                  refine ⟨w :: c2', hsufa, hchfa, ?_⟩
                  intro hlast
                  show (b.asks P).last_order_idx = _
                  rw [hlast]
                  exact suffix_getLast hsufa
                    (by intro hcon; exact List.noConfusion hcon)
            · rw [if_neg h2]
              refine ⟨c, List.suffix_rfl, ?_, fun hlast => hlast⟩
              exact isChain_congr (fun y => matchLoop_nextEq hml y) hch0
        · intro hnd k1 k2 hk hk1 hk2 i j eA eB hgi hgj hgA hgB hA hB hdec
          exact matchLoop_fifo hml hch0 hnd hk hk1 hk2 hgi hgj hgA hgB hA hB hdec
        · exact fun hr x hx => matchLoop_zeroed hml hch0 hr x hx
        · intro td htd
          rcases matchLoop_trades hml hch0 td htd with h1 | h1
          · exact absurd h1 (List.not_mem_nil td)
          · exact h1
        · exact matchLoop_remMono hml
    | Sell =>
      cases hml : matchLoop trader Side.Sell P (b.arena.entries.length + 1)
          ⟨b.arena, b.order_index, rem, [], (b.bids P).first_order_idx, none⟩ with
      | error err => simp only [hml] at h; exact Except.noConfusion h
      | ok st =>
        simp only [hml] at h
        have hinj := Except.ok.inj h
        have hb' := congrArg Prod.fst hinj
        have htr' := congrArg (fun x => x.2.1) hinj
        have hrem' := congrArg (fun x => x.2.2) hinj
        dsimp only at hb' htr' hrem'
        subst hb' htr' hrem'
        have hch0 : isChain b.arena (b.bids P).first_order_idx c = true := hch
        refine ⟨?_, ?_, ?_, ?_, ?_, rfl, ?_, ?_, ?_, ?_, hp, ?_⟩
        · exact fun x hx => matchLoop_confine hml hch0 x hx
        · exact fun x => matchLoop_mono hml x
        · exact fun y => matchLoop_nextEq hml y
        · exact fun x e' hg' => matchLoop_slots hml x e' hg' 
        · intro s' q hq
          cases s' with
          | Sell =>
            have hqP : q ≠ P := fun he => hq ⟨rfl, he⟩
            show Function.update b.bids P _ q = b.bids q
            exact Function.update_noteq hqP _ _
          | Buy => rfl
        · obtain ⟨hcur, hfa⟩ := matchLoop_fainv hml ⟨c, List.suffix_rfl, hch0⟩ (Or.inl rfl)
          have hupd : ∀ pp2 : PricePoint, Function.update b.bids P pp2 P = pp2 :=
            fun pp2 => Function.update_same P pp2 b.bids
          show ∃ c2, c2.IsSuffix c ∧
            isChain st.arena (Function.update b.bids P _ P).first_order_idx c2 = true ∧
            ((b.bids P).last_order_idx = c.getLast? →
              (Function.update b.bids P _ P).last_order_idx = c2.getLast?)
          rw [hupd]
          by_cases h1 : st.first_active.isNone ∧ st.current_idx.isNone
          · rw [if_pos h1]
            exact ⟨[], List.nil_suffix, rfl, fun _ => rfl⟩
          · rw [if_neg h1]
            by_cases h2 : st.first_active.isSome = true
            · rw [if_pos h2]
              cases hfav : st.first_active with
              | none => rw [hfav] at h2; exact Bool.noConfusion h2
              | some w =>
                rcases hfa with h3 | ⟨cfa, hsufa, hchfa⟩
                · rw [hfav] at h3; exact Option.noConfusion h3
                · rw [hfav] at hchfa
                  obtain ⟨e, c2', rfl, _, _⟩ := isChain_cons hchfa
                  refine ⟨w :: c2', hsufa, hchfa, ?_⟩
                  intro hlast
                  show (b.bids P).last_order_idx = _
                  rw [hlast]
                  exact suffix_getLast hsufa
                    (by intro hcon; exact List.noConfusion hcon)
            · rw [if_neg h2]
              refine ⟨c, List.suffix_rfl, ?_, fun hlast => hlast⟩
              exact isChain_congr (fun y => matchLoop_nextEq hml y) hch0
        · intro hnd k1 k2 hk hk1 hk2 i j eA eB hgi hgj hgA hgB hA hB hdec
          exact matchLoop_fifo hml hch0 hnd hk hk1 hk2 hgi hgj hgA hgB hA hB hdec
        · exact fun hr x hx => matchLoop_zeroed hml hch0 hr x hx
        · intro td htd
          rcases matchLoop_trades hml hch0 td htd with h1 | h1
          · exact absurd h1 (List.not_mem_nil td)
          · exact h1
        · exact matchLoop_remMono hml
  · rw [if_neg hp] at h
    exact Except.noConfusion h

end MatchChainMain

section MatchGuard

/-- A completed `match_at_price` call was in range. -/
theorem match_guard {b : OrderBook} {oid : Nat} {trader : TraderId} {side : Side}
    {P rem : Nat} {b' : OrderBook} {tr : List Trade} {rem' : Nat}
    (h : b.match_at_price oid trader side P rem = Except.ok (b', tr, rem')) :
    P < b.maxPrice := by
  by_contra hnp
  simp only [OrderBook.match_at_price] at h
  rw [if_neg hnp] at h
  exact Except.noConfusion h

end MatchGuard

section ChainsWFPreserve

/-- In a chain-well-formed book every level chain is duplicate-free. -/
theorem chain_nodup {b : OrderBook} (hcw : ChainsWF b) {s : Side} {P : Nat}
    (hP : P < b.maxPrice) {c : List Nat}
    (hch : isChain b.arena (oppLevel b s P).first_order_idx c = true) : c.Nodup := by
  obtain ⟨c0, hc0, hnd0⟩ := hcw.chains s P hP
  rw [isChain_fun hch hc0]
  exact hnd0

/-- `match_at_price` preserves chain well-formedness. -/
theorem cwf_match {b : OrderBook} {oid : Nat} {trader : TraderId} {side : Side}
    {P rem : Nat} {b' : OrderBook} {tr : List Trade} {rem' : Nat}
    (h : b.match_at_price oid trader side P rem = Except.ok (b', tr, rem'))
    (hcw : ChainsWF b) : ChainsWF b' := by
  have hp : P < b.maxPrice := by
    obtain ⟨c, hc, -⟩ := hcw.chains side P (by
      by_contra hnp
      simp only [OrderBook.match_at_price] at h
      rw [if_neg hnp] at h
      exact Except.noConfusion h)
    exact (match_chain h hc).2.2.2.2.2.2.2.2.2.2.1
  obtain ⟨c, hc, hnd⟩ := hcw.chains side P hp
  obtain ⟨mA, mB, mC, mS, mD, mE, ⟨c2, hsuf, hc2, hlast2⟩, mF, mG, mH, mI, mJ⟩ :=
    match_chain h hc
  have hmp' : b'.maxPrice = b.maxPrice := mE
  -- the canonical chain of every level of b', as a function of its b-chain
  have hoth : ∀ s' q (c' : List Nat), ¬ (s' = side ∧ q = P) →
      isChain b.arena (oppLevel b s' q).first_order_idx c' = true →
      isChain b'.arena (oppLevel b' s' q).first_order_idx c' = true := by
    intro s' q c' hne hc'
    rw [mD s' q hne]
    exact isChain_congr mC hc'
  refine ⟨?_, ?_, ?_⟩
  · intro s' q hq
    rw [hmp'] at hq
    by_cases hsq : s' = side ∧ q = P
    · obtain ⟨rfl, rfl⟩ := hsq
      exact ⟨c2, hc2, hnd.sublist hsuf.sublist⟩
    · obtain ⟨c', hc', hnd'⟩ := hcw.chains s' q hq
      exact ⟨c', hoth s' q c' hsq hc', hnd'⟩
  · intro s1 P1 s2 P2 cX cY hP1 hP2 hne hcX hcY x hxX
    rw [hmp'] at hP1 hP2
    by_cases h1 : s1 = side ∧ P1 = P
    · obtain ⟨rfl, rfl⟩ := h1
      have hX2 : cX = c2 := isChain_fun hcX hc2
      subst hX2
      have hxc : x ∈ c := hsuf.subset hxX
      by_cases h2 : s2 = s1 ∧ P2 = P1
      · exact absurd ⟨h2.1.symm, h2.2.symm⟩ hne
      · obtain ⟨cY0, hcY0, -⟩ := hcw.chains s2 P2 hP2
        have hYeq : cY = cY0 := isChain_fun hcY (hoth s2 P2 cY0 h2 hcY0)
        subst hYeq
        exact hcw.disj s1 P1 s2 P2 c cY hp hP2 hne hc hcY0 x hxc
    · obtain ⟨cX0, hcX0, -⟩ := hcw.chains s1 P1 hP1
      have hXeq : cX = cX0 := isChain_fun hcX (hoth s1 P1 cX0 h1 hcX0)
      subst hXeq
      by_cases h2 : s2 = side ∧ P2 = P
      · obtain ⟨rfl, rfl⟩ := h2
        have hY2 : cY = c2 := isChain_fun hcY hc2
        subst hY2
        intro hxY
        have hxc : x ∈ c := hsuf.subset hxY
        exact hcw.disj s2 P2 s1 P1 c cX hp hP1
          (fun hcon => hne ⟨hcon.1.symm, hcon.2.symm⟩) hc hcX0 x hxc hxX
      · obtain ⟨cY0, hcY0, -⟩ := hcw.chains s2 P2 hP2
        have hYeq : cY = cY0 := isChain_fun hcY (hoth s2 P2 cY0 h2 hcY0)
        subst hYeq
        exact hcw.disj s1 P1 s2 P2 cX cY hP1 hP2 hne hcX0 hcY0 x hxX
  · intro s' q c' hq hc'
    rw [hmp'] at hq
    by_cases hsq : s' = side ∧ q = P
    · obtain ⟨rfl, rfl⟩ := hsq
      have hceq : c' = c2 := isChain_fun hc' hc2
      subst hceq
      exact hlast2 (hcw.tails s' q c hp hc)
    · obtain ⟨c0, hc0, -⟩ := hcw.chains s' q hq
      have hceq : c' = c0 := isChain_fun hc' (hoth s' q c0 hsq hc0)
      subst hceq
      rw [mD s' q hsq]
      exact hcw.tails s' q c' hq hc0

/-- Chain well-formedness only depends on the level arrays, the link layout
of the arena and the price range. -/
theorem cwf_congr {b b' : OrderBook}
    (harena : ∀ y, entryNext b'.arena y = entryNext b.arena y)
    (hbids : b'.bids = b.bids) (hasks : b'.asks = b.asks)
    (hmp : b'.maxPrice = b.maxPrice) (hcw : ChainsWF b) : ChainsWF b' := by
  have hopp : ∀ s P, oppLevel b' s P = oppLevel b s P := by
    intro s P
    cases s
    · rw [oppLevel, oppLevel, hasks]
    · rw [oppLevel, oppLevel, hbids]
  refine ⟨?_, ?_, ?_⟩
  · intro s P hP
    rw [hmp] at hP
    obtain ⟨c, hc, hnd⟩ := hcw.chains s P hP
    refine ⟨c, ?_, hnd⟩
    rw [hopp]
    exact isChain_congr harena hc
  · intro s1 P1 s2 P2 cX cY hP1 hP2 hne hcX hcY x hxX
    rw [hmp] at hP1 hP2
    rw [hopp] at hcX hcY
    obtain ⟨cX0, hcX0, -⟩ := hcw.chains s1 P1 hP1
    obtain ⟨cY0, hcY0, -⟩ := hcw.chains s2 P2 hP2
    have hX : cX = cX0 := isChain_fun hcX (isChain_congr harena hcX0)
    have hY : cY = cY0 := isChain_fun hcY (isChain_congr harena hcY0)
    subst hX hY
    exact hcw.disj s1 P1 s2 P2 cX cY hP1 hP2 hne hcX0 hcY0 x hxX
  · intro s P c hP hc
    rw [hmp] at hP
    rw [hopp] at hc
    obtain ⟨c0, hc0, -⟩ := hcw.chains s P hP
    have hceq : c = c0 := isChain_fun hc (isChain_congr harena hc0)
    subst hceq
    rw [hopp]
    exact hcw.tails s P c hP hc0

/-- `cancel_order` preserves chain well-formedness: the single write keeps
the slot's link. -/
theorem cwf_cancel (b : OrderBook) (X : Nat) (hcw : ChainsWF b) :
    ChainsWF (b.cancel_order X).1 := by
  cases hix : b.order_index X with
  | none =>
    have heq : (b.cancel_order X).1 = b := by
      simp only [OrderBook.cancel_order, hix]
    rw [heq]
    exact hcw
  | some idx =>
    cases hg : b.arena.get idx with
    | none =>
      have heq : (b.cancel_order X).1 = b := by
        simp only [OrderBook.cancel_order, hix, hg]
      rw [heq]
      exact hcw
    | some e =>
      have heq : (b.cancel_order X).1 =
          { b with arena := b.arena.setEntry idx e.cancel,
                   order_index := Function.update b.order_index X none } := by
        simp only [OrderBook.cancel_order, hix, hg]
      rw [heq]
      have hnx : ∀ y,
          entryNext (b.arena.setEntry idx e.cancel) y = entryNext b.arena y := by
        intro y
        by_cases hy : y = idx
        · subst hy
          rw [entryNext, entryNext, OrderArena.get_setEntry_self hg, hg]
          rfl
        · rw [entryNext, entryNext, OrderArena.get_setEntry_ne (fun hc => hy hc.symm)]
      exact cwf_congr hnx rfl rfl rfl hcw

end ChainsWFPreserve

section ChainsWFAdd

/-- A chain headed by a live slot is nonempty, i.e. an empty chain has no
head. -/
theorem isChain_nil_head {ar : OrderArena} {h0 : Option Nat}
    (h : isChain ar h0 [] = true) : h0 = none := by
  cases h0 with
  | none => rfl
  | some i => rw [isChain] at h; exact Bool.noConfusion h

/-- Linking a fresh slot behind the chain's tail extends the chain by one. -/
theorem isChain_append {ar ar1 ar2 : OrderArena} {en le : OrderEntry}
    (h1 : ar1.entries = ar.entries ++ [en]) (hnen : en.next_idx = none)
    {t : Nat} (hle : ar1.get t = some le)
    (h2 : ar2 = ar1.setEntry t { le with next_idx := some ar.entries.length }) :
    ∀ {c : List Nat} {h0 : Option Nat}, isChain ar h0 c = true → c.Nodup →
      c.getLast? = some t →
      isChain ar2 h0 (c ++ [ar.entries.length]) = true := by
  intro c
  induction c with
  | nil => intro h0 _ _ hlast; exact Option.noConfusion hlast
  | cons x c ih =>
    intro h0 hch hnd hlast
    cases h0 with
    | none => rw [isChain] at hch; exact Bool.noConfusion hch
    | some i =>
      obtain ⟨e, d, heq, hg, hrest⟩ := isChain_cons hch
      injection heq with hx hd
      subst hx hd
      have hxlt : x < ar.entries.length := OrderArena.lt_length_of_get hg
      cases c with
      | nil =>
        -- x is the tail: getLast? [x] = some x = some t
        have hxt : x = t := by
          rw [List.getLast?_singleton] at hlast
          exact Option.some.inj hlast
        subst hxt
        have hnone : e.next_idx = none := isChain_nil_head hrest
        have hget1 : ar1.get x = some e := by
          rw [get_append_lt h1 hxlt]
          exact hg
        have hel : e = le := Option.some.inj (hget1.symm.trans hle)
        subst hel
        rw [List.cons_append, List.nil_append]
        refine isChain_cons_intro (e := { e with next_idx := some ar.entries.length }) ?_ ?_
        · rw [h2]
          exact OrderArena.get_setEntry_self hget1
        · show isChain ar2 (some ar.entries.length) [ar.entries.length] = true
          have hgetn : ar2.get ar.entries.length = some en := by
            rw [h2, OrderArena.get_setEntry_ne (by omega)]
            exact get_append_len h1
          refine isChain_cons_intro hgetn ?_
          rw [hnen]
          rfl
      | cons y d =>
        have hlast' : (y :: d).getLast? = some t := by
          rw [← hlast, List.getLast?_cons_cons]
        have htmem : t ∈ y :: d := List.mem_of_getLast?_eq_some hlast' 
        have hxt : x ≠ t := by
          intro he
          subst he
          exact (List.nodup_cons.mp hnd).1 htmem
        rw [List.cons_append]
        refine isChain_cons_intro (e := e) ?_ ?_
        · rw [h2, OrderArena.get_setEntry_ne (fun hc => hxt hc.symm)]
          rw [get_append_lt h1 hxlt]
          exact hg
        · exact ih hrest (List.nodup_cons.mp hnd).2 hlast'

end ChainsWFAdd

section CwfSetLevel

/-- Replacing the chain of one level while leaving every other level and its
chain intact preserves chain well-formedness, provided the new chain is
duplicate-free, its tail pointer is right, and each of its slots either came
from the old chain of that level or sits in no chain of the old book. -/
theorem cwf_set_level {b b2 : OrderBook} (hcw : ChainsWF b)
    {s0 : Side} {p : Nat} (hp : p < b.maxPrice)
    {c : List Nat} (hc : isChain b.arena (oppLevel b s0 p).first_order_idx c = true)
    {cNew : List Nat}
    (hual : ∀ s' q, ¬ (s' = s0 ∧ q = p) → oppLevel b2 s' q = oppLevel b s' q)
    (hmp : b2.maxPrice = b.maxPrice)
    (hchNew : isChain b2.arena (oppLevel b2 s0 p).first_order_idx cNew = true)
    (hndNew : cNew.Nodup)
    (hlastNew : (oppLevel b2 s0 p).last_order_idx = cNew.getLast?)
    (hmem : ∀ x, x ∈ cNew → x ∈ c ∨
      ∀ c' s' q, q < b.maxPrice →
        isChain b.arena (oppLevel b s' q).first_order_idx c' = true → x ∉ c')
    (hframe : ∀ s' q c', ¬ (s' = s0 ∧ q = p) → q < b.maxPrice →
      isChain b.arena (oppLevel b s' q).first_order_idx c' = true →
      isChain b2.arena (oppLevel b2 s' q).first_order_idx c' = true) :
    ChainsWF b2 := by
  refine ⟨?_, ?_, ?_⟩
  · intro s' q hq
    rw [hmp] at hq
    by_cases hsq : s' = s0 ∧ q = p
    · obtain ⟨rfl, rfl⟩ := hsq
      exact ⟨cNew, hchNew, hndNew⟩
    · obtain ⟨c', hc', hnd'⟩ := hcw.chains s' q hq
      exact ⟨c', hframe s' q c' hsq hq hc', hnd'⟩
  · intro s1 P1 s2 P2 cX cY hP1 hP2 hne hcX hcY x hxX
    rw [hmp] at hP1 hP2
    by_cases h1 : s1 = s0 ∧ P1 = p
    · obtain ⟨rfl, rfl⟩ := h1
      have hX : cX = cNew := isChain_fun hcX hchNew
      subst hX
      by_cases h2 : s2 = s1 ∧ P2 = P1
      · exact absurd ⟨h2.1.symm, h2.2.symm⟩ hne
      · obtain ⟨cY0, hcY0, -⟩ := hcw.chains s2 P2 hP2
        have hY : cY = cY0 := isChain_fun hcY (hframe s2 P2 cY0 h2 hP2 hcY0)
        subst hY
        rcases hmem x hxX with hxc | hfresh
        · exact hcw.disj s1 P1 s2 P2 c cY hP1 hP2 hne hc hcY0 x hxc
        · exact hfresh cY s2 P2 hP2 hcY0
    · obtain ⟨cX0, hcX0, -⟩ := hcw.chains s1 P1 hP1
      have hX : cX = cX0 := isChain_fun hcX (hframe s1 P1 cX0 h1 hP1 hcX0)
      subst hX
      by_cases h2 : s2 = s0 ∧ P2 = p
      · obtain ⟨rfl, rfl⟩ := h2
        have hY : cY = cNew := isChain_fun hcY hchNew
        subst hY
        intro hxY
        rcases hmem x hxY with hxc | hfresh
        · exact hcw.disj s2 P2 s1 P1 c cX hP2 hP1
            (fun hcon => hne ⟨hcon.1.symm, hcon.2.symm⟩) hc hcX0 x hxc hxX
        · exact hfresh cX s1 P1 hP1 hcX0 hxX
      · obtain ⟨cY0, hcY0, -⟩ := hcw.chains s2 P2 hP2
        have hY : cY = cY0 := isChain_fun hcY (hframe s2 P2 cY0 h2 hP2 hcY0)
        subst hY
        exact hcw.disj s1 P1 s2 P2 cX cY hP1 hP2 hne hcX0 hcY0 x hxX
  · intro s' q c' hq hc'
    rw [hmp] at hq
    by_cases hsq : s' = s0 ∧ q = p
    · obtain ⟨rfl, rfl⟩ := hsq
      have hceq : c' = cNew := isChain_fun hc' hchNew
      subst hceq
      exact hlastNew
    · obtain ⟨c0, hc0, -⟩ := hcw.chains s' q hq
      have hceq : c' = c0 := isChain_fun hc' (hframe s' q c0 hsq hq hc0)
      subst hceq
      rw [hual s' q hsq]
      exact hcw.tails s' q c' hq hc0

end CwfSetLevel

section CwfAdd

/-- `add_order` preserves chain well-formedness: the fresh slot is linked
behind the tail of its own level's chain and appears in no other chain. -/
theorem cwf_add {b : OrderBook} {oid : Nat} {trader : TraderId} {side : Side}
    {p qty : Nat} {b2 : OrderBook}
    (h : b.add_order oid trader side p qty = Except.ok b2)
    (hcw : ChainsWF b) : ChainsWF b2 := by
  have hmemlt : ∀ (c' : List Nat) (h0 : Option Nat), isChain b.arena h0 c' = true →
      ∀ x, x ∈ c' → x < b.arena.entries.length := by
    intro c' h0 hch x hx
    obtain ⟨e, hge⟩ := isChain_mem_get hch hx
    exact OrderArena.lt_length_of_get hge
  simp only [OrderBook.add_order] at h
  cases hal : b.arena.allocate (OrderEntry.new oid trader qty) with
  | none => simp only [hal] at h; exact Except.noConfusion h
  | some pr =>
    obtain ⟨arena1, idx⟩ := pr
    simp only [hal] at h
    obtain ⟨h1e, hidx⟩ : arena1.entries =
        b.arena.entries ++ [OrderEntry.new oid trader qty] ∧
        idx = b.arena.entries.length := by
      rw [OrderArena.allocate] at hal
      by_cases hcap : b.arena.capacity ≤ b.arena.entries.length
      · rw [if_pos hcap] at hal; exact Option.noConfusion hal
      · rw [if_neg hcap] at hal
        have hpr := Option.some.inj hal
        injection hpr with hp1 hp2
        exact ⟨by rw [← hp1], hp2.symm⟩
    subst hidx
    by_cases hp : p < b.maxPrice
    · rw [if_pos hp] at h
      cases side with
      | Buy =>
        obtain ⟨c, hc, hnd⟩ := hcw.chains Side.Sell p hp
        have hlast := hcw.tails Side.Sell p c hp hc
        cases hpl : (b.bids p).last_order_idx with
        | some last_idx =>
          simp only [hpl] at h
          cases hgl : arena1.get last_idx with
          | none => simp only [hgl] at h; exact Except.noConfusion h
          | some le =>
            simp only [hgl] at h
            obtain rfl := (Except.ok.inj h).symm
            have hcl : c.getLast? = some last_idx := hlast.symm.trans hpl
            have hlmem : last_idx ∈ c := List.mem_of_getLast?_eq_some hcl
            have hchNew : isChain (arena1.setEntry last_idx
                { le with next_idx := some b.arena.entries.length })
                (b.bids p).first_order_idx (c ++ [b.arena.entries.length]) = true :=
              isChain_append h1e rfl hgl rfl hc hnd hcl
            have hppb : (b.bids p).push_back b.arena.entries.length =
                { first_order_idx := (b.bids p).first_order_idx,
                  last_order_idx := some b.arena.entries.length } := by
              rw [PricePoint.push_back, hpl]
            have hchNew2 : isChain (arena1.setEntry last_idx
                { le with next_idx := some b.arena.entries.length })
                ((Function.update b.bids p
                  ((b.bids p).push_back b.arena.entries.length)) p).first_order_idx
                (c ++ [b.arena.entries.length]) = true := by
              rw [Function.update_same, hppb]
              exact hchNew
            refine cwf_set_level hcw hp hc ?_ rfl hchNew2 ?_ ?_ ?_ ?_
            · intro s' q hne
              cases s' with
              | Buy => rfl
              | Sell =>
                have hqp : q ≠ p := fun he => hne ⟨rfl, he⟩
                show Function.update b.bids p _ q = b.bids q
                exact Function.update_noteq hqp _ _
            · refine List.Nodup.append hnd (List.nodup_singleton _) ?_
              intro x hx hx2
              have := hmemlt c _ hc x hx
              rw [List.mem_singleton.mp hx2] at this
              omega
            · show (Function.update b.bids p _ p).last_order_idx = _
              rw [Function.update_same, hppb]
              exact (List.getLast?_concat _).symm
            · intro x hx
              rcases List.mem_append.mp hx with hx1 | hx1
              · exact Or.inl hx1
              · refine Or.inr ?_
                intro c' s' q hq hc' hxc'
                have := hmemlt c' _ hc' x hxc'
                rw [List.mem_singleton.mp hx1] at this
                omega
            · intro s' q c' hne hq hc'
              have hxframe : ∀ x, x ∈ c' →
                  (arena1.setEntry last_idx
                    { le with next_idx := some b.arena.entries.length }).get x =
                  b.arena.get x := by
                intro x hx
                have hxnin : x ∉ c :=
                  hcw.disj s' q Side.Sell p c' c hq hp hne hc' hc x hx
                have hxl : x ≠ last_idx := fun he => hxnin (he ▸ hlmem)
                rw [OrderArena.get_setEntry_ne (fun hcon => hxl hcon.symm)]
                exact get_append_lt h1e (hmemlt c' _ hc' x hx)
              cases s' with
              | Buy => exact isChain_frame hxframe hc'
              | Sell =>
                have hqp : q ≠ p := fun he => hne ⟨rfl, he⟩
                show isChain _ (Function.update b.bids p _ q).first_order_idx c' = true
                rw [Function.update_noteq hqp]
                exact isChain_frame hxframe hc'
        | none =>
          simp only [hpl] at h
          obtain rfl := (Except.ok.inj h).symm
          have hcnil : c = [] := List.getLast?_eq_none_iff.mp (hlast.symm.trans hpl)
          subst hcnil
          have hppb : (b.bids p).push_back b.arena.entries.length =
              { first_order_idx := some b.arena.entries.length,
                last_order_idx := some b.arena.entries.length } := by
            rw [PricePoint.push_back, hpl]
          have hchNew : isChain arena1 (some b.arena.entries.length)
              [b.arena.entries.length] = true := by
            refine isChain_cons_intro (get_append_len h1e) ?_
            rfl
          have hchNew2 : isChain arena1
              ((Function.update b.bids p
                ((b.bids p).push_back b.arena.entries.length)) p).first_order_idx
              [b.arena.entries.length] = true := by
            rw [Function.update_same, hppb]
            exact hchNew
          refine cwf_set_level hcw hp hc ?_ rfl hchNew2 ?_ ?_ ?_ ?_
          · intro s' q hne
            cases s' with
            | Buy => rfl
            | Sell =>
              have hqp : q ≠ p := fun he => hne ⟨rfl, he⟩
              show Function.update b.bids p _ q = b.bids q
              exact Function.update_noteq hqp _ _
          · exact List.nodup_singleton _
          · show (Function.update b.bids p _ p).last_order_idx = _
            rw [Function.update_same, hppb]
            rfl
          · intro x hx
            refine Or.inr ?_
            intro c' s' q hq hc' hxc'
            have := hmemlt c' _ hc' x hxc'
            rw [List.mem_singleton.mp hx] at this
            omega
          · intro s' q c' hne hq hc'
            have hxframe : ∀ x, x ∈ c' → arena1.get x = b.arena.get x := by
              intro x hx
              exact get_append_lt h1e (hmemlt c' _ hc' x hx)
            cases s' with
            | Buy => exact isChain_frame hxframe hc'
            | Sell =>
              have hqp : q ≠ p := fun he => hne ⟨rfl, he⟩
              show isChain _ (Function.update b.bids p _ q).first_order_idx c' = true
              rw [Function.update_noteq hqp]
              exact isChain_frame hxframe hc'
      | Sell =>
        obtain ⟨c, hc, hnd⟩ := hcw.chains Side.Buy p hp
        have hlast := hcw.tails Side.Buy p c hp hc
        cases hpl : (b.asks p).last_order_idx with
        | some last_idx =>
          simp only [hpl] at h
          cases hgl : arena1.get last_idx with
          | none => simp only [hgl] at h; exact Except.noConfusion h
          | some le =>
            simp only [hgl] at h
            obtain rfl := (Except.ok.inj h).symm
            have hcl : c.getLast? = some last_idx := hlast.symm.trans hpl
            have hlmem : last_idx ∈ c := List.mem_of_getLast?_eq_some hcl
            have hchNew : isChain (arena1.setEntry last_idx
                { le with next_idx := some b.arena.entries.length })
                (b.asks p).first_order_idx (c ++ [b.arena.entries.length]) = true :=
              isChain_append h1e rfl hgl rfl hc hnd hcl
            have hppb : (b.asks p).push_back b.arena.entries.length =
                { first_order_idx := (b.asks p).first_order_idx,
                  last_order_idx := some b.arena.entries.length } := by
              rw [PricePoint.push_back, hpl]
            have hchNew2 : isChain (arena1.setEntry last_idx
                { le with next_idx := some b.arena.entries.length })
                ((Function.update b.asks p
                  ((b.asks p).push_back b.arena.entries.length)) p).first_order_idx
                (c ++ [b.arena.entries.length]) = true := by
              rw [Function.update_same, hppb]
              exact hchNew
            refine cwf_set_level hcw hp hc ?_ rfl hchNew2 ?_ ?_ ?_ ?_
            · intro s' q hne
              cases s' with
              | Sell => rfl
              | Buy =>
                have hqp : q ≠ p := fun he => hne ⟨rfl, he⟩
                show Function.update b.asks p _ q = b.asks q
                exact Function.update_noteq hqp _ _
            · refine List.Nodup.append hnd (List.nodup_singleton _) ?_
              intro x hx hx2
              have := hmemlt c _ hc x hx
              rw [List.mem_singleton.mp hx2] at this
              omega
            · show (Function.update b.asks p _ p).last_order_idx = _
              rw [Function.update_same, hppb]
              exact (List.getLast?_concat _).symm
            · intro x hx
              rcases List.mem_append.mp hx with hx1 | hx1
              · exact Or.inl hx1
              · refine Or.inr ?_
                intro c' s' q hq hc' hxc'
                have := hmemlt c' _ hc' x hxc'
                rw [List.mem_singleton.mp hx1] at this
                omega
            · intro s' q c' hne hq hc'
              have hxframe : ∀ x, x ∈ c' →
                  (arena1.setEntry last_idx
                    { le with next_idx := some b.arena.entries.length }).get x =
                  b.arena.get x := by
                intro x hx
                have hxnin : x ∉ c :=
                  hcw.disj s' q Side.Buy p c' c hq hp hne hc' hc x hx
                have hxl : x ≠ last_idx := fun he => hxnin (he ▸ hlmem)
                rw [OrderArena.get_setEntry_ne (fun hcon => hxl hcon.symm)]
                exact get_append_lt h1e (hmemlt c' _ hc' x hx)
              cases s' with
              | Sell => exact isChain_frame hxframe hc'
              | Buy =>
                have hqp : q ≠ p := fun he => hne ⟨rfl, he⟩
                show isChain _ (Function.update b.asks p _ q).first_order_idx c' = true
                rw [Function.update_noteq hqp]
                exact isChain_frame hxframe hc'
        | none =>
          simp only [hpl] at h
          obtain rfl := (Except.ok.inj h).symm
          have hcnil : c = [] := List.getLast?_eq_none_iff.mp (hlast.symm.trans hpl)
          subst hcnil
          have hppb : (b.asks p).push_back b.arena.entries.length =
              { first_order_idx := some b.arena.entries.length,
                last_order_idx := some b.arena.entries.length } := by
            rw [PricePoint.push_back, hpl]
          have hchNew : isChain arena1 (some b.arena.entries.length)
              [b.arena.entries.length] = true := by
            refine isChain_cons_intro (get_append_len h1e) ?_
            rfl
          have hchNew2 : isChain arena1
              ((Function.update b.asks p
                ((b.asks p).push_back b.arena.entries.length)) p).first_order_idx
              [b.arena.entries.length] = true := by
            rw [Function.update_same, hppb]
            exact hchNew
          refine cwf_set_level hcw hp hc ?_ rfl hchNew2 ?_ ?_ ?_ ?_
          · intro s' q hne
            cases s' with
            | Sell => rfl
            | Buy =>
              have hqp : q ≠ p := fun he => hne ⟨rfl, he⟩
              show Function.update b.asks p _ q = b.asks q
              exact Function.update_noteq hqp _ _
          · exact List.nodup_singleton _
          · show (Function.update b.asks p _ p).last_order_idx = _
            rw [Function.update_same, hppb]
            rfl
          · intro x hx
            refine Or.inr ?_
            intro c' s' q hq hc' hxc'
            have := hmemlt c' _ hc' x hxc'
            rw [List.mem_singleton.mp hx] at this
            omega
          · intro s' q c' hne hq hc'
            have hxframe : ∀ x, x ∈ c' → arena1.get x = b.arena.get x := by
              intro x hx
              exact get_append_lt h1e (hmemlt c' _ hc' x hx)
            cases s' with
            | Sell => exact isChain_frame hxframe hc'
            | Buy =>
              have hqp : q ≠ p := fun he => hne ⟨rfl, he⟩
              show isChain _ (Function.update b.asks p _ q).first_order_idx c' = true
              rw [Function.update_noteq hqp]
              exact isChain_frame hxframe hc'
    · rw [if_neg hp] at h
      exact Except.noConfusion h

end CwfAdd

section CwfLimit

/-- The buy-side sweep preserves chain well-formedness. -/
theorem cwf_buyLoop {trader : TraderId} {oid price : Nat} :
    ∀ {fuel : Nat} {bk : OrderBook} {a rem : Nat} {tr : List Trade}
      {b1 : OrderBook} {rem1 : Nat} {tr1 : List Trade},
      OrderBook.buyLoop trader oid price fuel bk a rem tr = Except.ok (b1, rem1, tr1) →
      ChainsWF bk → ChainsWF b1 := by
  intro fuel
  induction fuel with
  | zero =>
    intro bk a rem tr b1 rem1 tr1 h hcw
    rw [OrderBook.buyLoop] at h
    by_cases hc : 0 < rem ∧ a ≤ price
    · rw [if_pos hc] at h; exact Except.noConfusion h
    · rw [if_neg hc] at h
      obtain rfl := congrArg Prod.fst (Except.ok.inj h)
      exact hcw
  | succ fuel ih =>
    intro bk a rem tr b1 rem1 tr1 h hcw
    rw [OrderBook.buyLoop] at h
    by_cases hc : 0 < rem ∧ a ≤ price
    · rw [if_pos hc] at h
      cases hmp : bk.match_at_price oid trader Side.Buy a rem with
      | error err => simp only [hmp] at h; exact Except.noConfusion h
      | ok res =>
        obtain ⟨bm, fills, remm⟩ := res
        simp only [hmp] at h
        by_cases h32 : price + 1 < U32
        · rw [if_pos h32] at h
          exact ih h (cwf_match hmp hcw)
        · rw [if_neg h32] at h
          exact Except.noConfusion h
    · rw [if_neg hc] at h
      obtain rfl := congrArg Prod.fst (Except.ok.inj h)
      exact hcw

/-- The sell-side sweep preserves chain well-formedness. -/
theorem cwf_sellLoop {trader : TraderId} {oid price : Nat} :
    ∀ {fuel : Nat} {bk : OrderBook} {a rem : Nat} {tr : List Trade}
      {b1 : OrderBook} {rem1 : Nat} {tr1 : List Trade},
      OrderBook.sellLoop trader oid price fuel bk a rem tr = Except.ok (b1, rem1, tr1) →
      ChainsWF bk → ChainsWF b1 := by
  intro fuel
  induction fuel with
  | zero =>
    intro bk a rem tr b1 rem1 tr1 h hcw
    rw [OrderBook.sellLoop] at h
    by_cases hc : 0 < rem ∧ price ≤ a
    · rw [if_pos hc] at h; exact Except.noConfusion h
    · rw [if_neg hc] at h
      obtain rfl := congrArg Prod.fst (Except.ok.inj h)
      exact hcw
  | succ fuel ih =>
    intro bk a rem tr b1 rem1 tr1 h hcw
    rw [OrderBook.sellLoop] at h
    by_cases hc : 0 < rem ∧ price ≤ a
    · rw [if_pos hc] at h
      cases hmp : bk.match_at_price oid trader Side.Sell a rem with
      | error err => simp only [hmp] at h; exact Except.noConfusion h
      | ok res =>
        obtain ⟨bm, fills, remm⟩ := res
        simp only [hmp] at h
        exact ih h (cwf_match hmp hcw)
    · rw [if_neg hc] at h
      obtain rfl := congrArg Prod.fst (Except.ok.inj h)
      exact hcw

/-- `limit_order` preserves chain well-formedness. -/
theorem cwf_limit {b : OrderBook} {t : TraderId} {s : Side} {p q : Nat}
    {b' : OrderBook} {oid : Nat} {tr : List Trade}
    (h : b.limit_order t s p q = Except.ok (b', oid, tr))
    (hcw : ChainsWF b) : ChainsWF b' := by
  rw [OrderBook.limit_order] at h
  by_cases hU : b.next_order_id + 1 ≤ U64 - 1
  · rw [if_pos hU] at h
    have hcw0 : ChainsWF ({ b with next_order_id := b.next_order_id + 1 } : OrderBook) :=
      cwf_congr (b := b) (fun y => rfl) rfl rfl rfl hcw
    cases s with
    | Buy =>
      cases hph : OrderBook.buyPhase { b with next_order_id := b.next_order_id + 1 }
          t b.next_order_id p q with
      | error err => simp only [hph] at h; exact Except.noConfusion h
      | ok res =>
        obtain ⟨b1, remaining, trades⟩ := res
        simp only [hph] at h
        have hcw1 : ChainsWF b1 := by
          rw [OrderBook.buyPhase] at hph
          dsimp only at hph
          cases ham : b.ask_min with
          | none =>
            rw [ham] at hph
            obtain rfl := congrArg Prod.fst (Except.ok.inj hph)
            exact cwf_congr (b := b) (fun y => rfl) rfl rfl rfl hcw
          | some a0 =>
            rw [ham] at hph
            cases hbl : OrderBook.buyLoop t b.next_order_id p (b.maxPrice + 2)
                { b with ask_min := some a0, next_order_id := b.next_order_id + 1 }
                a0 q [] with
            | error err => simp only [hbl] at hph; exact Except.noConfusion hph
            | ok res2 =>
              obtain ⟨bl, reml, trl⟩ := res2
              simp only [hbl] at hph
              have hcwl : ChainsWF bl :=
                cwf_buyLoop hbl (cwf_congr (b := b) (fun y => rfl) rfl rfl rfl hcw)
              obtain rfl := congrArg Prod.fst (Except.ok.inj hph)
              exact cwf_congr (b := bl) (fun y => rfl) rfl rfl rfl hcwl
        rw [OrderBook.finishBuy] at h
        by_cases hrem : 0 < remaining
        · rw [if_pos hrem] at h
          cases hao : b1.add_order b.next_order_id t Side.Buy p remaining with
          | error err => simp only [hao] at h; exact Except.noConfusion h
          | ok b2 =>
            simp only [hao] at h
            have hcw2 : ChainsWF b2 := cwf_add hao hcw1
            obtain rfl := congrArg Prod.fst (Except.ok.inj h)
            by_cases hbm : (match b2.bid_max with
              | none => true
              | some m => decide (m < p)) = true
            · rw [if_pos hbm]
              exact cwf_congr (b := b2) (fun y => rfl) rfl rfl rfl hcw2
            · rw [if_neg hbm]
              exact cwf_congr (b := b2) (fun y => rfl) rfl rfl rfl hcw2
        · rw [if_neg hrem] at h
          obtain rfl := congrArg Prod.fst (Except.ok.inj h)
          exact cwf_congr (b := b1) (fun y => rfl) rfl rfl rfl hcw1
    | Sell =>
      cases hph : OrderBook.sellPhase { b with next_order_id := b.next_order_id + 1 }
          t b.next_order_id p q with
      | error err => simp only [hph] at h; exact Except.noConfusion h
      | ok res =>
        obtain ⟨b1, remaining, trades⟩ := res
        simp only [hph] at h
        have hcw1 : ChainsWF b1 := by
          rw [OrderBook.sellPhase] at hph
          dsimp only at hph
          cases ham : b.bid_max with
          | none =>
            rw [ham] at hph
            obtain rfl := congrArg Prod.fst (Except.ok.inj hph)
            exact cwf_congr (b := b) (fun y => rfl) rfl rfl rfl hcw
          | some a0 =>
            rw [ham] at hph
            cases hbl : OrderBook.sellLoop t b.next_order_id p (b.maxPrice + 2)
                { b with bid_max := some a0, next_order_id := b.next_order_id + 1 }
                a0 q [] with
            | error err => simp only [hbl] at hph; exact Except.noConfusion hph
            | ok res2 =>
              obtain ⟨bl, reml, trl⟩ := res2
              simp only [hbl] at hph
              have hcwl : ChainsWF bl :=
                cwf_sellLoop hbl (cwf_congr (b := b) (fun y => rfl) rfl rfl rfl hcw)
              obtain rfl := congrArg Prod.fst (Except.ok.inj hph)
              exact cwf_congr (b := bl) (fun y => rfl) rfl rfl rfl hcwl
        rw [OrderBook.finishSell] at h
        by_cases hrem : 0 < remaining
        · rw [if_pos hrem] at h
          cases hao : b1.add_order b.next_order_id t Side.Sell p remaining with
          | error err => simp only [hao] at h; exact Except.noConfusion h
          | ok b2 =>
            simp only [hao] at h
            have hcw2 : ChainsWF b2 := cwf_add hao hcw1
            obtain rfl := congrArg Prod.fst (Except.ok.inj h)
            by_cases hbm : (match b2.ask_min with
              | none => true
              | some m => decide (p < m)) = true
            · rw [if_pos hbm]
              exact cwf_congr (b := b2) (fun y => rfl) rfl rfl rfl hcw2
            · rw [if_neg hbm]
              exact cwf_congr (b := b2) (fun y => rfl) rfl rfl rfl hcw2
        · rw [if_neg hrem] at h
          obtain rfl := congrArg Prod.fst (Except.ok.inj h)
          exact cwf_congr (b := b1) (fun y => rfl) rfl rfl rfl hcw1
  · rw [if_neg hU] at h
    exact Except.noConfusion h

/-- A fresh book is chain-well-formed: every chain is empty. -/
theorem cwf_with_capacity (mp mo : Nat) : ChainsWF (OrderBook.with_capacity mp mo) := by
  have hch : ∀ s P, isChain (OrderBook.with_capacity mp mo).arena
      (oppLevel (OrderBook.with_capacity mp mo) s P).first_order_idx [] = true := by
    intro s P
    cases s
    · rfl
    · rfl
  refine ⟨?_, ?_, ?_⟩
  · intro s P _
    exact ⟨[], hch s P, List.nodup_nil⟩
  · intro s1 P1 s2 P2 cX cY _ _ _ hcX hcY x hxX
    have : cX = [] := isChain_fun hcX (hch s1 P1)
    subst this
    exact absurd hxX (List.not_mem_nil x)
  · intro s P c _ hc
    have : c = [] := isChain_fun hc (hch s P)
    subst this
    cases s
    · rfl
    · rfl

/-- Every reachable book is chain-well-formed. -/
theorem reachable_cwf {b : OrderBook} (h : Reachable b) : ChainsWF b := by
  induction h with
  | init mp mo h1 h2 => exact cwf_with_capacity mp mo
  | limit hr hstep ih => exact cwf_limit hstep ih
  | cancel oid hr ih => exact cwf_cancel _ oid ih

end CwfLimit

section LoopLift

/-- A chain position is a chain member. -/
theorem chain_get_mem {c : List Nat} {k : Nat} (hk : k < c.length) {i : Nat}
    (hgi : c.get ⟨k, hk⟩ = i) : i ∈ c := by
  rw [← hgi]
  exact c.get_mem k hk

/-- A slot that exists before an `entryNext`-preserving change exists after. -/
theorem get_some_of_entryNext {ar2 ar : OrderArena} {x : Nat}
    (h : entryNext ar2 x = entryNext ar x) {e : OrderEntry}
    (hg : ar.get x = some e) : ∃ e2, ar2.get x = some e2 := by
  cases hg2 : ar2.get x with
  | none =>
    rw [entryNext, entryNext, hg, hg2] at h
    simp only [Option.map_none', Option.map_some'] at h
    exact Option.noConfusion h
  | some e2 => exact ⟨e2, rfl⟩

/-- A level whose chain has a member is not empty. -/
theorem chain_nonempty {ar : OrderArena} {pp : PricePoint} {c : List Nat} {x : Nat}
    (hc : isChain ar pp.first_order_idx c = true) (hx : x ∈ c) :
    pp.is_empty = false := by
  cases hf : pp.first_order_idx with
  | none =>
    rw [hf] at hc
    obtain rfl := isChain_none hc
    exact absurd hx (List.not_mem_nil x)
  | some i => simp [PricePoint.is_empty, hf]

/-- The buy sweep with nothing left to fill returns its inputs. -/
theorem buyLoop_zero {trader : TraderId} {oid price : Nat} {fuel : Nat}
    {bk : OrderBook} {a : Nat} {tr : List Trade}
    {b1 : OrderBook} {rem1 : Nat} {tr1 : List Trade}
    (h : OrderBook.buyLoop trader oid price fuel bk a 0 tr = Except.ok (b1, rem1, tr1)) :
    b1 = bk ∧ rem1 = 0 ∧ tr1 = tr := by
  have hng : ¬ (0 < (0 : Nat) ∧ a ≤ price) := fun hx => absurd hx.1 (lt_irrefl 0)
  cases fuel with
  | zero =>
    rw [OrderBook.buyLoop, if_neg hng] at h
    have h2 := Except.ok.inj h
    simp only [Prod.mk.injEq] at h2
    exact ⟨h2.1.symm, h2.2.1.symm, h2.2.2.symm⟩
  | succ fuel =>
    rw [OrderBook.buyLoop, if_neg hng] at h
    have h2 := Except.ok.inj h
    simp only [Prod.mk.injEq] at h2
    exact ⟨h2.1.symm, h2.2.1.symm, h2.2.2.symm⟩

/-- The sell sweep with nothing left to fill returns its inputs. -/
theorem sellLoop_zero {trader : TraderId} {oid price : Nat} {fuel : Nat}
    {bk : OrderBook} {a : Nat} {tr : List Trade}
    {b1 : OrderBook} {rem1 : Nat} {tr1 : List Trade}
    (h : OrderBook.sellLoop trader oid price fuel bk a 0 tr = Except.ok (b1, rem1, tr1)) :
    b1 = bk ∧ rem1 = 0 ∧ tr1 = tr := by
  have hng : ¬ (0 < (0 : Nat) ∧ price ≤ a) := fun hx => absurd hx.1 (lt_irrefl 0)
  cases fuel with
  | zero =>
    rw [OrderBook.sellLoop, if_neg hng] at h
    have h2 := Except.ok.inj h
    simp only [Prod.mk.injEq] at h2
    exact ⟨h2.1.symm, h2.2.1.symm, h2.2.2.symm⟩
  | succ fuel =>
    rw [OrderBook.sellLoop, if_neg hng] at h
    have h2 := Except.ok.inj h
    simp only [Prod.mk.injEq] at h2
    exact ⟨h2.1.symm, h2.2.1.symm, h2.2.2.symm⟩

/-- No slot gains quantity across the buy sweep. -/
theorem buyLoop_qmono {trader : TraderId} {oid price : Nat} :
    ∀ {fuel : Nat} {bk : OrderBook} {a rem : Nat} {tr : List Trade}
      {b1 : OrderBook} {rem1 : Nat} {tr1 : List Trade},
      OrderBook.buyLoop trader oid price fuel bk a rem tr = Except.ok (b1, rem1, tr1) →
      ChainsWF bk → ∀ x, entryQty b1.arena x ≤ entryQty bk.arena x := by
  intro fuel
  induction fuel with
  | zero =>
    intro bk a rem tr b1 rem1 tr1 h hcw x
    rw [OrderBook.buyLoop] at h
    by_cases hg : 0 < rem ∧ a ≤ price
    · rw [if_pos hg] at h; exact Except.noConfusion h
    · rw [if_neg hg] at h
      obtain rfl := congrArg Prod.fst (Except.ok.inj h)
      exact le_rfl
  | succ fuel ih =>
    intro bk a rem tr b1 rem1 tr1 h hcw x
    rw [OrderBook.buyLoop] at h
    by_cases hg : 0 < rem ∧ a ≤ price
    · rw [if_pos hg] at h
      cases hmp : bk.match_at_price oid trader Side.Buy a rem with
      | error err => simp only [hmp] at h; exact Except.noConfusion h
      | ok res =>
        obtain ⟨bm, fills, remm⟩ := res
        simp only [hmp] at h
        by_cases h32 : price + 1 < U32
        · rw [if_pos h32] at h
          obtain ⟨ca, hca, -⟩ := hcw.chains Side.Buy a (match_guard hmp)
          exact le_trans (ih h (cwf_match hmp hcw) x) ((match_chain hmp hca).2.1 x)
        · rw [if_neg h32] at h
          exact Except.noConfusion h
    · rw [if_neg hg] at h
      obtain rfl := congrArg Prod.fst (Except.ok.inj h)
      exact le_rfl

/-- No slot gains quantity across the sell sweep. -/
theorem sellLoop_qmono {trader : TraderId} {oid price : Nat} :
    ∀ {fuel : Nat} {bk : OrderBook} {a rem : Nat} {tr : List Trade}
      {b1 : OrderBook} {rem1 : Nat} {tr1 : List Trade},
      OrderBook.sellLoop trader oid price fuel bk a rem tr = Except.ok (b1, rem1, tr1) →
      ChainsWF bk → ∀ x, entryQty b1.arena x ≤ entryQty bk.arena x := by
  intro fuel
  induction fuel with
  | zero =>
    intro bk a rem tr b1 rem1 tr1 h hcw x
    rw [OrderBook.sellLoop] at h
    by_cases hg : 0 < rem ∧ price ≤ a
    · rw [if_pos hg] at h; exact Except.noConfusion h
    · rw [if_neg hg] at h
      obtain rfl := congrArg Prod.fst (Except.ok.inj h)
      exact le_rfl
  | succ fuel ih =>
    intro bk a rem tr b1 rem1 tr1 h hcw x
    rw [OrderBook.sellLoop] at h
    by_cases hg : 0 < rem ∧ price ≤ a
    · rw [if_pos hg] at h
      cases hmp : bk.match_at_price oid trader Side.Sell a rem with
      | error err => simp only [hmp] at h; exact Except.noConfusion h
      | ok res =>
        obtain ⟨bm, fills, remm⟩ := res
        simp only [hmp] at h
        obtain ⟨ca, hca, -⟩ := hcw.chains Side.Sell a (match_guard hmp)
        exact le_trans (ih h (cwf_match hmp hcw) x) ((match_chain hmp hca).2.1 x)
    · rw [if_neg hg] at h
      obtain rfl := congrArg Prod.fst (Except.ok.inj h)
      exact le_rfl

/-- The buy sweep never rewires any link. -/
theorem buyLoop_nextEq {trader : TraderId} {oid price : Nat} :
    ∀ {fuel : Nat} {bk : OrderBook} {a rem : Nat} {tr : List Trade}
      {b1 : OrderBook} {rem1 : Nat} {tr1 : List Trade},
      OrderBook.buyLoop trader oid price fuel bk a rem tr = Except.ok (b1, rem1, tr1) →
      ChainsWF bk → ∀ y, entryNext b1.arena y = entryNext bk.arena y := by
  intro fuel
  induction fuel with
  | zero =>
    intro bk a rem tr b1 rem1 tr1 h hcw y
    rw [OrderBook.buyLoop] at h
    by_cases hg : 0 < rem ∧ a ≤ price
    · rw [if_pos hg] at h; exact Except.noConfusion h
    · rw [if_neg hg] at h
      obtain rfl := congrArg Prod.fst (Except.ok.inj h)
      rfl
  | succ fuel ih =>
    intro bk a rem tr b1 rem1 tr1 h hcw y
    rw [OrderBook.buyLoop] at h
    by_cases hg : 0 < rem ∧ a ≤ price
    · rw [if_pos hg] at h
      cases hmp : bk.match_at_price oid trader Side.Buy a rem with
      | error err => simp only [hmp] at h; exact Except.noConfusion h
      | ok res =>
        obtain ⟨bm, fills, remm⟩ := res
        simp only [hmp] at h
        by_cases h32 : price + 1 < U32
        · rw [if_pos h32] at h
          obtain ⟨ca, hca, -⟩ := hcw.chains Side.Buy a (match_guard hmp)
          exact (ih h (cwf_match hmp hcw) y).trans ((match_chain hmp hca).2.2.1 y)
        · rw [if_neg h32] at h
          exact Except.noConfusion h
    · rw [if_neg hg] at h
      obtain rfl := congrArg Prod.fst (Except.ok.inj h)
      rfl

/-- The sell sweep never rewires any link. -/
theorem sellLoop_nextEq {trader : TraderId} {oid price : Nat} :
    ∀ {fuel : Nat} {bk : OrderBook} {a rem : Nat} {tr : List Trade}
      {b1 : OrderBook} {rem1 : Nat} {tr1 : List Trade},
      OrderBook.sellLoop trader oid price fuel bk a rem tr = Except.ok (b1, rem1, tr1) →
      ChainsWF bk → ∀ y, entryNext b1.arena y = entryNext bk.arena y := by
  intro fuel
  induction fuel with
  | zero =>
    intro bk a rem tr b1 rem1 tr1 h hcw y
    rw [OrderBook.sellLoop] at h
    by_cases hg : 0 < rem ∧ price ≤ a
    · rw [if_pos hg] at h; exact Except.noConfusion h
    · rw [if_neg hg] at h
      obtain rfl := congrArg Prod.fst (Except.ok.inj h)
      rfl
  | succ fuel ih =>
    intro bk a rem tr b1 rem1 tr1 h hcw y
    rw [OrderBook.sellLoop] at h
    by_cases hg : 0 < rem ∧ price ≤ a
    · rw [if_pos hg] at h
      cases hmp : bk.match_at_price oid trader Side.Sell a rem with
      | error err => simp only [hmp] at h; exact Except.noConfusion h
      | ok res =>
        obtain ⟨bm, fills, remm⟩ := res
        simp only [hmp] at h
        obtain ⟨ca, hca, -⟩ := hcw.chains Side.Sell a (match_guard hmp)
        exact (ih h (cwf_match hmp hcw) y).trans ((match_chain hmp hca).2.2.1 y)
    · rw [if_neg hg] at h
      obtain rfl := congrArg Prod.fst (Except.ok.inj h)
      rfl

/-- FIFO across the whole buy sweep: on any ask level's chain, if a later
live order lost quantity then every earlier live order is fully consumed. -/
theorem buyLoop_fifo {trader : TraderId} {oid price : Nat} :
    ∀ {fuel : Nat} {bk : OrderBook} {a rem : Nat} {tr : List Trade}
      {b1 : OrderBook} {rem1 : Nat} {tr1 : List Trade},
      OrderBook.buyLoop trader oid price fuel bk a rem tr = Except.ok (b1, rem1, tr1) →
      ChainsWF bk →
      ∀ {P : Nat}, P < bk.maxPrice →
      ∀ {c : List Nat}, isChain bk.arena (bk.asks P).first_order_idx c = true →
      ∀ {k1 k2 : Nat}, k1 < k2 → ∀ (hk1 : k1 < c.length) (hk2 : k2 < c.length),
      ∀ {i j : Nat} {eA eB : OrderEntry},
        c.get ⟨k1, hk1⟩ = i → c.get ⟨k2, hk2⟩ = j →
        bk.arena.get i = some eA → bk.arena.get j = some eB →
        0 < eA.quantity → 0 < eB.quantity →
        entryQty b1.arena j < eB.quantity → entryQty b1.arena i = 0 := by
  intro fuel
  induction fuel with
  | zero =>
    intro bk a rem tr b1 rem1 tr1 h hcw P hP c hc k1 k2 hk hk1 hk2 i j eA eB
      hgi hgj hgA hgB hA hB hdec
    rw [OrderBook.buyLoop] at h
    by_cases hg : 0 < rem ∧ a ≤ price
    · rw [if_pos hg] at h; exact Except.noConfusion h
    · rw [if_neg hg] at h
      obtain rfl := congrArg Prod.fst (Except.ok.inj h)
      simp only [entryQty, hgB] at hdec
      exact absurd hdec (lt_irrefl _)
  | succ fuel ih =>
    intro bk a rem tr b1 rem1 tr1 h hcw P hP c hc k1 k2 hk hk1 hk2 i j eA eB
      hgi hgj hgA hgB hA hB hdec
    rw [OrderBook.buyLoop] at h
    by_cases hg : 0 < rem ∧ a ≤ price
    · rw [if_pos hg] at h
      cases hmp : bk.match_at_price oid trader Side.Buy a rem with
      | error err => simp only [hmp] at h; exact Except.noConfusion h
      | ok res =>
        obtain ⟨bm, fills, remm⟩ := res
        simp only [hmp] at h
        by_cases h32 : price + 1 < U32
        · rw [if_pos h32] at h
          have hcwm : ChainsWF bm := cwf_match hmp hcw
          obtain ⟨ca, hca, hndca⟩ := hcw.chains Side.Buy a (match_guard hmp)
          obtain ⟨mconf, mmono, mnext, mslots, mframe, mmp, ⟨c2, hsuf, hc2, hlast⟩,
                  mfifo, mzero, mtr, hpa, mrem⟩ := match_chain hmp hca
          by_cases haP : a = P
          · subst haP
            have hceq : c = ca := isChain_fun hc hca
            subst hceq
            by_cases hrm : 0 < remm
            · have hzi : entryQty bm.arena i = 0 :=
                mzero hrm i (chain_get_mem hk1 hgi)
              have hmono := buyLoop_qmono h hcwm i
              omega
            · have hrm0 : remm = 0 := by omega
              subst hrm0
              obtain ⟨hbe, -, -⟩ := buyLoop_zero h
              subst hbe
              exact mfifo hndca hk hk1 hk2 hgi hgj hgA hgB hA hB hdec
          · have hiC : i ∈ c := chain_get_mem hk1 hgi
            have hjC : j ∈ c := chain_get_mem hk2 hgj
            have hdisj := hcw.disj Side.Buy P Side.Buy a c ca hP (match_guard hmp)
              (fun hand => haP hand.2.symm) hc hca
            have hgi2 : bm.arena.get i = bk.arena.get i := mconf i (hdisj i hiC)
            have hgj2 : bm.arena.get j = bk.arena.get j := mconf j (hdisj j hjC)
            have hlev : bm.asks P = bk.asks P :=
              mframe Side.Buy P (fun hand => haP hand.2.symm)
            have hcP : isChain bm.arena (bm.asks P).first_order_idx c = true := by
              rw [hlev]
              exact isChain_congr mnext hc
            have hPm : P < bm.maxPrice := by rw [mmp]; exact hP
            exact ih h hcwm hPm hcP hk hk1 hk2 hgi hgj (hgi2.trans hgA)
              (hgj2.trans hgB) hA hB hdec
        · rw [if_neg h32] at h
          exact Except.noConfusion h
    · rw [if_neg hg] at h
      obtain rfl := congrArg Prod.fst (Except.ok.inj h)
      simp only [entryQty, hgB] at hdec
      exact absurd hdec (lt_irrefl _)

/-- FIFO across the whole sell sweep: on any bid level's chain, if a later
live order lost quantity then every earlier live order is fully consumed. -/
theorem sellLoop_fifo {trader : TraderId} {oid price : Nat} :
    ∀ {fuel : Nat} {bk : OrderBook} {a rem : Nat} {tr : List Trade}
      {b1 : OrderBook} {rem1 : Nat} {tr1 : List Trade},
      OrderBook.sellLoop trader oid price fuel bk a rem tr = Except.ok (b1, rem1, tr1) →
      ChainsWF bk →
      ∀ {P : Nat}, P < bk.maxPrice →
      ∀ {c : List Nat}, isChain bk.arena (bk.bids P).first_order_idx c = true →
      ∀ {k1 k2 : Nat}, k1 < k2 → ∀ (hk1 : k1 < c.length) (hk2 : k2 < c.length),
      ∀ {i j : Nat} {eA eB : OrderEntry},
        c.get ⟨k1, hk1⟩ = i → c.get ⟨k2, hk2⟩ = j →
        bk.arena.get i = some eA → bk.arena.get j = some eB →
        0 < eA.quantity → 0 < eB.quantity →
        entryQty b1.arena j < eB.quantity → entryQty b1.arena i = 0 := by
  intro fuel
  induction fuel with
  | zero =>
    intro bk a rem tr b1 rem1 tr1 h hcw P hP c hc k1 k2 hk hk1 hk2 i j eA eB
      hgi hgj hgA hgB hA hB hdec
    rw [OrderBook.sellLoop] at h
    by_cases hg : 0 < rem ∧ price ≤ a
    · rw [if_pos hg] at h; exact Except.noConfusion h
    · rw [if_neg hg] at h
      obtain rfl := congrArg Prod.fst (Except.ok.inj h)
      simp only [entryQty, hgB] at hdec
      exact absurd hdec (lt_irrefl _)
  | succ fuel ih =>
    intro bk a rem tr b1 rem1 tr1 h hcw P hP c hc k1 k2 hk hk1 hk2 i j eA eB
      hgi hgj hgA hgB hA hB hdec
    rw [OrderBook.sellLoop] at h
    by_cases hg : 0 < rem ∧ price ≤ a
    · rw [if_pos hg] at h
      cases hmp : bk.match_at_price oid trader Side.Sell a rem with
      | error err => simp only [hmp] at h; exact Except.noConfusion h
      | ok res =>
        obtain ⟨bm, fills, remm⟩ := res
        simp only [hmp] at h
        have hcwm : ChainsWF bm := cwf_match hmp hcw
        obtain ⟨ca, hca, hndca⟩ := hcw.chains Side.Sell a (match_guard hmp)
        obtain ⟨mconf, mmono, mnext, mslots, mframe, mmp, ⟨c2, hsuf, hc2, hlast⟩,
                mfifo, mzero, mtr, hpa, mrem⟩ := match_chain hmp hca
        by_cases haP : a = P
        · subst haP
          have hceq : c = ca := isChain_fun hc hca
          subst hceq
          by_cases hrm : 0 < remm
          · have hzi : entryQty bm.arena i = 0 :=
              mzero hrm i (chain_get_mem hk1 hgi)
            have hmono := sellLoop_qmono h hcwm i
            omega
          · have hrm0 : remm = 0 := by omega
            subst hrm0
            obtain ⟨hbe, -, -⟩ := sellLoop_zero h
            subst hbe
            exact mfifo hndca hk hk1 hk2 hgi hgj hgA hgB hA hB hdec
        · have hiC : i ∈ c := chain_get_mem hk1 hgi
          have hjC : j ∈ c := chain_get_mem hk2 hgj
          have hdisj := hcw.disj Side.Sell P Side.Sell a c ca hP (match_guard hmp)
            (fun hand => haP hand.2.symm) hc hca
          have hgi2 : bm.arena.get i = bk.arena.get i := mconf i (hdisj i hiC)
          have hgj2 : bm.arena.get j = bk.arena.get j := mconf j (hdisj j hjC)
          have hlev : bm.bids P = bk.bids P :=
            mframe Side.Sell P (fun hand => haP hand.2.symm)
          have hcP : isChain bm.arena (bm.bids P).first_order_idx c = true := by
            rw [hlev]
            exact isChain_congr mnext hc
          have hPm : P < bm.maxPrice := by rw [mmp]; exact hP
          exact ih h hcwm hPm hcP hk hk1 hk2 hgi hgj (hgi2.trans hgA)
            (hgj2.trans hgB) hA hB hdec
    · rw [if_neg hg] at h
      obtain rfl := congrArg Prod.fst (Except.ok.inj h)
      simp only [entryQty, hgB] at hdec
      exact absurd hdec (lt_irrefl _)

end LoopLift

section TradeProvenance

/-- `Evolved` is reflexive. -/
theorem evolved_refl (b : OrderBook) : Evolved b b :=
  ⟨rfl, fun x e' hg' => ⟨e', hg', rfl, le_rfl⟩,
   fun s q c _ hc => ⟨c, List.suffix_rfl, hc⟩⟩

/-- One `match_at_price` step keeps the book evolved from its base. -/
theorem evolved_match {b bk bm : OrderBook} {oid : Nat} {trader : TraderId}
    {side : Side} {a rem : Nat} {fills : List Trade} {remm : Nat}
    (h : bk.match_at_price oid trader side a rem = Except.ok (bm, fills, remm))
    (hcwk : ChainsWF bk) (hev : Evolved b bk) : Evolved b bm := by
  obtain ⟨hmp, hsl, hsx⟩ := hev
  obtain ⟨ca, hca, -⟩ := hcwk.chains side a (match_guard h)
  obtain ⟨-, -, mnext, mslots, mframe, mmp2, -, -, -, -, -, -⟩ := match_chain h hca
  refine ⟨mmp2.trans hmp, ?_, ?_⟩
  · intro x e' hg'
    obtain ⟨em, hgm, -, htr, -, hq⟩ := mslots x e' hg'
    obtain ⟨e, hge, htr2, hq2⟩ := hsl x em hgm
    exact ⟨e, hge, htr.trans htr2, le_trans hq hq2⟩
  · intro s q c hq hc
    obtain ⟨c2, hsuf, hc2⟩ := hsx s q c hq hc
    by_cases hx : s = side ∧ q = a
    · obtain ⟨rfl, rfl⟩ := hx
      obtain ⟨-, -, -, -, -, -, ⟨c3, hsuf3, hc3, -⟩, -, -, -, -, -⟩ := match_chain h hc2
      exact ⟨c3, hsuf3.trans hsuf, hc3⟩
    · refine ⟨c2, hsuf, ?_⟩
      rw [mframe s q hx]
      exact isChain_congr mnext hc2

/-- Every fill of the buy sweep is fully sourced: its price is within the
limit, and it is cut from a live entry of the base book's ask chain at that
very price, with the aggressor as buyer and the resting trader as seller. -/
theorem buyLoop_trades {trader : TraderId} {oid price : Nat} {b : OrderBook}
    (hcwb : ChainsWF b) :
    ∀ {fuel : Nat} {bk : OrderBook} {a rem : Nat} {tr : List Trade}
      {b1 : OrderBook} {rem1 : Nat} {tr1 : List Trade},
      OrderBook.buyLoop trader oid price fuel bk a rem tr = Except.ok (b1, rem1, tr1) →
      ChainsWF bk → Evolved b bk →
      ∀ td, td ∈ tr1 → td ∈ tr ∨
        (td.price ≤ price ∧ td.price < b.maxPrice ∧
          ∃ i e c,
            isChain b.arena (oppLevel b Side.Buy td.price).first_order_idx c = true ∧
            i ∈ c ∧ b.arena.get i = some e ∧ 0 < e.quantity ∧
            td = Trade.new trader e.trader td.price td.quantity) := by
  intro fuel
  induction fuel with
  | zero =>
    intro bk a rem tr b1 rem1 tr1 h hcwk hev td htd
    rw [OrderBook.buyLoop] at h
    by_cases hg : 0 < rem ∧ a ≤ price
    · rw [if_pos hg] at h; exact Except.noConfusion h
    · rw [if_neg hg] at h
      have h2 := Except.ok.inj h
      simp only [Prod.mk.injEq] at h2
      obtain ⟨-, -, rfl⟩ := h2
      exact Or.inl htd
  | succ fuel ih =>
    intro bk a rem tr b1 rem1 tr1 h hcwk hev td htd
    rw [OrderBook.buyLoop] at h
    by_cases hg : 0 < rem ∧ a ≤ price
    · rw [if_pos hg] at h
      cases hmp : bk.match_at_price oid trader Side.Buy a rem with
      | error err => simp only [hmp] at h; exact Except.noConfusion h
      | ok res =>
        obtain ⟨bm, fills, remm⟩ := res
        simp only [hmp] at h
        by_cases h32 : price + 1 < U32
        · rw [if_pos h32] at h
          rcases ih h (cwf_match hmp hcwk) (evolved_match hmp hcwk hev) td htd
            with hin | hres
          · rcases List.mem_append.mp hin with h1 | h2
            · exact Or.inl h1
            · right
              have hab : a < b.maxPrice := by
                have hx := match_guard hmp
                rw [hev.1] at hx
                exact hx
              obtain ⟨cb, hcb, -⟩ := hcwb.chains Side.Buy a hab
              obtain ⟨c2, hsuf, hc2⟩ := hev.2.2 Side.Buy a cb hab hcb
              obtain ⟨-, -, -, -, -, -, -, -, -, mtr, -, -⟩ := match_chain hmp hc2
              obtain ⟨i, em, f, hi2, hgm, hqm, hteq⟩ := mtr td h2
              obtain ⟨e, hge, htre, hqe⟩ := hev.2.1 i em hgm
              subst hteq
              refine ⟨hg.2, hab, i, e, cb, hcb, hsuf.subset hi2, hge,
                lt_of_lt_of_le hqm hqe, ?_⟩
              exact congrArg (fun s1 => mkTrade Side.Buy trader s1 a f) htre
          · exact Or.inr hres
        · rw [if_neg h32] at h
          exact Except.noConfusion h
    · rw [if_neg hg] at h
      have h2 := Except.ok.inj h
      simp only [Prod.mk.injEq] at h2
      obtain ⟨-, -, rfl⟩ := h2
      exact Or.inl htd

/-- Every fill of the sell sweep is fully sourced: its price is within the
limit, and it is cut from a live entry of the base book's bid chain at that
very price, with the aggressor as seller and the resting trader as buyer. -/
theorem sellLoop_trades {trader : TraderId} {oid price : Nat} {b : OrderBook}
    (hcwb : ChainsWF b) :
    ∀ {fuel : Nat} {bk : OrderBook} {a rem : Nat} {tr : List Trade}
      {b1 : OrderBook} {rem1 : Nat} {tr1 : List Trade},
      OrderBook.sellLoop trader oid price fuel bk a rem tr = Except.ok (b1, rem1, tr1) →
      ChainsWF bk → Evolved b bk →
      ∀ td, td ∈ tr1 → td ∈ tr ∨
        (price ≤ td.price ∧ td.price < b.maxPrice ∧
          ∃ i e c,
            isChain b.arena (oppLevel b Side.Sell td.price).first_order_idx c = true ∧
            i ∈ c ∧ b.arena.get i = some e ∧ 0 < e.quantity ∧
            td = Trade.new e.trader trader td.price td.quantity) := by
  intro fuel
  induction fuel with
  | zero =>
    intro bk a rem tr b1 rem1 tr1 h hcwk hev td htd
    rw [OrderBook.sellLoop] at h
    by_cases hg : 0 < rem ∧ price ≤ a
    · rw [if_pos hg] at h; exact Except.noConfusion h
    · rw [if_neg hg] at h
      have h2 := Except.ok.inj h
      simp only [Prod.mk.injEq] at h2
      obtain ⟨-, -, rfl⟩ := h2
      exact Or.inl htd
  | succ fuel ih =>
    intro bk a rem tr b1 rem1 tr1 h hcwk hev td htd
    rw [OrderBook.sellLoop] at h
    by_cases hg : 0 < rem ∧ price ≤ a
    · rw [if_pos hg] at h
      cases hmp : bk.match_at_price oid trader Side.Sell a rem with
      | error err => simp only [hmp] at h; exact Except.noConfusion h
      | ok res =>
        obtain ⟨bm, fills, remm⟩ := res
        simp only [hmp] at h
        rcases ih h (cwf_match hmp hcwk) (evolved_match hmp hcwk hev) td htd
          with hin | hres
        · rcases List.mem_append.mp hin with h1 | h2
          · exact Or.inl h1
          · right
            have hab : a < b.maxPrice := by
              have hx := match_guard hmp
              rw [hev.1] at hx
              exact hx
            obtain ⟨cb, hcb, -⟩ := hcwb.chains Side.Sell a hab
            obtain ⟨c2, hsuf, hc2⟩ := hev.2.2 Side.Sell a cb hab hcb
            obtain ⟨-, -, -, -, -, -, -, -, -, mtr, -, -⟩ := match_chain hmp hc2
            obtain ⟨i, em, f, hi2, hgm, hqm, hteq⟩ := mtr td h2
            obtain ⟨e, hge, htre, hqe⟩ := hev.2.1 i em hgm
            subst hteq
            refine ⟨hg.2, hab, i, e, cb, hcb, hsuf.subset hi2, hge,
              lt_of_lt_of_le hqm hqe, ?_⟩
            exact congrArg (fun s1 => mkTrade Side.Sell trader s1 a f) htre
        · exact Or.inr hres
    · rw [if_neg hg] at h
      have h2 := Except.ok.inj h
      simp only [Prod.mk.injEq] at h2
      obtain ⟨-, -, rfl⟩ := h2
      exact Or.inl htd

end TradeProvenance

section FinishFrames

/-- Resting an order never changes the quantity of a pre-existing slot. -/
theorem add_entryQty {b : OrderBook} {oid : Nat} {trader : TraderId} {side : Side}
    {p qty : Nat} {b2 : OrderBook}
    (h : b.add_order oid trader side p qty = Except.ok b2) :
    ∀ x, x < b.arena.entries.length → entryQty b2.arena x = entryQty b.arena x := by
  intro x hx
  simp only [OrderBook.add_order] at h
  cases hal : b.arena.allocate (OrderEntry.new oid trader qty) with
  | none => simp only [hal] at h; exact Except.noConfusion h
  | some pr =>
    obtain ⟨arena1, idx⟩ := pr
    simp only [hal] at h
    obtain ⟨h1e, hidx⟩ : arena1.entries =
        b.arena.entries ++ [OrderEntry.new oid trader qty] ∧
        idx = b.arena.entries.length := by
      rw [OrderArena.allocate] at hal
      by_cases hcap : b.arena.capacity ≤ b.arena.entries.length
      · rw [if_pos hcap] at hal; exact Option.noConfusion hal
      · rw [if_neg hcap] at hal
        have hpr := Option.some.inj hal
        injection hpr with hp1 hp2
        exact ⟨by rw [← hp1], hp2.symm⟩
    subst hidx
    by_cases hp : p < b.maxPrice
    · rw [if_pos hp] at h
      cases side with
      | Buy =>
        cases hpl : (b.bids p).last_order_idx with
        | some last_idx =>
          simp only [hpl] at h
          cases hgl : arena1.get last_idx with
          | none => simp only [hgl] at h; exact Except.noConfusion h
          | some le =>
            simp only [hgl] at h
            obtain rfl := (Except.ok.inj h).symm
            by_cases hxl : x = last_idx
            · subst hxl
              have hbg : b.arena.get x = some le := by
                rw [← get_append_lt h1e hx]
                exact hgl
              rw [entryQty, entryQty, OrderArena.get_setEntry_self hgl, hbg]
            · rw [entryQty, entryQty,
                OrderArena.get_setEntry_ne (fun hcx => hxl hcx.symm),
                get_append_lt h1e hx]
        | none =>
          simp only [hpl] at h
          obtain rfl := (Except.ok.inj h).symm
          rw [entryQty, entryQty, get_append_lt h1e hx]
      | Sell =>
        cases hpl : (b.asks p).last_order_idx with
        | some last_idx =>
          simp only [hpl] at h
          cases hgl : arena1.get last_idx with
          | none => simp only [hgl] at h; exact Except.noConfusion h
          | some le =>
            simp only [hgl] at h
            obtain rfl := (Except.ok.inj h).symm
            by_cases hxl : x = last_idx
            · subst hxl
              have hbg : b.arena.get x = some le := by
                rw [← get_append_lt h1e hx]
                exact hgl
              rw [entryQty, entryQty, OrderArena.get_setEntry_self hgl, hbg]
            · rw [entryQty, entryQty,
                OrderArena.get_setEntry_ne (fun hcx => hxl hcx.symm),
                get_append_lt h1e hx]
        | none =>
          simp only [hpl] at h
          obtain rfl := (Except.ok.inj h).symm
          rw [entryQty, entryQty, get_append_lt h1e hx]
    · rw [if_neg hp] at h
      exact Except.noConfusion h

/-- The buy epilogue never changes the quantity of a pre-existing slot. -/
theorem finishBuy_entryQty {b1 : OrderBook} {trader : TraderId}
    {oid price rem : Nat} {trades : List Trade}
    {b' : OrderBook} {oid' : Nat} {tr' : List Trade}
    (h : b1.finishBuy trader oid price rem trades = Except.ok (b', oid', tr')) :
    ∀ x, x < b1.arena.entries.length → entryQty b'.arena x = entryQty b1.arena x := by
  intro x hx
  rw [OrderBook.finishBuy] at h
  by_cases hrem : 0 < rem
  · rw [if_pos hrem] at h
    cases hao : b1.add_order oid trader Side.Buy price rem with
    | error err => simp only [hao] at h; exact Except.noConfusion h
    | ok b2 =>
      simp only [hao] at h
      have hq2 := add_entryQty hao x hx
      obtain rfl := (congrArg Prod.fst (Except.ok.inj h)).symm
      by_cases hbm : (match b2.bid_max with
        | none => true
        | some m => decide (m < price)) = true
      · rw [if_pos hbm]
        exact hq2
      · rw [if_neg hbm]
        exact hq2
  · rw [if_neg hrem] at h
    obtain rfl := (congrArg Prod.fst (Except.ok.inj h)).symm
    rfl

/-- The sell epilogue never changes the quantity of a pre-existing slot. -/
theorem finishSell_entryQty {b1 : OrderBook} {trader : TraderId}
    {oid price rem : Nat} {trades : List Trade}
    {b' : OrderBook} {oid' : Nat} {tr' : List Trade}
    (h : b1.finishSell trader oid price rem trades = Except.ok (b', oid', tr')) :
    ∀ x, x < b1.arena.entries.length → entryQty b'.arena x = entryQty b1.arena x := by
  intro x hx
  rw [OrderBook.finishSell] at h
  by_cases hrem : 0 < rem
  · rw [if_pos hrem] at h
    cases hao : b1.add_order oid trader Side.Sell price rem with
    | error err => simp only [hao] at h; exact Except.noConfusion h
    | ok b2 =>
      simp only [hao] at h
      have hq2 := add_entryQty hao x hx
      obtain rfl := (congrArg Prod.fst (Except.ok.inj h)).symm
      by_cases hbm : (match b2.ask_min with
        | none => true
        | some m => decide (price < m)) = true
      · rw [if_pos hbm]
        exact hq2
      · rw [if_neg hbm]
        exact hq2
  · rw [if_neg hrem] at h
    obtain rfl := (congrArg Prod.fst (Except.ok.inj h)).symm
    rfl

/-- The buy epilogue returns exactly the fills it was handed. -/
theorem finishBuy_tr {b1 : OrderBook} {trader : TraderId}
    {oid price rem : Nat} {trades : List Trade}
    {b' : OrderBook} {oid' : Nat} {tr' : List Trade}
    (h : b1.finishBuy trader oid price rem trades = Except.ok (b', oid', tr')) :
    tr' = trades := by
  rw [OrderBook.finishBuy] at h
  by_cases hrem : 0 < rem
  · rw [if_pos hrem] at h
    cases hao : b1.add_order oid trader Side.Buy price rem with
    | error err => simp only [hao] at h; exact Except.noConfusion h
    | ok b2 =>
      simp only [hao] at h
      exact (congrArg (fun z => z.2.2) (Except.ok.inj h)).symm
  · rw [if_neg hrem] at h
    exact (congrArg (fun z => z.2.2) (Except.ok.inj h)).symm

/-- The sell epilogue returns exactly the fills it was handed. -/
theorem finishSell_tr {b1 : OrderBook} {trader : TraderId}
    {oid price rem : Nat} {trades : List Trade}
    {b' : OrderBook} {oid' : Nat} {tr' : List Trade}
    (h : b1.finishSell trader oid price rem trades = Except.ok (b', oid', tr')) :
    tr' = trades := by
  rw [OrderBook.finishSell] at h
  by_cases hrem : 0 < rem
  · rw [if_pos hrem] at h
    cases hao : b1.add_order oid trader Side.Sell price rem with
    | error err => simp only [hao] at h; exact Except.noConfusion h
    | ok b2 =>
      simp only [hao] at h
      exact (congrArg (fun z => z.2.2) (Except.ok.inj h)).symm
  · rw [if_neg hrem] at h
    exact (congrArg (fun z => z.2.2) (Except.ok.inj h)).symm

end FinishFrames

section Claims

/-- C1: for every completed `limit_order` call (from any reachable book), the
total quantity of the returned trades plus the quantity left resting in the
book under the returned order id equals the submitted quantity. -/
theorem C1_quantity_conservation {b : OrderBook} {t : TraderId} {s : Side}
    {p q : Nat} {b' : OrderBook} {oid : Nat} {tr : List Trade}
    (hr : Reachable b)
    (h : b.limit_order t s p q = Except.ok (b', oid, tr)) :
    sumQty tr + restingQty b' oid = q := by
  obtain ⟨W1, _, W3, _⟩ := reachable_WF hr
  have hfresh : b.order_index b.next_order_id = none := by
    cases hix : b.order_index b.next_order_id with
    | none => rfl
    | some i =>
      obtain ⟨e, hge, hid, _⟩ := W1 _ i hix
      have := W3 i e hge
      omega
  exact (limit_order_ok h).2.2.2.2.1 hfresh

theorem C1_witness :
    sumQty [] + restingQty Wb1 1 = 5 := by
  have h : Wb0.limit_order ⟨1⟩ Side.Buy 2 5 = Except.ok (Wb1, 1, []) := rfl
  have hr : Reachable Wb0 := Reachable.init 8 4 (by decide) (by decide)
  exact C1_quantity_conservation hr h

/-- C2: after any sequence of completed `limit_order` (and `cancel_order`)
calls from a fresh book, whenever `best_bid` and `best_ask` are both `Some`,
the bid is strictly below the ask: the book is never crossed at rest. -/
theorem C2_no_crossed_book {b : OrderBook} (hr : Reachable b) {bp ap : Nat}
    (hb : b.best_bid = some bp) (ha : b.best_ask = some ap) : bp < ap := by
  obtain ⟨_, _, _, ⟨W4b, W4a⟩, W5, _, W7, _⟩ := reachable_WF hr
  rw [OrderBook.best_bid] at hb
  rw [OrderBook.best_ask] at ha
  rw [hb] at W4b
  rw [ha] at W4a
  obtain ⟨hb1, hb2, hb3⟩ := scanDown_some_spec (b.maxPrice - 1) W4b.symm
  obtain ⟨ha1, ha2, ha3, ha4⟩ := scanUp_some_spec b.maxPrice 0 W4a.symm
  exact W5 bp ap (by omega) (by omega) hb2 ha3

theorem C2_witness :
    Wb2.best_bid = some 2 ∧ Wb2.best_ask = some 5 ∧ 2 < 5 := by
  have h1 : Wb0.limit_order ⟨1⟩ Side.Buy 2 5 = Except.ok (Wb1, 1, []) := rfl
  have h2 : Wb1.limit_order ⟨2⟩ Side.Sell 5 5 = Except.ok (Wb2, 2, []) := rfl
  have hr : Reachable Wb2 :=
    Reachable.limit (Reachable.limit
      (Reachable.init 8 4 (by decide) (by decide)) h1) h2
  exact ⟨rfl, rfl, C2_no_crossed_book hr rfl rfl⟩

/-- An id absent from the index stays absent across a cancel of any id. -/
theorem cancel_keeps_none {b : OrderBook} {X : Nat} (Y : Nat)
    (h : b.order_index X = none) :
    (b.cancel_order Y).1.order_index X = none := by
  cases hiy : b.order_index Y with
  | none => rw [cancel_order_unknown hiy]; exact h
  | some idx =>
    cases hg : b.arena.get idx with
    | none => rw [cancel_order_badslot hiy hg]; exact h
    | some e =>
      rw [cancel_order_found hiy hg]
      by_cases hxy : X = Y
      · subst hxy; exact Function.update_same X none b.order_index
      · show Function.update b.order_index Y none X = none
        rw [Function.update_noteq hxy]; exact h

/-- `cancel_order` never changes the id counter. -/
theorem cancel_keeps_next (b : OrderBook) (Y : Nat) :
    (b.cancel_order Y).1.next_order_id = b.next_order_id := by
  cases hiy : b.order_index Y with
  | none => rw [cancel_order_unknown hiy]
  | some idx =>
    cases hg : b.arena.get idx with
    | none => rw [cancel_order_badslot hiy hg]
    | some e => rw [cancel_order_found hiy hg]

/-- Once an id is unindexed and below the id counter, no later sequence of
calls can ever index it again. -/
theorem gone_applyOps {X : Nat} :
    ∀ (ops : List Op) (b b2 : OrderBook), applyOps b ops = Except.ok b2 →
      b.order_index X = none → X < b.next_order_id →
      b2.order_index X = none ∧ X < b2.next_order_id := by
  intro ops
  induction ops with
  | nil =>
    intro b b2 h hn hlt
    rw [applyOps] at h
    injection h with h
    subst h
    exact ⟨hn, hlt⟩
  | cons op ops ih =>
    intro b b2 h hn hlt
    rw [applyOps] at h
    cases op with
    | limit t s p q =>
      rw [applyOp] at h
      cases hlo : b.limit_order t s p q with
      | error u => rw [hlo] at h; exact Except.noConfusion h
      | ok r =>
        obtain ⟨b', oid, tr⟩ := r
        rw [hlo] at h
        obtain ⟨_, h2, _, h4, _⟩ := limit_order_ok hlo
        exact ih b' b2 h (h4 X (by omega) hn) (by omega)
    | cancel Y =>
      rw [applyOp] at h
      exact ih _ b2 h (cancel_keeps_none Y hn)
        (by rw [cancel_keeps_next b Y]; exact hlt)

/-- C5: in any reachable book, an id that is currently indexed (resting)
cancels successfully exactly once: the first `cancel_order` returns `true`,
and after any further sequence of calls a repeat `cancel_order` with the same
id returns `false`; an id not in the index cancels to `false` immediately. -/
theorem C5_cancel_true_exactly_once {b : OrderBook} (hr : Reachable b) :
    (∀ X idx, b.order_index X = some idx →
      (b.cancel_order X).2 = true ∧
      ∀ ops b2, applyOps (b.cancel_order X).1 ops = Except.ok b2 →
        (b2.cancel_order X).2 = false) ∧
    (∀ X, b.order_index X = none → (b.cancel_order X).2 = false) := by
  obtain ⟨W1, _, W3, _⟩ := reachable_WF hr
  constructor
  · intro X idx hidx
    obtain ⟨e, hg, hid, _⟩ := W1 X idx hidx
    constructor
    · rw [cancel_order_found hidx hg]
    · intro ops b2 hops
      have hn : (b.cancel_order X).1.order_index X = none := by
        rw [cancel_order_found hidx hg]
        exact Function.update_same X none b.order_index
      have hlt : X < (b.cancel_order X).1.next_order_id := by
        rw [cancel_keeps_next b X]
        have := W3 idx e hg
        omega
      obtain ⟨hn2, _⟩ := gone_applyOps ops _ b2 hops hn hlt
      rw [cancel_order_unknown hn2]
  · intro X hn
    rw [cancel_order_unknown hn]

theorem C5_witness :
    (Wb1.cancel_order 1).2 = true ∧
    ((Wb1.cancel_order 1).1.cancel_order 1).2 = false := by
  have h1 : Wb0.limit_order ⟨1⟩ Side.Buy 2 5 = Except.ok (Wb1, 1, []) := rfl
  have hr : Reachable Wb1 :=
    Reachable.limit (Reachable.init 8 4 (by decide) (by decide)) h1
  have h := (C5_cancel_true_exactly_once hr).1 1 0 rfl
  exact ⟨h.1, h.2 [] (Wb1.cancel_order 1).1 rfl⟩

/-- Selling 3 × `qA` into a fresh book rests it as order id 1. -/
theorem C3sellA (tA : TraderId) (qA : Nat) (hA : 0 < qA) :
    (OrderBook.with_capacity 8 4).limit_order tA Side.Sell 3 qA =
      Except.ok (C3bookA tA qA, 1, []) := by
  simp only [OrderBook.limit_order, OrderBook.with_capacity, OrderBook.sellPhase,
    OrderBook.finishSell, OrderBook.add_order, OrderArena.allocate, OrderArena.new,
    List.length_nil, PricePoint.default]
  rw [if_pos (by decide)]
  simp only [if_pos hA, if_neg (by decide : ¬ (4:Nat) ≤ 0), if_pos (by decide : (3:Nat) < 8)]
  rfl

/-- A second sell at the same price joins the FIFO chain behind the first. -/
theorem C3sellB (tA tB : TraderId) (qA qB : Nat) (hB : 0 < qB) :
    (C3bookA tA qA).limit_order tB Side.Sell 3 qB =
      Except.ok (C3bookAB tA tB qA qB, 2, []) := by
  simp [OrderBook.limit_order, C3bookA, C3bookAB, OrderBook.sellPhase,
    OrderBook.finishSell, OrderBook.add_order, OrderArena.allocate, OrderArena.get,
    OrderArena.setEntry, Function.update_apply, PricePoint.default, PricePoint.push_back,
    OrderEntry.new, U64, U32, hB]

/-- The fills of an aggressing buy against the A-then-B chain, in both the
partial-A and the into-B cases. -/
theorem C3buy (tA tB tC : TraderId) (qA qB qAgg : Nat)
    (hA : 0 < qA) (hB : 0 < qB) (hG : 0 < qAgg) (hpart : qAgg < qA + qB) :
    (qAgg ≤ qA →
      okTrades ((C3bookAB tA tB qA qB).limit_order tC Side.Buy 3 qAgg) =
        [Trade.new tC tA 3 qAgg]) ∧
    (qA < qAgg →
      okTrades ((C3bookAB tA tB qA qB).limit_order tC Side.Buy 3 qAgg) =
        [Trade.new tC tA 3 qA, Trade.new tC tB 3 (qAgg - qA)]) := by
  constructor
  · intro hle
    have hmin1 : min qAgg qA = qAgg := Nat.min_eq_left hle
    by_cases heq : qA - qAgg = 0
    · simp [OrderBook.limit_order, C3bookAB, OrderBook.buyPhase, OrderBook.buyLoop,
        OrderBook.match_at_price, matchLoop, matchStep, processEntry, OrderEntry.is_active,
        OrderEntry.new, OrderArena.get, OrderArena.setEntry, OrderBook.find_next_ask, scanUp,
        Function.update_apply, PricePoint.is_empty, PricePoint.default, PricePoint.push_back,
        OrderBook.finishBuy, OrderBook.add_order, OrderArena.allocate, mkTrade, Trade.new,
        okTrades, U64, U32, hA, hB, hG, hmin1, heq, Nat.sub_self]
    · simp [OrderBook.limit_order, C3bookAB, OrderBook.buyPhase, OrderBook.buyLoop,
        OrderBook.match_at_price, matchLoop, matchStep, processEntry, OrderEntry.is_active,
        OrderEntry.new, OrderArena.get, OrderArena.setEntry, OrderBook.find_next_ask, scanUp,
        Function.update_apply, PricePoint.is_empty, PricePoint.default, PricePoint.push_back,
        OrderBook.finishBuy, OrderBook.add_order, OrderArena.allocate, mkTrade, Trade.new,
        okTrades, U64, U32, hA, hB, hG, hmin1, heq, Nat.sub_self]
  · intro hlt
    have hmin1 : min qAgg qA = qA := Nat.min_eq_right (by omega)
    have hrem : 0 < qAgg - qA := by omega
    have hmin2 : min (qAgg - qA) qB = qAgg - qA := Nat.min_eq_left (by omega)
    have hne2 : ¬ (qB - (qAgg - qA) = 0) := by omega
    simp [OrderBook.limit_order, C3bookAB, OrderBook.buyPhase, OrderBook.buyLoop,
      OrderBook.match_at_price, matchLoop, matchStep, processEntry, OrderEntry.is_active,
      OrderEntry.new, OrderArena.get, OrderArena.setEntry, OrderBook.find_next_ask, scanUp,
      Function.update_apply, PricePoint.is_empty, PricePoint.default, PricePoint.push_back,
      OrderBook.finishBuy, OrderBook.add_order, OrderArena.allocate, mkTrade, Trade.new,
      okTrades, U64, U32, hA, hB, hG, hmin1, hrem, hmin2, hne2, Nat.sub_self]

/-- C3: strict FIFO within a price level. In every reachable book, consider
the resting FIFO chain of any price level the aggressor's side matches
against (the asks for a buy, the bids for a sell). If, after any completed
`limit_order` call, a later live order of that chain has lost any quantity,
then every earlier live order of the same chain has been consumed
completely — arrival position alone decides, never size or trader. -/
theorem C3_fifo_within_price_level {b : OrderBook} (hr : Reachable b)
    {t : TraderId} {s : Side} {p q : Nat} {b' : OrderBook} {oid : Nat}
    {tr : List Trade}
    (h : b.limit_order t s p q = Except.ok (b', oid, tr))
    {P : Nat} (hP : P < b.maxPrice) {c : List Nat}
    (hc : isChain b.arena (oppLevel b s P).first_order_idx c = true)
    {k1 k2 : Nat} (hk : k1 < k2) (hk1 : k1 < c.length) (hk2 : k2 < c.length)
    {i j : Nat} {eA eB : OrderEntry}
    (hgi : c.get ⟨k1, hk1⟩ = i) (hgj : c.get ⟨k2, hk2⟩ = j)
    (hgA : b.arena.get i = some eA) (hgB : b.arena.get j = some eB)
    (hA : 0 < eA.quantity) (hB : 0 < eB.quantity)
    (hdec : entryQty b'.arena j < eB.quantity) :
    entryQty b'.arena i = 0 := by
  have hcw : ChainsWF b := reachable_cwf hr
  rw [OrderBook.limit_order] at h
  by_cases hU : b.next_order_id + 1 ≤ U64 - 1
  · rw [if_pos hU] at h
    cases s with
    | Buy =>
      cases hph : OrderBook.buyPhase { b with next_order_id := b.next_order_id + 1 }
          t b.next_order_id p q with
      | error err => simp only [hph] at h; exact Except.noConfusion h
      | ok res =>
        obtain ⟨b1, remaining, trades⟩ := res
        simp only [hph] at h
        rw [OrderBook.buyPhase] at hph
        dsimp only at hph
        cases ham : b.ask_min with
        | none =>
          rw [ham] at hph
          obtain rfl := congrArg Prod.fst (Except.ok.inj hph)
          have hjl : j < b.arena.entries.length := OrderArena.lt_length_of_get hgB
          have hqj := finishBuy_entryQty h j hjl
          rw [hqj] at hdec
          dsimp only at hdec
          simp only [entryQty, hgB] at hdec
          exact absurd hdec (lt_irrefl _)
        | some a0 =>
          rw [ham] at hph
          cases hbl : OrderBook.buyLoop t b.next_order_id p (b.maxPrice + 2)
              { b with ask_min := some a0, next_order_id := b.next_order_id + 1 }
              a0 q [] with
          | error err => simp only [hbl] at hph; exact Except.noConfusion hph
          | ok res2 =>
            obtain ⟨bl, reml, trl⟩ := res2
            simp only [hbl] at hph
            obtain rfl := congrArg Prod.fst (Except.ok.inj hph)
            have hcw0 : ChainsWF
                ({ b with ask_min := some a0, next_order_id := b.next_order_id + 1 } :
                  OrderBook) :=
              cwf_congr (b := b) (fun y => rfl) rfl rfl rfl hcw
            have hnx := buyLoop_nextEq hbl hcw0
            obtain ⟨e2, hge2⟩ := get_some_of_entryNext (hnx j) hgB
            have hjl : j < bl.arena.entries.length := OrderArena.lt_length_of_get hge2
            obtain ⟨e3, hge3⟩ := get_some_of_entryNext (hnx i) hgA
            have hil : i < bl.arena.entries.length := OrderArena.lt_length_of_get hge3
            have hqj := finishBuy_entryQty h j hjl
            have hqi := finishBuy_entryQty h i hil
            rw [hqj] at hdec
            rw [hqi]
            exact buyLoop_fifo hbl hcw0 hP hc hk hk1 hk2 hgi hgj hgA hgB hA hB hdec
    | Sell =>
      cases hph : OrderBook.sellPhase { b with next_order_id := b.next_order_id + 1 }
          t b.next_order_id p q with
      | error err => simp only [hph] at h; exact Except.noConfusion h
      | ok res =>
        obtain ⟨b1, remaining, trades⟩ := res
        simp only [hph] at h
        rw [OrderBook.sellPhase] at hph
        dsimp only at hph
        cases ham : b.bid_max with
        | none =>
          rw [ham] at hph
          obtain rfl := congrArg Prod.fst (Except.ok.inj hph)
          have hjl : j < b.arena.entries.length := OrderArena.lt_length_of_get hgB
          have hqj := finishSell_entryQty h j hjl
          rw [hqj] at hdec
          dsimp only at hdec
          simp only [entryQty, hgB] at hdec
          exact absurd hdec (lt_irrefl _)
        | some a0 =>
          rw [ham] at hph
          cases hbl : OrderBook.sellLoop t b.next_order_id p (b.maxPrice + 2)
              { b with bid_max := some a0, next_order_id := b.next_order_id + 1 }
              a0 q [] with
          | error err => simp only [hbl] at hph; exact Except.noConfusion hph
          | ok res2 =>
            obtain ⟨bl, reml, trl⟩ := res2
            simp only [hbl] at hph
            obtain rfl := congrArg Prod.fst (Except.ok.inj hph)
            have hcw0 : ChainsWF
                ({ b with bid_max := some a0, next_order_id := b.next_order_id + 1 } :
                  OrderBook) :=
              cwf_congr (b := b) (fun y => rfl) rfl rfl rfl hcw
            have hnx := sellLoop_nextEq hbl hcw0
            obtain ⟨e2, hge2⟩ := get_some_of_entryNext (hnx j) hgB
            have hjl : j < bl.arena.entries.length := OrderArena.lt_length_of_get hge2
            obtain ⟨e3, hge3⟩ := get_some_of_entryNext (hnx i) hgA
            have hil : i < bl.arena.entries.length := OrderArena.lt_length_of_get hge3
            have hqj := finishSell_entryQty h j hjl
            have hqi := finishSell_entryQty h i hil
            rw [hqj] at hdec
            rw [hqi]
            exact sellLoop_fifo hbl hcw0 hP hc hk hk1 hk2 hgi hgj hgA hgB hA hB hdec
  · rw [if_neg hU] at h
    exact Except.noConfusion h

theorem C3_witness :
    entryQty (okBook ((C3bookAB ⟨1⟩ ⟨2⟩ 5 7).limit_order ⟨3⟩ Side.Buy 3 9)
      (C3bookAB ⟨1⟩ ⟨2⟩ 5 7)).arena 0 = 0 := by
  have hr : Reachable (C3bookAB ⟨1⟩ ⟨2⟩ 5 7) :=
    Reachable.limit (Reachable.limit (Reachable.init 8 4 (by decide) (by decide))
      (C3sellA ⟨1⟩ 5 (by decide))) (C3sellB ⟨1⟩ ⟨2⟩ 5 7 (by decide))
  have h : (C3bookAB ⟨1⟩ ⟨2⟩ 5 7).limit_order ⟨3⟩ Side.Buy 3 9 =
      Except.ok (okBook ((C3bookAB ⟨1⟩ ⟨2⟩ 5 7).limit_order ⟨3⟩ Side.Buy 3 9)
        (C3bookAB ⟨1⟩ ⟨2⟩ 5 7), 3,
        [Trade.new ⟨3⟩ ⟨1⟩ 3 5, Trade.new ⟨3⟩ ⟨2⟩ 3 4]) := by rfl
  exact C3_fifo_within_price_level hr h
    (show (3 : Nat) < (C3bookAB ⟨1⟩ ⟨2⟩ 5 7).maxPrice by decide)
    (show isChain (C3bookAB ⟨1⟩ ⟨2⟩ 5 7).arena
      (oppLevel (C3bookAB ⟨1⟩ ⟨2⟩ 5 7) Side.Buy 3).first_order_idx [0, 1] = true
      from rfl)
    (show (0 : Nat) < 1 by decide)
    (show (0 : Nat) < ([0, 1] : List Nat).length by decide)
    (show (1 : Nat) < ([0, 1] : List Nat).length by decide)
    rfl rfl
    (show (C3bookAB ⟨1⟩ ⟨2⟩ 5 7).arena.get 0 = some ⟨1, ⟨1⟩, 5, some 1⟩ from rfl)
    (show (C3bookAB ⟨1⟩ ⟨2⟩ 5 7).arena.get 1 = some ⟨2, ⟨2⟩, 7, none⟩ from rfl)
    (by decide) (by decide) (by decide)

/-- Selling 3 × `q1` into a fresh book rests it as order id 1. -/
theorem C4sell (t1 : TraderId) (q1 : Nat) (hq1 : 0 < q1) :
    (OrderBook.with_capacity 8 4).limit_order t1 Side.Sell 3 q1 =
      Except.ok (C4book t1 q1, 1, []) := by
  simp only [OrderBook.limit_order, OrderBook.with_capacity, OrderBook.sellPhase,
    OrderBook.finishSell, OrderBook.add_order, OrderArena.allocate, OrderArena.new,
    List.length_nil, PricePoint.default]
  rw [if_pos (by decide)]
  simp only [if_pos hq1, if_neg (by decide : ¬ (4:Nat) ≤ 0), if_pos (by decide : (3:Nat) < 8)]
  rfl

/-- The fills of a buy limited at 5 against the sell resting at 3. -/
theorem C4buy (t1 t2 : TraderId) (q1 q2 : Nat) (hq1 : 0 < q1) (hq2 : 0 < q2) :
    okTrades ((C4book t1 q1).limit_order t2 Side.Buy 5 q2) =
      [Trade.new t2 t1 3 (min q2 q1)] := by
  by_cases hc : q1 ≤ q2
  · have hmin : min q2 q1 = q1 := Nat.min_eq_right hc
    by_cases hres : q1 < q2
    · have hres' : 0 < q2 - q1 := by omega
      simp [OrderBook.limit_order, C4book, OrderBook.buyPhase, OrderBook.buyLoop,
        OrderBook.match_at_price, matchLoop, matchStep, processEntry, OrderEntry.is_active,
        OrderEntry.new, OrderArena.get, OrderArena.setEntry, OrderBook.find_next_ask, scanUp,
        Function.update_apply, PricePoint.is_empty, PricePoint.default, PricePoint.push_back,
        OrderBook.finishBuy, OrderBook.add_order, OrderArena.allocate, mkTrade, Trade.new,
        okTrades, U64, U32, hq1, hq2, hmin, hres', Nat.sub_self]
    · have hres0 : q2 - q1 = 0 := by omega
      simp [OrderBook.limit_order, C4book, OrderBook.buyPhase, OrderBook.buyLoop,
        OrderBook.match_at_price, matchLoop, matchStep, processEntry, OrderEntry.is_active,
        OrderEntry.new, OrderArena.get, OrderArena.setEntry, OrderBook.find_next_ask, scanUp,
        Function.update_apply, PricePoint.is_empty, PricePoint.default, PricePoint.push_back,
        OrderBook.finishBuy, OrderBook.add_order, OrderArena.allocate, mkTrade, Trade.new,
        okTrades, U64, U32, hq1, hq2, hmin, hres0, Nat.sub_self]
  · have hmin : min q2 q1 = q2 := Nat.min_eq_left (by omega)
    have hne : ¬ (q1 - q2 = 0) := by omega
    simp [OrderBook.limit_order, C4book, OrderBook.buyPhase, OrderBook.buyLoop,
      OrderBook.match_at_price, matchLoop, matchStep, processEntry, OrderEntry.is_active,
      OrderEntry.new, OrderArena.get, OrderArena.setEntry, OrderBook.find_next_ask, scanUp,
      Function.update_apply, PricePoint.is_empty, PricePoint.default, PricePoint.push_back,
      OrderBook.finishBuy, OrderBook.add_order, OrderArena.allocate, mkTrade, Trade.new,
      okTrades, U64, U32, hq1, hq2, hmin, hne, Nat.sub_self]

/-- C4: every trade of a `limit_order` call carries the resting order's
price, never the aggressor's limit. On every reachable book, each returned
trade's price is a real level of the pre-call book on the side the aggressor
matches against, that level is non-empty, the price is within the
aggressor's limit (at most the limit for a buy, at least it for a sell), the
aggressor's trader sits on its own side of the trade, and the counterparty
is a live resting entry of that level's FIFO chain whose trader is the
trade's other party. -/
theorem C4_trade_price_is_resting_price {b : OrderBook} (hr : Reachable b)
    {t : TraderId} {s : Side} {p q : Nat} {b' : OrderBook} {oid : Nat}
    {tr : List Trade}
    (h : b.limit_order t s p q = Except.ok (b', oid, tr)) :
    ∀ td, td ∈ tr →
      td.price < b.maxPrice ∧
      (oppLevel b s td.price).is_empty = false ∧
      (match s with
       | Side.Buy => td.price ≤ p ∧ td.buyer = t
       | Side.Sell => p ≤ td.price ∧ td.seller = t) ∧
      ∃ i e c,
        isChain b.arena (oppLevel b s td.price).first_order_idx c = true ∧
        i ∈ c ∧ b.arena.get i = some e ∧ 0 < e.quantity ∧
        td = mkTrade s t e.trader td.price td.quantity := by
  intro td htd
  have hcw : ChainsWF b := reachable_cwf hr
  rw [OrderBook.limit_order] at h
  by_cases hU : b.next_order_id + 1 ≤ U64 - 1
  · rw [if_pos hU] at h
    cases s with
    | Buy =>
      cases hph : OrderBook.buyPhase { b with next_order_id := b.next_order_id + 1 }
          t b.next_order_id p q with
      | error err => simp only [hph] at h; exact Except.noConfusion h
      | ok res =>
        obtain ⟨b1, remaining, trades⟩ := res
        simp only [hph] at h
        have htr2 := finishBuy_tr h
        subst htr2
        rw [OrderBook.buyPhase] at hph
        dsimp only at hph
        cases ham : b.ask_min with
        | none =>
          rw [ham] at hph
          have h2 := Except.ok.inj hph
          simp only [Prod.mk.injEq] at h2
          obtain ⟨-, -, htre⟩ := h2
          rw [← htre] at htd
          exact absurd htd (List.not_mem_nil td)
        | some a0 =>
          rw [ham] at hph
          cases hbl : OrderBook.buyLoop t b.next_order_id p (b.maxPrice + 2)
              { b with ask_min := some a0, next_order_id := b.next_order_id + 1 }
              a0 q [] with
          | error err => simp only [hbl] at hph; exact Except.noConfusion hph
          | ok res2 =>
            obtain ⟨bl, reml, trl⟩ := res2
            simp only [hbl] at hph
            have h2 := Except.ok.inj hph
            simp only [Prod.mk.injEq] at h2
            obtain ⟨-, -, htre⟩ := h2
            rw [← htre] at htd
            have hcw0 : ChainsWF
                ({ b with ask_min := some a0, next_order_id := b.next_order_id + 1 } :
                  OrderBook) :=
              cwf_congr (b := b) (fun y => rfl) rfl rfl rfl hcw
            have hev0 : Evolved b
                ({ b with ask_min := some a0, next_order_id := b.next_order_id + 1 } :
                  OrderBook) := by
              refine ⟨rfl, fun x e' hg' => ⟨e', hg', rfl, le_rfl⟩, ?_⟩
              intro s1 q1 c1 hq1 hc1
              cases s1 with
              | Buy => exact ⟨c1, List.suffix_rfl, hc1⟩
              | Sell => exact ⟨c1, List.suffix_rfl, hc1⟩
            rcases buyLoop_trades hcw hbl hcw0 hev0 td htd with hin | hres
            · exact absurd hin (List.not_mem_nil td)
            · obtain ⟨hple, hpmax, i, e, cb, hcc, hic, hge, hqe, hteq⟩ := hres
              refine ⟨hpmax, chain_nonempty hcc hic, ⟨hple, ?_⟩,
                i, e, cb, hcc, hic, hge, hqe, hteq⟩
              rw [hteq]
              rfl
    | Sell =>
      cases hph : OrderBook.sellPhase { b with next_order_id := b.next_order_id + 1 }
          t b.next_order_id p q with
      | error err => simp only [hph] at h; exact Except.noConfusion h
      | ok res =>
        obtain ⟨b1, remaining, trades⟩ := res
        simp only [hph] at h
        have htr2 := finishSell_tr h
        subst htr2
        rw [OrderBook.sellPhase] at hph
        dsimp only at hph
        cases ham : b.bid_max with
        | none =>
          rw [ham] at hph
          have h2 := Except.ok.inj hph
          simp only [Prod.mk.injEq] at h2
          obtain ⟨-, -, htre⟩ := h2
          rw [← htre] at htd
          exact absurd htd (List.not_mem_nil td)
        | some a0 =>
          rw [ham] at hph
          cases hbl : OrderBook.sellLoop t b.next_order_id p (b.maxPrice + 2)
              { b with bid_max := some a0, next_order_id := b.next_order_id + 1 }
              a0 q [] with
          | error err => simp only [hbl] at hph; exact Except.noConfusion hph
          | ok res2 =>
            obtain ⟨bl, reml, trl⟩ := res2
            simp only [hbl] at hph
            have h2 := Except.ok.inj hph
            simp only [Prod.mk.injEq] at h2
            obtain ⟨-, -, htre⟩ := h2
            rw [← htre] at htd
            have hcw0 : ChainsWF
                ({ b with bid_max := some a0, next_order_id := b.next_order_id + 1 } :
                  OrderBook) :=
              cwf_congr (b := b) (fun y => rfl) rfl rfl rfl hcw
            have hev0 : Evolved b
                ({ b with bid_max := some a0, next_order_id := b.next_order_id + 1 } :
                  OrderBook) := by
              refine ⟨rfl, fun x e' hg' => ⟨e', hg', rfl, le_rfl⟩, ?_⟩
              intro s1 q1 c1 hq1 hc1
              cases s1 with
              | Buy => exact ⟨c1, List.suffix_rfl, hc1⟩
              | Sell => exact ⟨c1, List.suffix_rfl, hc1⟩
            rcases sellLoop_trades hcw hbl hcw0 hev0 td htd with hin | hres
            · exact absurd hin (List.not_mem_nil td)
            · obtain ⟨hple, hpmax, i, e, cb, hcc, hic, hge, hqe, hteq⟩ := hres
              refine ⟨hpmax, chain_nonempty hcc hic, ⟨hple, ?_⟩,
                i, e, cb, hcc, hic, hge, hqe, hteq⟩
              rw [hteq]
              rfl
  · rw [if_neg hU] at h
    exact Except.noConfusion h

theorem C4_witness :
    (Trade.new ⟨2⟩ ⟨1⟩ 3 5).price < (C4book ⟨1⟩ 5).maxPrice ∧
    (oppLevel (C4book ⟨1⟩ 5) Side.Buy (Trade.new ⟨2⟩ ⟨1⟩ 3 5).price).is_empty
      = false ∧
    ((Trade.new ⟨2⟩ ⟨1⟩ 3 5).price ≤ 5 ∧ (Trade.new ⟨2⟩ ⟨1⟩ 3 5).buyer = ⟨2⟩) ∧
    ∃ i e c,
      isChain (C4book ⟨1⟩ 5).arena
        (oppLevel (C4book ⟨1⟩ 5) Side.Buy
          (Trade.new ⟨2⟩ ⟨1⟩ 3 5).price).first_order_idx c = true ∧
      i ∈ c ∧ (C4book ⟨1⟩ 5).arena.get i = some e ∧ 0 < e.quantity ∧
      Trade.new ⟨2⟩ ⟨1⟩ 3 5 = mkTrade Side.Buy ⟨2⟩ e.trader
        (Trade.new ⟨2⟩ ⟨1⟩ 3 5).price (Trade.new ⟨2⟩ ⟨1⟩ 3 5).quantity := by
  have hr : Reachable (C4book ⟨1⟩ 5) :=
    Reachable.limit (Reachable.init 8 4 (by decide) (by decide))
      (C4sell ⟨1⟩ 5 (by decide))
  have h : (C4book ⟨1⟩ 5).limit_order ⟨2⟩ Side.Buy 5 9 =
      Except.ok (okBook ((C4book ⟨1⟩ 5).limit_order ⟨2⟩ Side.Buy 5 9)
        (C4book ⟨1⟩ 5), 2, [Trade.new ⟨2⟩ ⟨1⟩ 3 5]) := by rfl
  exact C4_trade_price_is_resting_price hr h (Trade.new ⟨2⟩ ⟨1⟩ 3 5) (by decide)

/-- C6: in every reachable book, `bid_max` (when `Some`) is the price of the
highest-priced non-empty bid `PricePoint` (non-empty in the sense of the
code's `is_empty`), and `ask_min` (when `Some`) is the lowest-priced
non-empty ask `PricePoint`; every mutator re-establishes this. -/
theorem C6_cached_best_prices {b : OrderBook} (hr : Reachable b) :
    (∀ p, b.bid_max = some p →
      p < b.maxPrice ∧ (b.bids p).is_empty = false ∧
      ∀ q, q < b.maxPrice → (b.bids q).is_empty = false → q ≤ p) ∧
    (∀ p, b.ask_min = some p →
      p < b.maxPrice ∧ (b.asks p).is_empty = false ∧
      ∀ q, q < b.maxPrice → (b.asks q).is_empty = false → p ≤ q) := by
  obtain ⟨_, _, _, ⟨W4b, W4a⟩, _, _, W7, _⟩ := reachable_WF hr
  constructor
  · intro p hp
    rw [hp] at W4b
    obtain ⟨h1, h2, h3⟩ := scanDown_some_spec (b.maxPrice - 1) W4b.symm
    refine ⟨by omega, h2, ?_⟩
    intro w hw hne
    by_contra hqp
    have := h3 w (by omega) (by omega)
    rw [hne] at this
    exact Bool.noConfusion this
  · intro p hp
    rw [hp] at W4a
    obtain ⟨h1, h2, h3, h4⟩ := scanUp_some_spec b.maxPrice 0 W4a.symm
    refine ⟨by omega, h3, ?_⟩
    intro w hw hne
    by_contra hqp
    have := h4 w (by omega) (by omega)
    rw [hne] at this
    exact Bool.noConfusion this

theorem C6_witness :
    Wb1.bid_max = some 2 ∧ (Wb1.bids 2).is_empty = false := by
  have h1 : Wb0.limit_order ⟨1⟩ Side.Buy 2 5 = Except.ok (Wb1, 1, []) := rfl
  have hr : Reachable Wb1 :=
    Reachable.limit (Reachable.init 8 4 (by decide) (by decide)) h1
  exact ⟨rfl, ((C6_cached_best_prices hr).1 2 rfl).2.1⟩

/-- C9: in every reachable book, `order_index` maps an id to an arena slot if
and only if that slot holds a live (quantity > 0) order with that id; so a
filled or cancelled order is unindexed, and one that fully matched on arrival
was never indexed. -/
theorem C9_order_index_iff {b : OrderBook} (hr : Reachable b) :
    (∀ X i, b.order_index X = some i →
      ∃ e, b.arena.get i = some e ∧ e.order_id = X ∧ 0 < e.quantity) ∧
    (∀ i e, b.arena.get i = some e → 0 < e.quantity →
      b.order_index e.order_id = some i) := by
  obtain ⟨W1, W2, _⟩ := reachable_WF hr
  exact ⟨W1, W2⟩

theorem C9_witness :
    Wb1.order_index 1 = some 0 := by
  have h1 : Wb0.limit_order ⟨1⟩ Side.Buy 2 5 = Except.ok (Wb1, 1, []) := rfl
  have hr : Reachable Wb1 :=
    Reachable.limit (Reachable.init 8 4 (by decide) (by decide)) h1
  exact (C9_order_index_iff hr).2 0 ⟨1, ⟨1⟩, 5, none⟩ rfl (by decide)

/-- C10: a successful `cancel_order` performs exactly one arena write (the
entry's quantity is zeroed, its id, trader and chain link untouched) and one
index removal; the level arrays, both best-price caches, the trade log and
the id counter are unchanged — the dead slot stays linked in its chain. -/
theorem C10_cancel_frame {b : OrderBook} {X idx : Nat} {e : OrderEntry}
    (hidx : b.order_index X = some idx) (hg : b.arena.get idx = some e) :
    (b.cancel_order X).2 = true ∧
    (b.cancel_order X).1.bids = b.bids ∧
    (b.cancel_order X).1.asks = b.asks ∧
    (b.cancel_order X).1.maxPrice = b.maxPrice ∧
    (b.cancel_order X).1.bid_max = b.bid_max ∧
    (b.cancel_order X).1.ask_min = b.ask_min ∧
    (b.cancel_order X).1.trades = b.trades ∧
    (b.cancel_order X).1.next_order_id = b.next_order_id ∧
    (b.cancel_order X).1.arena.capacity = b.arena.capacity ∧
    (b.cancel_order X).1.arena.entries =
      b.arena.entries.set idx ⟨e.order_id, e.trader, 0, e.next_idx⟩ ∧
    (b.cancel_order X).1.order_index = Function.update b.order_index X none := by
  rw [cancel_order_found hidx hg]
  exact ⟨rfl, rfl, rfl, rfl, rfl, rfl, rfl, rfl, rfl, rfl, rfl⟩

theorem C10_witness :
    (Wb1.cancel_order 1).2 = true ∧
    (Wb1.cancel_order 1).1.bid_max = Wb1.bid_max ∧
    (Wb1.cancel_order 1).1.bids = Wb1.bids := by
  have h := @C10_cancel_frame Wb1 1 0 ⟨1, ⟨1⟩, 5, none⟩ rfl rfl
  exact ⟨h.1, h.2.2.2.2.1, h.2.1⟩

/-- C7 (refuting the claimed validation): `limit_order` performs no price
validation; submitting a price at or above the price-array length leads to
the out-of-bounds indexing panic (modelled as an error) when the unmatched
remainder is inserted, not to a recoverable `InvalidPrice` result. -/
theorem C7_out_of_range_price_panics (mp mo : Nat) (t : TraderId) (d q : Nat) :
    (OrderBook.with_capacity mp mo).limit_order t Side.Buy (mp + d) (q + 1) =
      Except.error () := by
  simp only [OrderBook.limit_order, OrderBook.buyPhase, OrderBook.with_capacity,
    OrderBook.finishBuy, OrderBook.add_order, OrderArena.allocate, OrderArena.new,
    List.length_nil]
  rw [if_pos (by decide)]
  simp only [if_pos (Nat.succ_pos q)]
  by_cases hcap : mo ≤ 0
  · rw [if_pos hcap]
  · have hlt : ¬ (mp + d < mp) := by omega
    simp only [if_neg hcap, if_neg hlt]

/-- C8 (refuting the claimed validation): a zero-quantity submission is not
rejected; it returns normally, consumes order id 1 and advances
`next_order_id` to 2 while resting nothing and trading nothing. -/
theorem C8_zero_quantity_consumes_id (mp mo : Nat) (t : TraderId) (p : Nat) :
    (OrderBook.with_capacity mp mo).limit_order t Side.Buy p 0 =
      Except.ok (({ OrderBook.with_capacity mp mo with next_order_id := 2 } :
        OrderBook), 1, []) := by
  simp only [OrderBook.limit_order, OrderBook.buyPhase, OrderBook.with_capacity,
    OrderBook.finishBuy]
  rw [if_pos (by decide)]
  rfl

end Claims

end Lemmas

end RLob
